import Mathlib

/-!
# Verification of the `typescript-webfoundations` virtual-DOM reconciler

This file gives a shallow embedding of the virtual-DOM helper library
(`src/dom.ts` and its revisions) and proves or refutes the frozen claims
about it.

The repository contains several revisions of the same file.  Following the
specification's design note, the feature-complete revision (listeners carried
as `{listener, options}` pairs, children indexed by composite `tag|key`
strings) is treated as the authoritative implementation; it is embedded in
the root namespace below (`createVirtual`, `createElement`, `updateElement`,
`updateAttributes`, `updateListeners`, `updateChildren`, `getMapList`).  The
earlier revision (the checked-in `src/dom.ts`, with plain listener references
and a tag-mismatch guard in `updateElement`) is embedded in namespace `V2`.

The browser DOM is modelled as an explicit store of nodes addressed by
numeric identities (`NodeId`); JavaScript object/function reference equality
becomes decidable equality of those identities.  Every mutating DOM
primitive appends an entry to an operation log carried in the store, so that
"performs zero mutations" claims become equalities of logs (or of whole
stores).  JavaScript `Record`s and `Map`s are modelled as association lists
with JavaScript's insertion-order semantics (`Object.entries` order,
`Map.set` replacing in place, `delete` keeping the order of the rest).
-/

/-- Identity of a live DOM node.  JavaScript compares nodes by object
identity (`===`); we model identities as natural numbers allocated by the
document. -/
abbrev NodeId := Nat

/-- Identity of an event-listener callback: either a plain function or an
object exposing `handleEvent`.  Reference equality of callbacks becomes
equality of these values. -/
inductive Callback where
  | fn (id : Nat)
  | obj (id : Nat)
deriving DecidableEq, Repr

/-- `AddEventListenerOptions`: the delivery options recorded with a
listener.  Absent boolean members behave like `false`, which is how they
are modelled. -/
structure AddOpts where
  capture : Bool := false
  passive : Bool := false
  once : Bool := false
deriving DecidableEq, Repr

/-- The `Listener` type of the authoritative revision:
`{ listener: EventListenerOrEventListenerObject, options?: AddEventListenerOptions }`. -/
structure ListenerEntry where
  listener : Callback
  options : Option AddOpts := none
deriving DecidableEq, Repr

/-- The capture flag an `options` argument denotes, used by the DOM to
identify listeners in `addEventListener`/`removeEventListener`. -/
def captureOf (o : Option AddOpts) : Bool :=
  (o.map AddOpts.capture).getD false

/-- Kind of a live node: element (with tag name and optional namespace),
text, or any other node kind (modelled by `comment`), which the reconciler
classifies as "other" and ignores. -/
inductive NodeKind where
  | element (tagName : String) (namespaceURI : Option String)
  | text (content : String)
  | comment (content : String)
deriving DecidableEq, Repr

/-- A listener the DOM currently has attached to a node via
`addEventListener`: event name, callback, and the options it was attached
with. -/
structure AttachedListener where
  eventName : String
  listener : Callback
  options : Option AddOpts
deriving DecidableEq, Repr

/-- State of a single live node.

`registry` is the per-element hidden side table stored under the reserved
`REGISTERED_LISTENERS` symbol (the "Listener Registry"); the lazily-created
absent table and the empty table behave identically, so both are modelled
as `[]`.  `attached` is the DOM-internal list of listeners actually
attached via `addEventListener`, kept separate from the registry so that
the registry invariant is a real statement. -/
structure NodeData where
  kind : NodeKind
  attributes : List (String × String) := []
  registry : List (String × ListenerEntry) := []
  attached : List AttachedListener := []
  children : List NodeId := []
  parent : Option NodeId := none
deriving DecidableEq, Repr

/-- One call to a mutating DOM primitive. -/
inductive DomOp where
  | createEl (id : NodeId) (tagName : String) (namespaceURI : Option String)
  | createText (id : NodeId) (content : String)
  | setAttr (el : NodeId) (name value : String)
  | removeAttr (el : NodeId) (name : String)
  | addListener (el : NodeId) (name : String) (listener : Callback) (options : Option AddOpts)
  | removeListener (el : NodeId) (name : String) (listener : Callback) (options : Option AddOpts)
  | append (parent : NodeId) (node : NodeId)
  | insert (parent : NodeId) (node : NodeId) (ref : Option NodeId)
  | move (parent : NodeId) (node : NodeId) (ref : Option NodeId)
  | removeNode (parent : NodeId) (node : NodeId)
deriving DecidableEq, Repr

/-- The document: a store of nodes, the id the next created node receives,
the capability flag for the optional `moveBefore` primitive, and the log of
every mutating primitive called so far. -/
structure Dom where
  nextId : NodeId := 0
  nodes : List (NodeId × NodeData) := []
  supportsMoveBefore : Bool := true
  log : List DomOp := []
deriving DecidableEq, Repr

namespace Alist

/-- Lookup in an association list (first match), as JavaScript property
access `m[k]` on objects with unique keys. -/
def find? {κ α : Type _} [DecidableEq κ] (k : κ) : List (κ × α) → Option α
  | [] => none
  | (k', v) :: rest => if k' = k then some v else find? k rest

/-- JavaScript object property assignment `m[k] = v`: replaces the value in
place when the key is present, otherwise appends the new entry. -/
def set {κ α : Type _} [DecidableEq κ] (k : κ) (v : α) : List (κ × α) → List (κ × α)
  | [] => [(k, v)]
  | (k', v') :: rest => if k' = k then (k', v) :: rest else (k', v') :: set k v rest

/-- JavaScript `delete m[k]`: removes the (first) entry with the key,
keeping the order of the remaining entries. -/
def erase {κ α : Type _} [DecidableEq κ] (k : κ) : List (κ × α) → List (κ × α)
  | [] => []
  | (k', v') :: rest => if k' = k then rest else (k', v') :: erase k rest

end Alist

/-- JavaScript `String.prototype.toLowerCase`, modelled character-wise
(the library lower-cases only ASCII tag and event names).  Defined over
the character list so concrete instances evaluate by kernel reduction. -/
def strToLower (s : String) : String :=
  ⟨s.data.map Char.toLower⟩

/-- JavaScript `String.prototype.startsWith`, over character lists. -/
def strStartsWith (s pre : String) : Bool :=
  pre.data.isPrefixOf s.data

/-- JavaScript `String.prototype.slice(n)` for a nonnegative start, over
character lists. -/
def strDrop (s : String) (n : Nat) : String :=
  ⟨s.data.drop n⟩

namespace Dom

/-- Look a node up by identity. -/
def lookupNode (dom : Dom) (id : NodeId) : Option NodeData :=
  Alist.find? id dom.nodes

/-- Replace the state of an existing node (no-op when the id is absent). -/
def setNode (dom : Dom) (id : NodeId) (nd : NodeData) : Dom :=
  { dom with nodes := Alist.set id nd dom.nodes }

/-- Apply a function to the state of a node, when it exists. -/
def modifyNode (dom : Dom) (id : NodeId) (f : NodeData → NodeData) : Dom :=
  match dom.lookupNode id with
  | none => dom
  | some nd => dom.setNode id (f nd)

/-- Append an operation to the log. -/
def logOp (dom : Dom) (op : DomOp) : Dom :=
  { dom with log := dom.log ++ [op] }

/-- `document.createElement` / `document.createElementNS`: allocates a
fresh, parentless element. -/
def createElementPrim (dom : Dom) (tagName : String) (namespaceURI : Option String) :
    NodeId × Dom :=
  let id := dom.nextId
  (id,
    { dom with
      nextId := id + 1
      nodes := dom.nodes ++ [(id, { kind := .element tagName namespaceURI })]
      log := dom.log ++ [.createEl id tagName namespaceURI] })

/-- `document.createTextNode`: allocates a fresh, parentless text node. -/
def createTextNodePrim (dom : Dom) (content : String) : NodeId × Dom :=
  let id := dom.nextId
  (id,
    { dom with
      nextId := id + 1
      nodes := dom.nodes ++ [(id, { kind := .text content })]
      log := dom.log ++ [.createText id content] })

/-- `element.getAttribute(name)` (`none` models `null`). -/
def getAttr (dom : Dom) (el : NodeId) (name : String) : Option String :=
  match dom.lookupNode el with
  | none => none
  | some nd => Alist.find? name nd.attributes

/-- `element.getAttributeNames()`, in attribute order. -/
def getAttrNames (dom : Dom) (el : NodeId) : List String :=
  match dom.lookupNode el with
  | none => []
  | some nd => nd.attributes.map Prod.fst

/-- `element.hasAttribute(name)`. -/
def hasAttr (dom : Dom) (el : NodeId) (name : String) : Bool :=
  (dom.getAttr el name).isSome

/-- `element.setAttribute(name, value)`: replaces the value in place when
present, appends the attribute otherwise. -/
def setAttrPrim (dom : Dom) (el : NodeId) (name value : String) : Dom :=
  (dom.modifyNode el fun nd =>
    { nd with attributes := Alist.set name value nd.attributes }).logOp
    (.setAttr el name value)

/-- `element.removeAttribute(name)`. -/
def removeAttrPrim (dom : Dom) (el : NodeId) (name : String) : Dom :=
  (dom.modifyNode el fun nd =>
    { nd with attributes := Alist.erase name nd.attributes }).logOp
    (.removeAttr el name)

/-- Does the node already have a listener attached that `addEventListener`
would identify with `(name, listener, capture)`? -/
def attachedHas (attached : List AttachedListener) (name : String) (cb : Callback)
    (capture : Bool) : Bool :=
  attached.any fun a =>
    a.eventName = name ∧ a.listener = cb ∧ captureOf a.options = capture

/-- `element.addEventListener(name, listener, options)`: appends the
listener unless one with the same `(name, listener, capture)` identity is
already attached.  The call itself is logged either way. -/
def addListenerPrim (dom : Dom) (el : NodeId) (name : String) (cb : Callback)
    (options : Option AddOpts) : Dom :=
  (dom.modifyNode el fun nd =>
    if attachedHas nd.attached name cb (captureOf options) then nd
    else { nd with attached := nd.attached ++ [⟨name, cb, options⟩] }).logOp
    (.addListener el name cb options)

/-- Remove the first attached listener matching `(name, listener, capture)`. -/
def attachedRemove (name : String) (cb : Callback) (capture : Bool) :
    List AttachedListener → List AttachedListener
  | [] => []
  | a :: rest =>
    if a.eventName = name ∧ a.listener = cb ∧ captureOf a.options = capture then rest
    else a :: attachedRemove name cb capture rest

/-- `element.removeEventListener(name, listener, options)`. -/
def removeListenerPrim (dom : Dom) (el : NodeId) (name : String) (cb : Callback)
    (options : Option AddOpts) : Dom :=
  (dom.modifyNode el fun nd =>
    { nd with attached := attachedRemove name cb (captureOf options) nd.attached }).logOp
    (.removeListener el name cb options)

/-- Write a Listener-Registry entry: `element[REGISTERED_LISTENERS][name] = value`.
A plain property write, not a DOM primitive, hence not logged. -/
def registrySet (dom : Dom) (el : NodeId) (name : String) (entry : ListenerEntry) : Dom :=
  dom.modifyNode el fun nd => { nd with registry := Alist.set name entry nd.registry }

/-- Delete a Listener-Registry entry: `delete element[REGISTERED_LISTENERS][name]`. -/
def registryErase (dom : Dom) (el : NodeId) (name : String) : Dom :=
  dom.modifyNode el fun nd => { nd with registry := Alist.erase name nd.registry }

/-- The registry of an element (absent table ≡ empty table). -/
def registryOf (dom : Dom) (el : NodeId) : List (String × ListenerEntry) :=
  match dom.lookupNode el with
  | none => []
  | some nd => nd.registry

/-- `parent.childNodes`, in document order. -/
def childNodes (dom : Dom) (parent : NodeId) : List NodeId :=
  match dom.lookupNode parent with
  | none => []
  | some nd => nd.children

/-- `node.parentNode`. -/
def parentOf (dom : Dom) (id : NodeId) : Option NodeId :=
  match dom.lookupNode id with
  | none => none
  | some nd => nd.parent

/-- The entry following `n` in a list, if any. -/
def nextInList (n : NodeId) : List NodeId → Option NodeId
  | [] => none
  | [_] => none
  | a :: b :: rest => if a = n then some b else nextInList n (b :: rest)

/-- `node.nextSibling` (`none` models `null`). -/
def nextSiblingOf (dom : Dom) (id : NodeId) : Option NodeId :=
  match dom.parentOf id with
  | none => none
  | some p => nextInList id (dom.childNodes p)

/-- Detach a node from its current parent, if it has one (the implicit
first half of `insertBefore`/`appendChild` on an already-parented node). -/
def detach (dom : Dom) (id : NodeId) : Dom :=
  match dom.parentOf id with
  | none => dom
  | some p =>
    (dom.modifyNode p fun nd =>
      { nd with children := nd.children.erase id }).modifyNode id fun nd =>
        { nd with parent := none }

/-- Insert `n` into a child list immediately before `ref` (append when
`ref` is `none` or absent, the latter unreachable in the embedded code). -/
def insertIntoList (n : NodeId) (ref : Option NodeId) : List NodeId → List NodeId
  | [] => [n]
  | c :: rest =>
    match ref with
    | none => c :: insertIntoList n none rest
    | some r => if c = r then n :: c :: rest else c :: insertIntoList n ref rest

/-- The state change shared by `insertBefore`, `moveBefore` and
`appendChild`: detach the node, splice it into the parent's child list
before `ref`, and point its parent field at the parent. -/
def placeNode (dom : Dom) (parent node : NodeId) (ref : Option NodeId) : Dom :=
  (((dom.detach node).modifyNode parent fun nd =>
      { nd with children := insertIntoList node ref nd.children }).modifyNode node
    fun nd => { nd with parent := some parent })

/-- `parent.insertBefore(node, ref)`. -/
def insertBeforePrim (dom : Dom) (parent node : NodeId) (ref : Option NodeId) : Dom :=
  (dom.placeNode parent node ref).logOp (.insert parent node ref)

/-- `parent.moveBefore(node, ref)`: same splice, atomic move. -/
def moveBeforePrim (dom : Dom) (parent node : NodeId) (ref : Option NodeId) : Dom :=
  (dom.placeNode parent node ref).logOp (.move parent node ref)

/-- `parent.appendChild(node)`. -/
def appendChildPrim (dom : Dom) (parent node : NodeId) : Dom :=
  (dom.placeNode parent node none).logOp (.append parent node)

/-- `parent.removeChild(node)`. -/
def removeChildPrim (dom : Dom) (parent node : NodeId) : Dom :=
  ((dom.modifyNode parent fun nd =>
      { nd with children := nd.children.erase node }).modifyNode node fun nd =>
        { nd with parent := none }).logOp (.removeNode parent node)

/-- `node.nodeType` (1 = element, 3 = text, 8 = comment). -/
def nodeTypeNum (dom : Dom) (id : NodeId) : Nat :=
  match dom.lookupNode id with
  | none => 0
  | some nd =>
    match nd.kind with
    | .element _ _ => 1
    | .text _ => 3
    | .comment _ => 8

/-- `node.tagName` for elements. -/
def tagNameOf (dom : Dom) (id : NodeId) : Option String :=
  match dom.lookupNode id with
  | none => none
  | some nd =>
    match nd.kind with
    | .element t _ => some t
    | _ => none

/-- Serialized markup of a node (`outerHTML`-like, modulo host escaping,
which no claim depends on), with a recursion bound. -/
def serializeN (dom : Dom) : Nat → NodeId → String
  | 0, _ => ""
  | depth + 1, id =>
    match dom.lookupNode id with
    | none => ""
    | some nd =>
      match nd.kind with
      | .text c => c
      | .comment c => "<!--" ++ c ++ "-->"
      | .element t _ =>
        let attrs := nd.attributes.foldl
          (fun acc (p : String × String) =>
            acc ++ " " ++ p.1 ++ "=" ++ "\"" ++ p.2 ++ "\"") ""
        let inner := nd.children.foldl
          (fun acc c => acc ++ serializeN dom depth c) ""
        "<" ++ t ++ attrs ++ ">" ++ inner ++ "</" ++ t ++ ">"

end Dom

/-- The reserved attribute name used as the sibling-matching key. -/
def KEY_ATTRIBUTE : String := "key"

/-- The `VirtualDOM` description record of the authoritative revision:
`{ tagName, namespaceURI?, attributes?, listeners?, children? }`, children
being strings or nested descriptions.  Optional fields distinguish
"omitted" from "explicitly empty" exactly as the source does. -/
inductive VDom where
  | mk (tagName : String) (namespaceURI : Option String)
      (attributes : Option (List (String × String)))
      (listeners : Option (List (String × ListenerEntry)))
      (children : Option (List (String ⊕ VDom)))

/-- `tagName` field of a description. -/
def VDom.tagName : VDom → String
  | .mk t _ _ _ _ => t

/-- `namespaceURI` field of a description. -/
def VDom.namespaceURI : VDom → Option String
  | .mk _ n _ _ _ => n

/-- `attributes` field of a description. -/
def VDom.attributes : VDom → Option (List (String × String))
  | .mk _ _ a _ _ => a

/-- `listeners` field of a description. -/
def VDom.listeners : VDom → Option (List (String × ListenerEntry))
  | .mk _ _ _ l _ => l

/-- `children` field of a description. -/
def VDom.children : VDom → Option (List (String ⊕ VDom))
  | .mk _ _ _ _ c => c

/-- A value of the `VirtualProps` record accepted by `createVirtual`:
`string | EventListenerOrEventListenerObject | Listener`.  Functions and
handler objects are identified by reference. -/
inductive PropValue where
  | str (s : String)
  | fn (id : Nat)
  | handler (id : Nat)
  | pair (entry : ListenerEntry)
deriving DecidableEq, Repr

/-- JavaScript `value.toString()`.  Host stringification of functions and
objects is opaque; no claim inspects those strings. -/
def PropValue.toStr : PropValue → String
  | .str s => s
  | .fn _ => "function"
  | .handler _ => "[object Object]"
  | .pair _ => "[object Object]"

/-- JavaScript truthiness of a prop value (`if (value)`): only the empty
string is falsy among the representable values. -/
def PropValue.truthy : PropValue → Bool
  | .str s => s ≠ ""
  | .fn _ => true
  | .handler _ => true
  | .pair _ => true

/-- The listener the `createVirtual` classification builds from a prop
value, if any: a function or `handleEvent` object becomes
`{ listener: value }`; an object with a `listener` member is taken as the
`Listener` itself; anything else is not a listener. -/
def propListener : PropValue → Option ListenerEntry
  | .fn id => some { listener := .fn id }
  | .handler id => some { listener := .obj id }
  | .pair entry => some entry
  | .str _ => none

/-- One iteration of the `createVirtual` classification loop over the prop
entries: an `on`-prefixed name carrying a listener-shaped value is stored
in the listener record under the lower-cased remainder of the name;
otherwise a truthy value is stringified into the attribute record. -/
def createVirtualStep
    (acc : Option (List (String × String)) × Option (List (String × ListenerEntry)))
    (p : String × PropValue) :
    Option (List (String × String)) × Option (List (String × ListenerEntry)) :=
  let entry? := if strStartsWith p.1 "on" then propListener p.2 else none
  match entry? with
  | some entry =>
    (acc.1, some (Alist.set (strToLower (strDrop p.1 2)) entry (acc.2.getD [])))
  | none =>
    if p.2.truthy then (some (Alist.set p.1 p.2.toStr (acc.1.getD [])), acc.2)
    else acc

/-- `createVirtual(tagName, props?, ...children)` of the authoritative
revision: classifies each prop entry, storing listeners under the
lower-cased name with the `on` prefix removed and truthy non-listener
values as stringified attributes; children are stored verbatim, the field
left unset when no children were passed. -/
def createVirtual (tagName : String) (props : Option (List (String × PropValue)))
    (children : List (String ⊕ VDom)) : VDom :=
  let state : Option (List (String × String)) × Option (List (String × ListenerEntry)) :=
    match props with
    | none => (none, none)
    | some ps => ps.foldl createVirtualStep (none, none)
  .mk tagName none state.1 state.2 (if children.length > 0 then some children else none)

mutual

/-- `createElement(virtual)` of the authoritative revision: creates the
(optionally namespaced) element, sets every attribute, attaches and
registers every listener, and appends materialized children. -/
def createElement (dom : Dom) (d : VDom) : NodeId × Dom :=
  match d with
  | .mk tagName namespaceURI attributes listeners children =>
    let p := dom.createElementPrim tagName namespaceURI
    let element := p.1
    let dom := p.2
    let dom := (attributes.getD []).foldl
      (fun acc q => acc.setAttrPrim element q.1 q.2) dom
    let dom := (listeners.getD []).foldl
      (fun acc q =>
        (acc.addListenerPrim element q.1 q.2.listener q.2.options).registrySet element q.1
          q.2)
      dom
    match children with
    | none => (element, dom)
    | some cs => (element, createChildrenOf dom element cs)

/-- The child loop of `createElement`: descriptions recurse, strings become
text nodes, each appended in order. -/
def createChildrenOf (dom : Dom) (element : NodeId) : List (String ⊕ VDom) → Dom
  | [] => dom
  | (.inl s) :: rest =>
    let p : NodeId × Dom := dom.createTextNodePrim s
    createChildrenOf (p.2.appendChildPrim element p.1) element rest
  | (.inr child) :: rest =>
    let p : NodeId × Dom := createElement dom child
    createChildrenOf (p.2.appendChildPrim element p.1) element rest

end

/-- JavaScript falsiness of the lookup `attributes[name]`
(`!attributes[name]`): true when the name is absent or maps to `""`. -/
def falsyLookup (attributes : List (String × String)) (name : String) : Bool :=
  match Alist.find? name attributes with
  | none => true
  | some v => v = ""

/-- `updateAttributes(element, attributes = {})`: collect the present
names whose lookup in the new mapping is falsy, then set every entry whose
current value differs, then remove the collected names. -/
def updateAttributes (dom : Dom) (element : NodeId) (attributes : List (String × String)) :
    Dom :=
  let namesToRemove := (dom.getAttrNames element).filter fun name => falsyLookup attributes name
  let dom := attributes.foldl
    (fun acc p =>
      if acc.getAttr element p.1 ≠ some p.2 then acc.setAttrPrim element p.1 p.2 else acc)
    dom
  namesToRemove.foldl (fun acc name => acc.removeAttrPrim element name) dom

/-- `updateListeners(element, listeners = {})`: for each registered entry
whose new listener reference differs or is absent, detach it (with its
recorded options) and delete the registry entry; then for each new entry
whose registered listener reference differs, attach it and record it. -/
def updateListeners (dom : Dom) (element : NodeId) (listeners : List (String × ListenerEntry)) :
    Dom :=
  let registered := dom.registryOf element
  let dom := registered.foldl
    (fun acc p =>
      if (Alist.find? p.1 listeners).map ListenerEntry.listener ≠ some p.2.listener then
        (acc.removeListenerPrim element p.1 p.2.listener p.2.options).registryErase element p.1
      else acc)
    dom
  listeners.foldl
    (fun acc p =>
      if (Alist.find? p.1 (acc.registryOf element)).map ListenerEntry.listener ≠
          some p.2.listener then
        (acc.addListenerPrim element p.1 p.2.listener p.2.options).registrySet element p.1 p.2
      else acc)
    dom

/-- The two lookup tables `updateChildren` indexes existing children into:
element buckets keyed by `tag[|key]` (FIFO lists, `getMapList` semantics)
and text nodes keyed by exact content (`Map.set` semantics: a later text
node with equal content replaces the earlier one). -/
structure ChildIndex where
  elements : List (String × List NodeId) := []
  texts : List (String × NodeId) := []
deriving DecidableEq, Repr

/-- `getMapList(elements, key).push(id)`. -/
def bucketPush (m : List (String × List NodeId)) (key : String) (id : NodeId) :
    List (String × List NodeId) :=
  match Alist.find? key m with
  | some l => Alist.set key (l ++ [id]) m
  | none => m ++ [(key, [id])]

/-- `getMapList(elements, key).shift()`: pops the first queued element for
the key; on a miss, `getMapList` still creates the empty bucket. -/
def bucketShift (m : List (String × List NodeId)) (key : String) :
    Option NodeId × List (String × List NodeId) :=
  match Alist.find? key m with
  | some [] => (none, m)
  | some (x :: xs) => (some x, Alist.set key xs m)
  | none => (none, m ++ [(key, [])])

/-- Index key of a live element child: lower-cased tag name, suffixed with
`|` and the `key` attribute value when that attribute is present. -/
def liveElementKey (dom : Dom) (id : NodeId) (tagName : String) : String :=
  let key := strToLower tagName
  if dom.hasAttr id KEY_ATTRIBUTE then
    key ++ "|" ++ ((dom.getAttr id KEY_ATTRIBUTE).getD "")
  else key

/-- Index key of a description child: lower-cased tag name, suffixed with
`|` and the `key` attribute value when that entry is truthy
(`child.attributes?.[KEY_ATTRIBUTE]`). -/
def descKey (d : VDom) : String :=
  let key := strToLower d.tagName
  match d.attributes with
  | none => key
  | some attrs =>
    match Alist.find? KEY_ATTRIBUTE attrs with
    | none => key
    | some v => if v = "" then key else key ++ "|" ++ v

/-- The indexing pass of `updateChildren` over a snapshot of
`parent.childNodes`: element children are queued under their key, text
children stored under their content, other node kinds skipped. -/
def indexChildren (dom : Dom) (ids : List NodeId) : ChildIndex :=
  ids.foldl
    (fun idx id =>
      match dom.lookupNode id with
      | none => idx
      | some nd =>
        match nd.kind with
        | .element tagName _ =>
          { idx with elements := bucketPush idx.elements (liveElementKey dom id tagName) id }
        | .text content => { idx with texts := Alist.set content id idx.texts }
        | .comment _ => idx)
    {}

/-- The matching pass of `updateChildren`: for each new child, pop a live
node with the same key (FIFO per key) or materialize a new one; returns
the new node list, the leftover index, and the store after any
materializations. -/
def buildNewNodes (dom : Dom) (idx : ChildIndex) :
    List (String ⊕ VDom) → List NodeId × ChildIndex × Dom
  | [] => ([], idx, dom)
  | (.inr child) :: rest =>
    let key := descKey child
    match bucketShift idx.elements key with
    | (some element, elements') =>
      let r := buildNewNodes dom { idx with elements := elements' } rest
      (element :: r.1, r.2)
    | (none, elements') =>
      let p := createElement dom child
      let r := buildNewNodes p.2 { idx with elements := elements' } rest
      (p.1 :: r.1, r.2)
  | (.inl s) :: rest =>
    match Alist.find? s idx.texts with
    | some node =>
      let r := buildNewNodes dom { idx with texts := Alist.erase s idx.texts } rest
      (node :: r.1, r.2)
    | none =>
      let p := dom.createTextNodePrim s
      let r := buildNewNodes p.2 idx rest
      (p.1 :: r.1, r.2)

/-- The removal pass of `updateChildren`: every indexed element or text
node not consumed by the matching pass is removed from the parent. -/
def removeLeftovers (dom : Dom) (parent : NodeId) (idx : ChildIndex) : Dom :=
  let dom := idx.elements.foldl
    (fun acc p => p.2.foldl (fun acc2 el => acc2.removeChildPrim parent el) acc) dom
  idx.texts.foldl (fun acc p => acc.removeChildPrim parent p.2) dom

/-- One step of the placement pass: a node already under the parent is
moved (via `moveBefore` when supported, else `insertBefore`) only when its
current next sibling differs from the computed one; a parentless node is
inserted at its position. -/
def placeOne (dom : Dom) (parent node : NodeId) (nextSibling : Option NodeId) : Dom :=
  if dom.parentOf node = some parent then
    if dom.nextSiblingOf node ≠ nextSibling then
      if dom.supportsMoveBefore then dom.moveBeforePrim parent node nextSibling
      else dom.insertBeforePrim parent node nextSibling
    else dom
  else dom.insertBeforePrim parent node nextSibling

/-- The placement pass of `updateChildren`: walk the new node list back to
front, placing each node immediately before its successor in the list. -/
def placeNewNodes (dom : Dom) (parent : NodeId) : List NodeId → Dom
  | [] => dom
  | node :: rest =>
    let dom := placeNewNodes dom parent rest
    placeOne dom parent node rest.head?

/-- `updateChildren(parent, children = [])` of the authoritative revision:
index the existing children, build the new node list (reusing matches,
materializing misses), remove unconsumed nodes, then place the new nodes. -/
def updateChildren (dom : Dom) (parent : NodeId) (children : List (String ⊕ VDom)) : Dom :=
  let idx := indexChildren dom (dom.childNodes parent)
  let r := buildNewNodes dom idx children
  let dom := removeLeftovers r.2.2 parent r.2.1
  placeNewNodes dom parent r.1

/-- `updateElement(element, {attributes, listeners, children})` of the
authoritative revision: updates attributes, listeners and children in
place.  The description's `tagName` is not consulted (the implementation
destructures `Omit<VirtualDOM, "tagName">`), and no error is ever raised. -/
def updateElement (dom : Dom) (element : NodeId) (d : VDom) : Dom :=
  let dom := updateAttributes dom element (d.attributes.getD [])
  let dom := updateListeners dom element (d.listeners.getD [])
  updateChildren dom element (d.children.getD [])

/-! ## The earlier revision (`src/dom.ts`), embedded with a `2` suffix

This revision types listeners as bare `EventListenerOrEventListenerObject`
references (no options), indexes keyed children by the key alone, recursively
reconciles matched children, and guards `updateElement` with node-type and
tag-mismatch checks that throw.  Thrown errors are modelled as an `Option
String` paired with the store at the moment of the throw; recursion is
bounded by fuel, every recursive call consuming one unit. -/

/-- The `VirtualDOM` record of the earlier revision: listeners are bare
callback references.  (Its `Children` type admits only strings and nested
descriptions; the dead `child instanceof Node` branches of the source are
unreachable under that type and not modelled.) -/
inductive VDom2 where
  | mk (tagName : String) (namespaceURI : Option String)
      (attributes : Option (List (String × String)))
      (listeners : Option (List (String × Callback)))
      (children : Option (List (String ⊕ VDom2)))

/-- `tagName` field. -/
def VDom2.tagName : VDom2 → String
  | .mk t _ _ _ _ => t

/-- `attributes` field. -/
def VDom2.attributes : VDom2 → Option (List (String × String))
  | .mk _ _ a _ _ => a

/-- `listeners` field. -/
def VDom2.listeners : VDom2 → Option (List (String × Callback))
  | .mk _ _ _ l _ => l

/-- `children` field. -/
def VDom2.children : VDom2 → Option (List (String ⊕ VDom2))
  | .mk _ _ _ _ c => c

mutual

/-- `createElement(virtual)` of the earlier revision: like the
authoritative one, but listeners are attached without options and recorded
bare (modelled as entries with `options := none`). -/
def createElement2 (dom : Dom) (d : VDom2) : NodeId × Dom :=
  match d with
  | .mk tagName namespaceURI attributes listeners children =>
    let p := dom.createElementPrim tagName namespaceURI
    let element := p.1
    let dom := p.2
    let dom := (attributes.getD []).foldl
      (fun acc q => acc.setAttrPrim element q.1 q.2) dom
    let dom := (listeners.getD []).foldl
      (fun acc q =>
        (acc.addListenerPrim element q.1 q.2 none).registrySet element q.1
          { listener := q.2, options := none })
      dom
    match children with
    | none => (element, dom)
    | some cs => (element, createChildrenOf2 dom element cs)

/-- The child loop of the earlier revision's `createElement`. -/
def createChildrenOf2 (dom : Dom) (element : NodeId) : List (String ⊕ VDom2) → Dom
  | [] => dom
  | (.inl s) :: rest =>
    let p : NodeId × Dom := dom.createTextNodePrim s
    createChildrenOf2 (p.2.appendChildPrim element p.1) element rest
  | (.inr child) :: rest =>
    let p : NodeId × Dom := createElement2 dom child
    createChildrenOf2 (p.2.appendChildPrim element p.1) element rest

end

/-- `updateAttributes` of the earlier revision is textually identical to
the authoritative one. -/
def updateAttributes2 : Dom → NodeId → List (String × String) → Dom :=
  updateAttributes

/-- `updateListeners(element, listeners = {})` of the earlier revision:
bare reference comparison, attach/detach without options. -/
def updateListeners2 (dom : Dom) (element : NodeId) (listeners : List (String × Callback)) :
    Dom :=
  let registered := dom.registryOf element
  let dom := registered.foldl
    (fun acc p =>
      if Alist.find? p.1 listeners ≠ some p.2.listener then
        (acc.removeListenerPrim element p.1 p.2.listener none).registryErase element p.1
      else acc)
    dom
  listeners.foldl
    (fun acc p =>
      if (Alist.find? p.1 (acc.registryOf element)).map ListenerEntry.listener ≠ some p.2 then
        (acc.addListenerPrim element p.1 p.2 none).registrySet element p.1
          { listener := p.2, options := none }
      else acc)
    dom

/-- The index the earlier revision's `updateChildren` builds: keyed
elements in a key → element map (`Map.set`, later same-key children
replacing earlier ones), unkeyed elements in a list, and non-empty text
nodes keyed by content. -/
structure ChildIndex2 where
  keyed : List (String × NodeId) := []
  others : List NodeId := []
  texts : List (String × NodeId) := []
deriving DecidableEq, Repr

/-- The indexing pass of the earlier revision's `updateChildren`. -/
def indexChildren2 (dom : Dom) (ids : List NodeId) : ChildIndex2 :=
  ids.foldl
    (fun idx id =>
      match dom.lookupNode id with
      | none => idx
      | some nd =>
        match nd.kind with
        | .element _ _ =>
          match dom.getAttr id KEY_ATTRIBUTE with
          | some v =>
            if v = "" then { idx with others := idx.others ++ [id] }
            else { idx with keyed := Alist.set v id idx.keyed }
          | none => { idx with others := idx.others ++ [id] }
        | .text c => if c = "" then idx else { idx with texts := Alist.set c id idx.texts }
        | .comment _ => idx)
    {}

/-- The truthy `key` attribute entry of a description, if any
(`child.attributes?.[KEY_ATTRIBUTE]`). -/
def descKeyAttr2 (d : VDom2) : Option String :=
  match d.attributes with
  | none => none
  | some attrs =>
    match Alist.find? KEY_ATTRIBUTE attrs with
    | none => none
    | some v => if v = "" then none else some v

/-- The message of the earlier revision's tag-mismatch throw:
`Expected element with tag name "...", but got "...".` -/
def tagMismatchMsg (wanted got : String) : String :=
  s!"Expected element with tag name \"{wanted}\", but got \"{got}\"."

/-- Result of the earlier revision's matching pass: the new node list, the
leftover index, the store, and the error of a nested `updateElement`
throw, which aborts the whole update. -/
structure Build2 where
  ns : List NodeId
  idx : ChildIndex2
  dom : Dom
  err : Option String

/-- The removal pass of the earlier revision: leftover keyed, unkeyed and
text nodes are removed from the parent. -/
def removeLeftovers2 (dom : Dom) (parent : NodeId) (idx : ChildIndex2) : Dom :=
  (idx.keyed.map Prod.snd ++ idx.others ++ idx.texts.map Prod.snd).foldl
    (fun acc el => acc.removeChildPrim parent el) dom

mutual

/-- `updateElement(element, options)` of the earlier revision: throws on a
non-element node or a (case-insensitive) tag mismatch before doing
anything else, then updates attributes, listeners and children in place.
A `some` second component is the thrown error's message, paired with the
store at the moment of the throw.  Recursion is fuel-bounded; every
recursive call consumes one unit of fuel. -/
def updateElement2 : Nat → Dom → NodeId → VDom2 → Dom × Option String
  | 0, dom, _, _ => (dom, some "out of fuel")
  | fuel + 1, dom, element, d =>
    match dom.lookupNode element with
    | none => (dom, some "missing node")
    | some nd =>
      match nd.kind with
      | .element tagName _ =>
        if strToLower tagName ≠ strToLower d.tagName then
          (dom, some (tagMismatchMsg d.tagName tagName))
        else
          let dom := updateAttributes2 dom element (d.attributes.getD [])
          let dom := updateListeners2 dom element (d.listeners.getD [])
          updateChildren2 fuel dom element (d.children.getD [])
      | _ =>
        let n := dom.nodeTypeNum element
        (dom, some s!"Expected element with type 1, but got {n}.")

/-- `updateChildren(parent, children = [])` of the earlier revision. -/
def updateChildren2 : Nat → Dom → NodeId → List (String ⊕ VDom2) → Dom × Option String
  | 0, dom, _, _ => (dom, some "out of fuel")
  | fuel + 1, dom, parent, children =>
    let idx := indexChildren2 dom (dom.childNodes parent)
    let r := buildNewNodes2 fuel dom idx children
    match r.err with
    | some e => (r.dom, some e)
    | none =>
      let dom := removeLeftovers2 r.dom parent r.idx
      (placeNewNodes dom parent r.ns, none)

/-- The matching pass of the earlier revision: a keyed match (key present,
element found under it, tags equal case-insensitively) is reconciled
recursively and its entry consumed; otherwise the first unkeyed element
with the same tag is reconciled and spliced out; otherwise a new node is
materialized.  Text children reuse a content-equal text node when
available.  A throw inside a recursive reconciliation aborts the pass. -/
def buildNewNodes2 : Nat → Dom → ChildIndex2 → List (String ⊕ VDom2) → Build2
  | 0, dom, idx, _ => ⟨[], idx, dom, some "out of fuel"⟩
  | _ + 1, dom, idx, [] => ⟨[], idx, dom, none⟩
  | fuel + 1, dom, idx, (.inl s) :: rest =>
    (match Alist.find? s idx.texts with
    | some node =>
      let r := buildNewNodes2 fuel dom { idx with texts := Alist.erase s idx.texts } rest
      { r with ns := node :: r.ns }
    | none =>
      let p := dom.createTextNodePrim s
      let r := buildNewNodes2 fuel p.2 idx rest
      { r with ns := p.1 :: r.ns })
  | fuel + 1, dom, idx, (.inr child) :: rest =>
    let keyedHit : Option (String × NodeId) :=
      match descKeyAttr2 child with
      | none => none
      | some key =>
        match Alist.find? key idx.keyed with
        | none => none
        | some element =>
          if (dom.tagNameOf element).map strToLower = some (strToLower child.tagName) then
            some (key, element)
          else none
    match keyedHit with
    | some (key, element) =>
      (match updateElement2 fuel dom element child with
      | (dom', some e) => ⟨[], idx, dom', some e⟩
      | (dom', none) =>
        let r := buildNewNodes2 fuel dom' { idx with keyed := Alist.erase key idx.keyed } rest
        { r with ns := element :: r.ns })
    | none =>
      match idx.others.findIdx?
          (fun el => (dom.tagNameOf el).map strToLower = some (strToLower child.tagName)) with
      | some i =>
        let element := (idx.others.get? i).getD 0
        (match updateElement2 fuel dom element child with
        | (dom', some e) => ⟨[], idx, dom', some e⟩
        | (dom', none) =>
          let r := buildNewNodes2 fuel dom' { idx with others := idx.others.eraseIdx i } rest
          { r with ns := element :: r.ns })
      | none =>
        let p := createElement2 dom child
        let r := buildNewNodes2 fuel p.2 idx rest
        { r with ns := p.1 :: r.ns }

end

/-! ## Well-formedness and invariant predicates -/

/-- Boolean duplicate-freeness of a list. -/
def nodupB {α : Type _} [DecidableEq α] : List α → Bool
  | [] => true
  | x :: xs => if x ∈ xs then false else nodupB xs

/-- Is a node kind an element? -/
def NodeKind.isElement : NodeKind → Bool
  | .element _ _ => true
  | _ => false

/-- Well-formedness of the modelled document, matching what the browser
guarantees of a real one: node ids are unique and below the allocation
counter, child lists repeat no node, a node listed as a child carries the
matching parent pointer, no node is its own parent, and only elements have
children. -/
structure Dom.WF (dom : Dom) : Prop where
  idsNodup : (dom.nodes.map Prod.fst).Nodup
  idsBelow : ∀ p ∈ dom.nodes, p.1 < dom.nextId
  childrenNodup : ∀ p ∈ dom.nodes, p.2.children.Nodup
  childParent : ∀ p ∈ dom.nodes, ∀ c ∈ p.2.children,
    (dom.lookupNode c).map NodeData.parent = some (some p.1)
  noSelfParent : ∀ p ∈ dom.nodes, p.2.parent ≠ some p.1
  leaves : ∀ p ∈ dom.nodes, p.2.kind.isElement = true ∨ p.2.children = []

/-- Decidable check implying `Dom.WF`, for concrete witnesses. -/
def Dom.wfCheck (dom : Dom) : Bool :=
  nodupB (dom.nodes.map Prod.fst) &&
  dom.nodes.all (fun p =>
    decide (p.1 < dom.nextId) &&
    nodupB p.2.children &&
    p.2.children.all (fun c =>
      decide ((dom.lookupNode c).map NodeData.parent = some (some p.1))) &&
    decide (p.2.parent ≠ some p.1) &&
    (p.2.kind.isElement || decide (p.2.children = [])))

/-- The node ids queued in the element buckets of a `ChildIndex`. -/
def poolElems (m : List (String × List NodeId)) : List NodeId :=
  (m.map Prod.snd).flatten

/-- The node ids stored in the text table of a `ChildIndex`. -/
def textIds (m : List (String × NodeId)) : List NodeId :=
  m.map Prod.snd

/-- All node ids a `ChildIndex` still holds for reuse. -/
def poolIds (idx : ChildIndex) : List NodeId :=
  poolElems idx.elements ++ textIds idx.texts

/-- The index is intact relative to a scope of candidate nodes: the pooled
ids are distinct, element buckets hold only element nodes of the scope,
and the text table only text nodes of the scope. -/
def idxOk (dom : Dom) (idx : ChildIndex) (scope : List NodeId) : Prop :=
  (poolIds idx).Nodup ∧
  (∀ n ∈ poolElems idx.elements,
    n ∈ scope ∧ ∃ nd, dom.lookupNode n = some nd ∧ nd.kind.isElement = true) ∧
  (∀ n ∈ textIds idx.texts,
    n ∈ scope ∧ ∃ nd c0, dom.lookupNode n = some nd ∧ nd.kind = .text c0)

/-- The Listener-Registry invariant of a single node: registry names are
unique (a JavaScript object cannot repeat a property name) and the
listeners actually attached to the node are exactly its registry entries,
in order. -/
def NodeData.listenersOk (nd : NodeData) : Prop :=
  (nd.registry.map Prod.fst).Nodup ∧
  nd.attached = nd.registry.map fun p => ⟨p.1, p.2.listener, p.2.options⟩

/-- The Listener-Registry invariant over the whole document. -/
def Dom.listenersOk (dom : Dom) : Prop :=
  ∀ p ∈ dom.nodes, p.2.listenersOk

/-- Sanity of node identities: every node id is below the allocation
counter, so a freshly created node is really a new object.  A real
document guarantees this; the explicit store makes it a hypothesis. -/
def Dom.idsSane (dom : Dom) : Prop :=
  ∀ p ∈ dom.nodes, p.1 < dom.nextId

mutual

/-- Well-formedness of a description as a JavaScript value: listener and
attribute records cannot repeat property names (the association-list model
can, so this excludes those spurious states), recursively. -/
def VDom.recordsWf : VDom → Bool
  | .mk _ _ attrs ls cs =>
    nodupB ((attrs.getD []).map Prod.fst) &&
    nodupB ((ls.getD []).map Prod.fst) &&
    (match cs with
     | none => true
     | some l => childrenRecordsWf l)

/-- `VDom.recordsWf` over a child list. -/
def childrenRecordsWf : List (String ⊕ VDom) → Bool
  | [] => true
  | (.inl _) :: rest => childrenRecordsWf rest
  | (.inr d) :: rest => d.recordsWf && childrenRecordsWf rest

end

/-- One public call into the authoritative revision: materialize a
description or reconcile one onto a live node. -/
inductive ApiCall where
  | create (d : VDom)
  | update (element : NodeId) (d : VDom)

/-- Apply one public call to the document. -/
def applyCall (dom : Dom) : ApiCall → Dom
  | .create d => (createElement dom d).2
  | .update element d => updateElement dom element d

/-- Apply a sequence of public calls to the document, left to right. -/
def applyCalls (dom : Dom) (calls : List ApiCall) : Dom :=
  calls.foldl applyCall dom

/-- Well-formedness of a call's description argument. -/
def ApiCall.wf : ApiCall → Bool
  | .create d => d.recordsWf
  | .update _ d => d.recordsWf

/-! ## Concrete documents and descriptions used by closed theorems -/

/-- A document holding a single, freshly parsed `<div></div>` element. -/
def divOnlyDom : Dom :=
  { nextId := 1, nodes := [(0, { kind := .element "div" none })] }

/-- A document with `<div><span key="1"></span><span key="2"></span></div>`. -/
def spanPairDom : Dom :=
  { nextId := 3
    nodes :=
      [(0, { kind := .element "div" none, children := [1, 2] }),
       (1, { kind := .element "span" none, attributes := [("key", "1")], parent := some 0 }),
       (2, { kind := .element "span" none, attributes := [("key", "2")], parent := some 0 })] }

/-- The children sequence `[span(key=2), span(key=3)]`. -/
def spanPairChildren : List (String ⊕ VDom) :=
  [.inr (.mk "span" none (some [("key", "2")]) none none),
   .inr (.mk "span" none (some [("key", "3")]) none none)]

/-- A document with `<div><span class="a"></span></div>`. -/
def spanClassDom : Dom :=
  { nextId := 2
    nodes :=
      [(0, { kind := .element "div" none, children := [1] }),
       (1, { kind := .element "span" none, attributes := [("class", "a")], parent := some 0 })] }

/-- The description `{tagName: "div", children: ["a", "a"]}` (two equal
text children). -/
def dupTextDesc : VDom :=
  .mk "div" none none none (some [.inl "a", .inl "a"])

/-- A document with `<div foo="bar"></div>`. -/
def fooBarDom : Dom :=
  { nextId := 1
    nodes := [(0, { kind := .element "div" none, attributes := [("foo", "bar")] })] }

/-- A description `div` with one `click` listener (callback reference 1). -/
def clickDesc : VDom :=
  .mk "div" none none (some [("click", { listener := .fn 1 })]) none

/-- A description `div` with a replaced `click` listener (reference 2). -/
def clickDesc2 : VDom :=
  .mk "div" none none (some [("click", { listener := .fn 2 })]) none

/-- A document with `<div>hello</div>` (an element with one text child),
used to exercise the placement property of child reconciliation. -/
def c9Dom : Dom :=
  { nextId := 2
    nodes :=
      [(0, { kind := .element "div" none, children := [1] }),
       (1, { kind := .text "hello", parent := some 0 })] }

/-- A document with `<div><!--x--></div>` (an element whose only child is a
comment node). -/
def c10Dom : Dom :=
  { nextId := 2
    nodes :=
      [(0, { kind := .element "div" none, children := [1] }),
       (1, { kind := .comment "x", parent := some 0 })] }

/-! ## Theorems -/

/-- C7 (confirmed): reconciling `<div><span key=1><span key=2></div>` with
children `[span(key=2), span(key=3)]` yields children `[<span key=2>,
<span key=3>]` in that order; the first child is the very node (id `2`)
that was originally keyed `2`, the second is newly materialized (id `3`,
fresh), and the node originally keyed `1` is no longer a child of the
parent. -/
theorem claim_C7_keyed_reordering :
    (updateChildren spanPairDom 0 spanPairChildren).childNodes 0 = [2, 3] ∧
    ((updateChildren spanPairDom 0 spanPairChildren).lookupNode 2).map
        (fun nd => (nd.kind, nd.attributes)) =
      some (.element "span" none, [("key", "2")]) ∧
    ((updateChildren spanPairDom 0 spanPairChildren).lookupNode 3).map
        (fun nd => (nd.kind, nd.attributes)) =
      some (.element "span" none, [("key", "3")]) ∧
    spanPairDom.nextId ≤ 3 ∧
    (updateChildren spanPairDom 0 spanPairChildren).parentOf 1 = none := by
  decide

/-- C2 (code bug): in the authoritative revision, a description child
matched to a live element by tag-plus-key identity is reused as-is: the
matched `<span class="a">` keeps `class="a"` after reconciling with a
`span` description demanding `class="b"`, and no operation at all is
performed on it — contradicting both the claim and the function's own
documentation ("updates the element to match the specification"). -/
theorem claim_C2_matched_child_not_reconciled :
    ((updateChildren spanClassDom 0
          [.inr (VDom.mk "span" none (some [("class", "b")]) none none)]).lookupNode 1).map
        NodeData.attributes =
      some [("class", "a")] ∧
    (updateChildren spanClassDom 0
        [.inr (VDom.mk "span" none (some [("class", "b")]) none none)]) = spanClassDom := by
  decide

/-- C4 (code bug): reconciling `<div></div>` twice with the same
description `div` with children `["a", "a"]` is not idempotent: the first
pass yields two text children, the second pass yields three (the text
index drops one of the equal-content nodes, so it is neither reused nor
removed and a fresh node is inserted), and the second pass performs
additional mutations. -/
theorem claim_C4_not_idempotent :
    ((updateElement divOnlyDom 0 dupTextDesc).childNodes 0).length = 2 ∧
    ((updateElement (updateElement divOnlyDom 0 dupTextDesc) 0 dupTextDesc).childNodes
        0).length = 3 ∧
    (updateElement (updateElement divOnlyDom 0 dupTextDesc) 0 dupTextDesc).log ≠
      (updateElement divOnlyDom 0 dupTextDesc).log := by
  decide

/-- C5 (code bug): materializing `div` with children `["a", "a"]` and then
reconciling the same description onto the result does not leave the tree
byte-identical: the serialized markup grows from `<div>aa</div>` to
`<div>aaa</div>`. -/
theorem claim_C5_round_trip_not_identity :
    (createElement {} dupTextDesc).2.serializeN 5 (createElement {} dupTextDesc).1 =
      "<div>aa</div>" ∧
    (updateElement (createElement {} dupTextDesc).2 (createElement {} dupTextDesc).1
          dupTextDesc).serializeN 5 (createElement {} dupTextDesc).1 =
      "<div>aaa</div>" := by
  decide

/-- C1 (counterexample): in the authoritative revision `updateElement`
never consults the description's tag name: reconciling a live `<div>` with
a description whose `tagName` is `span` raises no error — it completes and
performs the update (here, setting the `id` attribute). -/
theorem claim_C1_counterexample :
    (updateElement divOnlyDom 0 (VDom.mk "span" none (some [("id", "x")]) none none)).getAttr
        0 "id" =
      some "x" ∧
    (updateElement divOnlyDom 0 (VDom.mk "span" none (some [("id", "x")]) none none)).log ≠
      divOnlyDom.log := by
  decide

/-- C6 (counterexample): with live attributes `{foo: "bar"}` and new
mapping `{foo: ""}`, the name `foo` is in the new mapping yet is removed
(the removal set is computed with a JavaScript truthiness test), so the
update does not remove "exactly the currently-present attribute names that
are not in the new mapping": it first sets `foo=""` and then removes
`foo`. -/
theorem claim_C6_counterexample :
    ((updateAttributes fooBarDom 0 [("foo", "")]).lookupNode 0).map NodeData.attributes =
      some [] ∧
    (updateAttributes fooBarDom 0 [("foo", "")]).log =
      [.setAttr 0 "foo" "", .removeAttr 0 "foo"] := by
  decide

/-- C8 (counterexample): `createVirtual` drops a defined but falsy value:
`createVirtual("div", {foo: ""})` stores no `foo` attribute (the
`attributes` field stays unset) although `""` is neither `null` nor
`undefined`. -/
theorem claim_C8_counterexample :
    (createVirtual "div" (some [("foo", .str "")]) []).attributes = none := by
  decide

/-- C1 (amended): the tag-mismatch rejection lives in the earlier
revision's `updateElement` (the authoritative revision performs no such
check — see the counterexample).  There, whenever the live element's tag
name differs case-insensitively from the description's tag name, the call
throws the tag-mismatch error immediately, returning the store exactly as
it was: no attribute, listener, or child mutation has been performed. -/
theorem claim_C1_amended (fuel : Nat) (dom : Dom) (element : NodeId) (nd : NodeData)
    (tagName : String) (nsuri : Option String) (d : VDom2)
    (hlook : dom.lookupNode element = some nd)
    (hkind : nd.kind = .element tagName nsuri)
    (hne : strToLower tagName ≠ strToLower d.tagName) :
    updateElement2 (fuel + 1) dom element d = (dom, some (tagMismatchMsg d.tagName tagName)) := by
  simp only [updateElement2, hlook, hkind]
  rw [if_pos hne]

/-- Witness for C1 (amended): a live `<div>` reconciled against a
description with tag `span` by the earlier revision throws at once,
leaving the store untouched. -/
theorem claim_C1_amended_witness :
    updateElement2 1 divOnlyDom 0 (VDom2.mk "span" none none none none) =
      (divOnlyDom, some (tagMismatchMsg "span" "div")) :=
  claim_C1_amended 0 divOnlyDom 0 { kind := .element "div" none } "div" none
    (VDom2.mk "span" none none none none) (by decide) rfl (by decide)

/-! ### Association-list lemmas -/

theorem Alist.find?_set_self {κ α : Type _} [DecidableEq κ] (k : κ) (v : α)
    (m : List (κ × α)) : Alist.find? k (Alist.set k v m) = some v := by
  induction m with
  | nil => simp [Alist.set, Alist.find?]
  | cons p rest ih =>
    by_cases h : p.1 = k
    · simp [Alist.set, Alist.find?, h]
    · simp [Alist.set, Alist.find?, h, ih]

theorem Alist.find?_set_ne {κ α : Type _} [DecidableEq κ] {k k' : κ} (v : α)
    (m : List (κ × α)) (h : k' ≠ k) :
    Alist.find? k' (Alist.set k v m) = Alist.find? k' m := by
  induction m with
  | nil => simp [Alist.set, Alist.find?, Ne.symm h]
  | cons p rest ih =>
    by_cases hp : p.1 = k
    · subst hp
      simp [Alist.set, Alist.find?, Ne.symm h]
    · simp [Alist.set, Alist.find?, hp, ih]

theorem Alist.find?_erase_ne {κ α : Type _} [DecidableEq κ] {k k' : κ}
    (m : List (κ × α)) (h : k' ≠ k) :
    Alist.find? k' (Alist.erase k m) = Alist.find? k' m := by
  induction m with
  | nil => simp [Alist.erase]
  | cons p rest ih =>
    by_cases hp : p.1 = k
    · subst hp
      simp [Alist.erase, Alist.find?, Ne.symm h]
    · simp [Alist.erase, Alist.find?, hp, ih]

theorem Alist.find?_eq_none {κ α : Type _} [DecidableEq κ] {k : κ} {m : List (κ × α)} :
    Alist.find? k m = none ↔ k ∉ m.map Prod.fst := by
  induction m with
  | nil => simp [Alist.find?]
  | cons p rest ih =>
    by_cases hp : p.1 = k
    · simp [Alist.find?, hp]
    · simp [Alist.find?, hp, ih, Ne.symm hp]

theorem Alist.find?_erase_self {κ α : Type _} [DecidableEq κ] (k : κ)
    {m : List (κ × α)} (h : (m.map Prod.fst).Nodup) :
    Alist.find? k (Alist.erase k m) = none := by
  induction m with
  | nil => simp [Alist.erase, Alist.find?]
  | cons p rest ih =>
    obtain ⟨a, b⟩ := p
    by_cases hp : a = k
    · subst hp
      simp only [Alist.erase, if_pos rfl]
      exact Alist.find?_eq_none.mpr (by simpa using (List.nodup_cons.mp h).1)
    · simp [Alist.erase, Alist.find?, hp, ih (List.nodup_cons.mp h).2]

theorem Alist.find?_of_mem {κ α : Type _} [DecidableEq κ] {k : κ} {v : α}
    {m : List (κ × α)} (hnd : (m.map Prod.fst).Nodup) (hmem : (k, v) ∈ m) :
    Alist.find? k m = some v := by
  induction m with
  | nil => simp at hmem
  | cons p rest ih =>
    rcases List.mem_cons.mp hmem with h | h
    · simp [← h, Alist.find?]
    · have hk : p.1 ≠ k := by
        intro he
        exact (List.nodup_cons.mp hnd).1 (he ▸ List.mem_map_of_mem Prod.fst h)
      simp [Alist.find?, hk, ih (List.nodup_cons.mp hnd).2 h]

/-! ### Store primitive lemmas -/

theorem Dom.lookupNode_setNode_self (dom : Dom) (id : NodeId) (nd : NodeData) :
    (dom.setNode id nd).lookupNode id = some nd :=
  Alist.find?_set_self id nd dom.nodes

theorem Dom.lookupNode_setNode_ne (dom : Dom) (id : NodeId) (nd : NodeData)
    {id' : NodeId} (h : id' ≠ id) :
    (dom.setNode id nd).lookupNode id' = dom.lookupNode id' :=
  Alist.find?_set_ne nd dom.nodes h

theorem Dom.lookupNode_modifyNode_self (dom : Dom) (id : NodeId) (f : NodeData → NodeData) :
    (dom.modifyNode id f).lookupNode id = (dom.lookupNode id).map f := by
  unfold Dom.modifyNode
  cases h : dom.lookupNode id with
  | none => simp [h]
  | some nd => simp [Dom.lookupNode_setNode_self]

theorem Dom.lookupNode_modifyNode_ne (dom : Dom) (id : NodeId) (f : NodeData → NodeData)
    {id' : NodeId} (h : id' ≠ id) :
    (dom.modifyNode id f).lookupNode id' = dom.lookupNode id' := by
  unfold Dom.modifyNode
  cases hx : dom.lookupNode id with
  | none => rfl
  | some nd => exact Dom.lookupNode_setNode_ne dom id _ h

@[simp]
theorem Dom.log_modifyNode (dom : Dom) (id : NodeId) (f : NodeData → NodeData) :
    (dom.modifyNode id f).log = dom.log := by
  unfold Dom.modifyNode Dom.setNode
  cases dom.lookupNode id <;> rfl

@[simp]
theorem Dom.nextId_modifyNode (dom : Dom) (id : NodeId) (f : NodeData → NodeData) :
    (dom.modifyNode id f).nextId = dom.nextId := by
  unfold Dom.modifyNode Dom.setNode
  cases dom.lookupNode id <;> rfl

@[simp]
theorem Dom.smb_modifyNode (dom : Dom) (id : NodeId) (f : NodeData → NodeData) :
    (dom.modifyNode id f).supportsMoveBefore = dom.supportsMoveBefore := by
  unfold Dom.modifyNode Dom.setNode
  cases dom.lookupNode id <;> rfl

@[simp]
theorem Dom.log_logOp (dom : Dom) (op : DomOp) :
    (dom.logOp op).log = dom.log ++ [op] := rfl

@[simp]
theorem Dom.lookupNode_logOp (dom : Dom) (op : DomOp) (id : NodeId) :
    (dom.logOp op).lookupNode id = dom.lookupNode id := rfl

@[simp]
theorem Dom.nextId_logOp (dom : Dom) (op : DomOp) :
    (dom.logOp op).nextId = dom.nextId := rfl

@[simp]
theorem Dom.log_setAttrPrim (dom : Dom) (el : NodeId) (n v : String) :
    (dom.setAttrPrim el n v).log = dom.log ++ [.setAttr el n v] := by
  unfold Dom.setAttrPrim
  simp

@[simp]
theorem Dom.log_removeAttrPrim (dom : Dom) (el : NodeId) (n : String) :
    (dom.removeAttrPrim el n).log = dom.log ++ [.removeAttr el n] := by
  unfold Dom.removeAttrPrim
  simp

theorem Dom.getAttr_setAttrPrim_ne (dom : Dom) (el el' : NodeId) (n v : String)
    {q : String} (h : q ≠ n) :
    (dom.setAttrPrim el n v).getAttr el' q = dom.getAttr el' q := by
  unfold Dom.setAttrPrim Dom.getAttr
  by_cases he : el' = el
  · subst he
    rw [Dom.lookupNode_logOp, Dom.lookupNode_modifyNode_self]
    cases dom.lookupNode el' with
    | none => rfl
    | some nd => simp [Alist.find?_set_ne _ _ h]
  · rw [Dom.lookupNode_logOp, Dom.lookupNode_modifyNode_ne _ _ _ he]

/-! ### The attribute update (C6) -/

theorem removePass_log (element : NodeId) :
    ∀ (names : List String) (dom : Dom),
      (names.foldl (fun acc nm => acc.removeAttrPrim element nm) dom).log =
        dom.log ++ names.map fun nm => DomOp.removeAttr element nm := by
  intro names
  induction names with
  | nil => intro dom; simp
  | cons nm rest ih =>
    intro dom
    rw [List.foldl_cons, ih]
    simp

theorem setPass_spec (element : NodeId) :
    ∀ (attrs : List (String × String)) (dom : Dom), (attrs.map Prod.fst).Nodup →
      (attrs.foldl
            (fun acc p =>
              if acc.getAttr element p.1 ≠ some p.2 then acc.setAttrPrim element p.1 p.2
              else acc)
            dom).log =
          dom.log ++
            (attrs.filter fun p => dom.getAttr element p.1 ≠ some p.2).map
              (fun p => DomOp.setAttr element p.1 p.2) ∧
      ∀ q, q ∉ attrs.map Prod.fst →
        (attrs.foldl
              (fun acc p =>
                if acc.getAttr element p.1 ≠ some p.2 then acc.setAttrPrim element p.1 p.2
                else acc)
              dom).getAttr element q =
          dom.getAttr element q := by
  intro attrs
  induction attrs with
  | nil => intro dom _; simp
  | cons p rest ih =>
    intro dom hnd
    have hnd' : p.1 ∉ List.map Prod.fst rest ∧ (List.map Prod.fst rest).Nodup := by
      rw [List.map_cons] at hnd
      exact List.nodup_cons.mp hnd
    have hh := hnd'.1
    have ht := hnd'.2
    by_cases hc : dom.getAttr element p.1 = some p.2
    · rw [List.foldl_cons]
      simp only [hc, ne_eq, not_true_eq_false, if_neg, ite_false, not_not]
      have hstep : (if dom.getAttr element p.1 ≠ some p.2
          then dom.setAttrPrim element p.1 p.2 else dom) = dom := by
        simp [hc]
      rw [hstep] at *
      obtain ⟨hlog, hpres⟩ := ih dom ht
      constructor
      · rw [hlog]
        congr 1
        rw [List.filter_cons]
        simp [hc]
      · intro q hq
        exact hpres q (fun h => hq (List.mem_cons_of_mem _ h))
    · rw [List.foldl_cons]
      have hstep : (if dom.getAttr element p.1 ≠ some p.2
          then dom.setAttrPrim element p.1 p.2 else dom) =
          dom.setAttrPrim element p.1 p.2 := by
        simp [hc]
      rw [hstep]
      obtain ⟨hlog, hpres⟩ := ih (dom.setAttrPrim element p.1 p.2) ht
      have hcong : ∀ r ∈ rest,
          (dom.setAttrPrim element p.1 p.2).getAttr element r.1 = dom.getAttr element r.1 := by
        intro r hr
        refine Dom.getAttr_setAttrPrim_ne dom element element p.1 p.2 ?_
        intro he
        exact hh (he ▸ List.mem_map_of_mem Prod.fst hr)
      constructor
      · rw [hlog]
        have hfil :
            rest.filter
                (fun r => (dom.setAttrPrim element p.1 p.2).getAttr element r.1 ≠ some r.2) =
              rest.filter (fun r => dom.getAttr element r.1 ≠ some r.2) := by
          apply List.filter_congr
          intro r hr
          simp [hcong r hr]
        rw [hfil, Dom.log_setAttrPrim]
        rw [List.filter_cons]
        simp [hc]
      · intro q hq
        have hq1 : q ≠ p.1 := by
          intro he
          exact hq (he ▸ List.mem_cons_self _ _)
        have hq2 : q ∉ rest.map Prod.fst := fun h => hq (List.mem_cons_of_mem _ h)
        rw [hpres q hq2]
        exact Dom.getAttr_setAttrPrim_ne dom element element p.1 p.2 hq1

/-- C6 (amended): the attribute update performs, in this order, exactly one
set per entry of the new mapping whose current value differs or is absent
(entries whose current value is equal are untouched), followed by exactly
one removal per currently-present attribute name whose value in the new
mapping is absent or empty (the implementation tests JavaScript
truthiness, so a present name mapped to `""` is also removed — this is the
one correction to the claim, which said "not in the new mapping"). -/
theorem claim_C6_amended (dom : Dom) (element : NodeId)
    (attributes : List (String × String)) (hnd : (attributes.map Prod.fst).Nodup) :
    (updateAttributes dom element attributes).log =
      dom.log ++
        (attributes.filter fun p => dom.getAttr element p.1 ≠ some p.2).map
          (fun p => DomOp.setAttr element p.1 p.2) ++
        ((dom.getAttrNames element).filter fun nm => falsyLookup attributes nm).map
          (fun nm => DomOp.removeAttr element nm) := by
  unfold updateAttributes
  rw [removePass_log, (setPass_spec element attributes dom hnd).1, List.append_assoc]

/-- Witness for C6 (amended): on `<div foo="bar">` with new mapping
`{baz: "1"}`, the update logs exactly a set of `baz` followed by a removal
of `foo`. -/
theorem claim_C6_amended_witness :
    (updateAttributes fooBarDom 0 [("baz", "1")]).log =
      fooBarDom.log ++
        ([("baz", "1")].filter fun p => fooBarDom.getAttr 0 p.1 ≠ some p.2).map
          (fun p => DomOp.setAttr 0 p.1 p.2) ++
        ((fooBarDom.getAttrNames 0).filter fun nm => falsyLookup [("baz", "1")] nm).map
          (fun nm => DomOp.removeAttr 0 nm) :=
  claim_C6_amended fooBarDom 0 [("baz", "1")] (by decide)

/-! ### The virtual-node builder (C8) -/

theorem createVirtual_fold_preserve (n : String) :
    ∀ (ps : List (String × PropValue))
      (acc : Option (List (String × String)) × Option (List (String × ListenerEntry))),
      n ∉ ps.map Prod.fst →
      Alist.find? n ((ps.foldl createVirtualStep acc).1.getD []) =
        Alist.find? n (acc.1.getD []) := by
  intro ps
  induction ps with
  | nil => intro acc _; rfl
  | cons p rest ih =>
    intro acc hn
    have hn1 : n ≠ p.1 := by
      intro he
      exact hn (by simp [he])
    have hn2 : n ∉ rest.map Prod.fst := by
      intro h
      exact hn (by simp [h])
    rw [List.foldl_cons, ih _ hn2]
    unfold createVirtualStep
    cases hE : (if strStartsWith p.1 "on" then propListener p.2 else none) with
    | some entry => simp [hE]
    | none =>
      by_cases htr : p.2.truthy
      · simp [hE, htr, Alist.find?_set_ne _ _ hn1]
      · simp [hE, htr]

theorem createVirtual_fold_stores (n : String) (v : PropValue) :
    ∀ (ps : List (String × PropValue))
      (acc : Option (List (String × String)) × Option (List (String × ListenerEntry))),
      (ps.map Prod.fst).Nodup → (n, v) ∈ ps →
      (if strStartsWith n "on" then propListener v else none) = none →
      v.truthy = true →
      Alist.find? n ((ps.foldl createVirtualStep acc).1.getD []) = some v.toStr := by
  intro ps
  induction ps with
  | nil => intro acc _ hmem; simp at hmem
  | cons p rest ih =>
    intro acc hnd hmem hcls htr
    have hnd' : p.1 ∉ List.map Prod.fst rest ∧ (List.map Prod.fst rest).Nodup := by
      rw [List.map_cons] at hnd
      exact List.nodup_cons.mp hnd
    have hh := hnd'.1
    have ht := hnd'.2
    rcases List.mem_cons.mp hmem with he | he
    · have hp : p = (n, v) := he.symm
      subst hp
      rw [List.foldl_cons]
      rw [createVirtual_fold_preserve n rest _ hh]
      unfold createVirtualStep
      simp only [hcls, htr, ite_true]
      exact Alist.find?_set_self n v.toStr _
    · exact ih _ ht he hcls htr

/-- C8 (amended): every prop entry that is not classified as a listener
and whose value is truthy (non-empty string, function, or object — the
implementation tests JavaScript truthiness, so the defined but falsy `""`
is dropped: this is the one correction to the claim, which said "defined")
is stringified and stored in the description's attributes under its
original name. -/
theorem claim_C8_amended (tagName : String) (ps : List (String × PropValue))
    (cs : List (String ⊕ VDom)) (n : String) (v : PropValue)
    (hnd : (ps.map Prod.fst).Nodup) (hmem : (n, v) ∈ ps)
    (hcls : (if strStartsWith n "on" then propListener v else none) = none)
    (htr : v.truthy = true) :
    Alist.find? n ((createVirtual tagName (some ps) cs).attributes.getD []) =
      some v.toStr := by
  unfold createVirtual
  exact createVirtual_fold_stores n v ps (none, none) hnd hmem hcls htr

/-- Witness for C8 (amended): `createVirtual("p", {id: "x", onClick: f})`
stores `id="x"` as an attribute. -/
theorem claim_C8_amended_witness :
    Alist.find? "id"
        ((createVirtual "p" (some [("id", .str "x"), ("onClick", .fn 7)]) []).attributes.getD
          []) =
      some (PropValue.str "x").toStr :=
  claim_C8_amended "p" [("id", .str "x"), ("onClick", .fn 7)] [] "id" (.str "x") (by decide)
    (by decide) (by decide) (by decide)

/-! ### The Listener-Registry invariant (C3) -/

theorem Alist.mem_of_find? {κ α : Type _} [DecidableEq κ] {k : κ} {v : α}
    {m : List (κ × α)} (h : Alist.find? k m = some v) : (k, v) ∈ m := by
  induction m with
  | nil => simp [Alist.find?] at h
  | cons p rest ih =>
    obtain ⟨a, b⟩ := p
    by_cases hp : a = k
    · subst hp
      rw [Alist.find?, if_pos rfl] at h
      cases h
      exact List.mem_cons_self _ _
    · rw [Alist.find?, if_neg hp] at h
      exact List.mem_cons_of_mem _ (ih h)

theorem Alist.mem_set {κ α : Type _} [DecidableEq κ] {k : κ} {v : α}
    {m : List (κ × α)} {p : κ × α} (h : p ∈ Alist.set k v m) : p = (k, v) ∨ p ∈ m := by
  induction m with
  | nil => simpa [Alist.set] using h
  | cons q rest ih =>
    by_cases hq : q.1 = k
    · rw [Alist.set, if_pos hq] at h
      rcases List.mem_cons.mp h with h1 | h1
      · left
        rw [h1, hq]
      · right
        exact List.mem_cons_of_mem _ h1
    · rw [Alist.set, if_neg hq] at h
      rcases List.mem_cons.mp h with h1 | h1
      · right
        exact h1 ▸ List.mem_cons_self _ _
      · rcases ih h1 with h2 | h2
        · exact Or.inl h2
        · exact Or.inr (List.mem_cons_of_mem _ h2)

theorem Alist.set_of_find?_none {κ α : Type _} [DecidableEq κ] {k : κ} (v : α)
    {m : List (κ × α)} (h : Alist.find? k m = none) : Alist.set k v m = m ++ [(k, v)] := by
  induction m with
  | nil => rfl
  | cons q rest ih =>
    rw [Alist.find?] at h
    by_cases hq : q.1 = k
    · rw [if_pos hq] at h
      cases h
    · rw [if_neg hq] at h
      rw [Alist.set, if_neg hq, ih h, List.cons_append]

theorem Alist.keys_erase_sublist {κ α : Type _} [DecidableEq κ] (k : κ)
    (m : List (κ × α)) : ((Alist.erase k m).map Prod.fst).Sublist (m.map Prod.fst) := by
  induction m with
  | nil => simp [Alist.erase]
  | cons q rest ih =>
    by_cases hq : q.1 = k
    · rw [Alist.erase, if_pos hq]
      exact List.sublist_cons_self _ _
    · rw [Alist.erase, if_neg hq]
      simpa using ih.cons₂ q.1

theorem Dom.listenersOk_modifyNode {dom : Dom} (id : NodeId) {f : NodeData → NodeData}
    (hf : ∀ nd, (f nd).registry = nd.registry ∧ (f nd).attached = nd.attached)
    (h : dom.listenersOk) : (dom.modifyNode id f).listenersOk := by
  unfold Dom.modifyNode
  cases hx : dom.lookupNode id with
  | none => exact h
  | some nd =>
    intro p hp
    rcases Alist.mem_set hp with h1 | h1
    · have hmem : (id, nd) ∈ dom.nodes := Alist.mem_of_find? hx
      have := h _ hmem
      rw [h1]
      unfold NodeData.listenersOk at this ⊢
      rw [(hf nd).1, (hf nd).2]
      exact this
    · exact h _ h1

theorem Dom.listenersOk_logOp {dom : Dom} (op : DomOp) (h : dom.listenersOk) :
    (dom.logOp op).listenersOk := h

theorem Dom.listenersOk_setAttrPrim {dom : Dom} (el : NodeId) (n v : String)
    (h : dom.listenersOk) : (dom.setAttrPrim el n v).listenersOk :=
  Dom.listenersOk_logOp _ (Dom.listenersOk_modifyNode el (fun _ => ⟨rfl, rfl⟩) h)

theorem Dom.listenersOk_removeAttrPrim {dom : Dom} (el : NodeId) (n : String)
    (h : dom.listenersOk) : (dom.removeAttrPrim el n).listenersOk :=
  Dom.listenersOk_logOp _ (Dom.listenersOk_modifyNode el (fun _ => ⟨rfl, rfl⟩) h)

theorem Dom.listenersOk_detach {dom : Dom} (id : NodeId) (h : dom.listenersOk) :
    (dom.detach id).listenersOk := by
  unfold Dom.detach
  cases dom.parentOf id with
  | none => exact h
  | some p =>
    exact Dom.listenersOk_modifyNode id (fun _ => ⟨rfl, rfl⟩)
      (Dom.listenersOk_modifyNode p (fun _ => ⟨rfl, rfl⟩) h)

theorem Dom.listenersOk_placeNode {dom : Dom} (parent node : NodeId) (ref : Option NodeId)
    (h : dom.listenersOk) : (dom.placeNode parent node ref).listenersOk :=
  Dom.listenersOk_modifyNode node (fun _ => ⟨rfl, rfl⟩)
    (Dom.listenersOk_modifyNode parent (fun _ => ⟨rfl, rfl⟩) (Dom.listenersOk_detach node h))

theorem Dom.listenersOk_insertBeforePrim {dom : Dom} (parent node : NodeId)
    (ref : Option NodeId) (h : dom.listenersOk) :
    (dom.insertBeforePrim parent node ref).listenersOk :=
  Dom.listenersOk_logOp _ (Dom.listenersOk_placeNode parent node ref h)

theorem Dom.listenersOk_moveBeforePrim {dom : Dom} (parent node : NodeId)
    (ref : Option NodeId) (h : dom.listenersOk) :
    (dom.moveBeforePrim parent node ref).listenersOk :=
  Dom.listenersOk_logOp _ (Dom.listenersOk_placeNode parent node ref h)

theorem Dom.listenersOk_appendChildPrim {dom : Dom} (parent node : NodeId)
    (h : dom.listenersOk) : (dom.appendChildPrim parent node).listenersOk :=
  Dom.listenersOk_logOp _ (Dom.listenersOk_placeNode parent node none h)

theorem Dom.listenersOk_removeChildPrim {dom : Dom} (parent node : NodeId)
    (h : dom.listenersOk) : (dom.removeChildPrim parent node).listenersOk :=
  Dom.listenersOk_logOp _
    (Dom.listenersOk_modifyNode node (fun _ => ⟨rfl, rfl⟩)
      (Dom.listenersOk_modifyNode parent (fun _ => ⟨rfl, rfl⟩) h))

theorem Dom.listenersOk_createElementPrim {dom : Dom} (t : String) (ns : Option String)
    (h : dom.listenersOk) : (dom.createElementPrim t ns).2.listenersOk := by
  intro p hp
  rcases List.mem_append.mp hp with h1 | h1
  · exact h _ h1
  · rcases List.mem_singleton.mp h1 with h2
    rw [h2]
    exact ⟨List.nodup_nil, rfl⟩

theorem Dom.listenersOk_createTextNodePrim {dom : Dom} (c : String)
    (h : dom.listenersOk) : (dom.createTextNodePrim c).2.listenersOk := by
  intro p hp
  rcases List.mem_append.mp hp with h1 | h1
  · exact h _ h1
  · rcases List.mem_singleton.mp h1 with h2
    rw [h2]
    exact ⟨List.nodup_nil, rfl⟩

theorem Alist.set_set {κ α : Type _} [DecidableEq κ] (k : κ) (v v' : α)
    (m : List (κ × α)) : Alist.set k v' (Alist.set k v m) = Alist.set k v' m := by
  induction m with
  | nil => simp [Alist.set]
  | cons q rest ih =>
    by_cases hq : q.1 = k
    · simp [Alist.set, hq]
    · simp [Alist.set, hq, ih]

theorem attachedHas_mirror_false (name : String) (cb : Callback) (cap : Bool)
    {reg : List (String × ListenerEntry)} (h : Alist.find? name reg = none) :
    Dom.attachedHas (reg.map fun p => ⟨p.1, p.2.listener, p.2.options⟩) name cb cap =
      false := by
  have hk : name ∉ reg.map Prod.fst := Alist.find?_eq_none.mp h
  unfold Dom.attachedHas
  rw [List.any_eq_false]
  intro a ha
  rcases List.mem_map.mp ha with ⟨p, hp, he⟩
  simp only [decide_eq_true_eq] at *
  intro hc
  apply hk
  have hev : p.1 = name := by rw [← he] at hc; exact hc.1
  exact hev ▸ List.mem_map_of_mem Prod.fst hp

theorem attachedRemove_mirror (name : String) (entry : ListenerEntry) :
    ∀ (reg : List (String × ListenerEntry)), (reg.map Prod.fst).Nodup →
      Alist.find? name reg = some entry →
      Dom.attachedRemove name entry.listener (captureOf entry.options)
          (reg.map fun p => ⟨p.1, p.2.listener, p.2.options⟩) =
        (Alist.erase name reg).map fun p => ⟨p.1, p.2.listener, p.2.options⟩ := by
  intro reg
  induction reg with
  | nil => intro _ h; simp [Alist.find?] at h
  | cons q rest ih =>
    intro hnd hf
    obtain ⟨k, e⟩ := q
    by_cases hk : k = name
    · subst hk
      rw [Alist.find?, if_pos rfl] at hf
      cases hf
      rw [List.map_cons, Dom.attachedRemove, Alist.erase, if_pos rfl]
      simp
    · rw [Alist.find?, if_neg hk] at hf
      rw [List.map_cons, Dom.attachedRemove, Alist.erase, if_neg hk, List.map_cons]
      have hnd' : (rest.map Prod.fst).Nodup := by
        rw [List.map_cons] at hnd
        exact (List.nodup_cons.mp hnd).2
      rw [if_neg (by simp [hk]), ih hnd' hf]

theorem Dom.attach_record_spec (dom : Dom) (el : NodeId) (name : String)
    (entry : ListenerEntry) (nd : NodeData) (hel : dom.lookupNode el = some nd)
    (hok : dom.listenersOk) (hnone : Alist.find? name nd.registry = none) :
    ((dom.addListenerPrim el name entry.listener entry.options).registrySet el name
          entry).listenersOk ∧
      ((dom.addListenerPrim el name entry.listener entry.options).registrySet el name
            entry).lookupNode el =
        some
          { nd with
            registry := nd.registry ++ [(name, entry)]
            attached := nd.attached ++ [⟨name, entry.listener, entry.options⟩] } ∧
      ∀ id, id ≠ el →
        ((dom.addListenerPrim el name entry.listener entry.options).registrySet el name
              entry).lookupNode id =
          dom.lookupNode id := by
  have hndOk := hok _ (Alist.mem_of_find? hel)
  have hmirror : nd.attached = nd.registry.map fun p => ⟨p.1, p.2.listener, p.2.options⟩ :=
    hndOk.2
  have hhas :
      Dom.attachedHas nd.attached name entry.listener (captureOf entry.options) = false := by
    rw [hmirror]
    exact attachedHas_mirror_false name entry.listener (captureOf entry.options) hnone
  have hkeys : name ∉ nd.registry.map Prod.fst := Alist.find?_eq_none.mp hnone
  have hreg : Alist.set name entry nd.registry = nd.registry ++ [(name, entry)] :=
    Alist.set_of_find?_none entry hnone
  have step1 :
      (dom.addListenerPrim el name entry.listener entry.options).nodes =
        Alist.set el
          { nd with attached := nd.attached ++ [⟨name, entry.listener, entry.options⟩] }
          dom.nodes := by
    unfold Dom.addListenerPrim Dom.modifyNode Dom.logOp Dom.setNode
    rw [hel]
    simp [hhas]
  have step1look :
      (dom.addListenerPrim el name entry.listener entry.options).lookupNode el =
        some { nd with attached := nd.attached ++ [⟨name, entry.listener, entry.options⟩] } := by
    unfold Dom.lookupNode
    rw [step1]
    exact Alist.find?_set_self el _ dom.nodes
  have step2 :
      ((dom.addListenerPrim el name entry.listener entry.options).registrySet el name
            entry).nodes =
        Alist.set el
          { nd with
            registry := nd.registry ++ [(name, entry)]
            attached := nd.attached ++ [⟨name, entry.listener, entry.options⟩] }
          dom.nodes := by
    unfold Dom.registrySet Dom.modifyNode Dom.setNode
    rw [step1look]
    simp only [step1, Alist.set_set]
    rw [← hreg]
  refine ⟨?_, ?_, ?_⟩
  · intro p hp
    unfold Dom.lookupNode at *
    rw [step2] at hp
    rcases Alist.mem_set hp with h1 | h1
    · rw [h1]
      constructor
      · simp only [List.map_append]
        refine List.Nodup.append hndOk.1 (List.nodup_singleton _) ?_
        intro a ha hb
        rw [List.map_singleton, List.mem_singleton] at hb
        rw [hb] at ha
        exact hkeys ha
      · simp only [List.map_append, hmirror]
        rfl
    · exact hok _ h1
  · unfold Dom.lookupNode
    rw [step2]
    exact Alist.find?_set_self el _ dom.nodes
  · intro id hid
    unfold Dom.lookupNode
    rw [step2]
    exact Alist.find?_set_ne _ dom.nodes hid

theorem Dom.detach_delete_spec (dom : Dom) (el : NodeId) (name : String)
    (entry : ListenerEntry) (nd : NodeData) (hel : dom.lookupNode el = some nd)
    (hok : dom.listenersOk) (hfind : Alist.find? name nd.registry = some entry) :
    ((dom.removeListenerPrim el name entry.listener entry.options).registryErase el
          name).listenersOk ∧
      ((dom.removeListenerPrim el name entry.listener entry.options).registryErase el
            name).lookupNode el =
        some
          { nd with
            registry := Alist.erase name nd.registry
            attached :=
              (Alist.erase name nd.registry).map fun p => ⟨p.1, p.2.listener, p.2.options⟩ } ∧
      ∀ id, id ≠ el →
        ((dom.removeListenerPrim el name entry.listener entry.options).registryErase el
              name).lookupNode id =
          dom.lookupNode id := by
  have hndOk := hok _ (Alist.mem_of_find? hel)
  have hmirror : nd.attached = nd.registry.map fun p => ⟨p.1, p.2.listener, p.2.options⟩ :=
    hndOk.2
  have step1 :
      (dom.removeListenerPrim el name entry.listener entry.options).nodes =
        Alist.set el
          { nd with
            attached :=
              (Alist.erase name nd.registry).map fun p => ⟨p.1, p.2.listener, p.2.options⟩ }
          dom.nodes := by
    unfold Dom.removeListenerPrim Dom.modifyNode Dom.logOp Dom.setNode
    rw [hel]
    simp only []
    rw [hmirror, attachedRemove_mirror name entry nd.registry hndOk.1 hfind]
  have step1look :
      (dom.removeListenerPrim el name entry.listener entry.options).lookupNode el =
        some
          { nd with
            attached :=
              (Alist.erase name nd.registry).map fun p => ⟨p.1, p.2.listener, p.2.options⟩ } := by
    unfold Dom.lookupNode
    rw [step1]
    exact Alist.find?_set_self el _ dom.nodes
  have step2 :
      ((dom.removeListenerPrim el name entry.listener entry.options).registryErase el
            name).nodes =
        Alist.set el
          { nd with
            registry := Alist.erase name nd.registry
            attached :=
              (Alist.erase name nd.registry).map fun p => ⟨p.1, p.2.listener, p.2.options⟩ }
          dom.nodes := by
    unfold Dom.registryErase Dom.modifyNode Dom.setNode
    rw [step1look]
    simp only [step1, Alist.set_set]
  refine ⟨?_, ?_, ?_⟩
  · intro p hp
    unfold Dom.lookupNode at *
    rw [step2] at hp
    rcases Alist.mem_set hp with h1 | h1
    · rw [h1]
      exact ⟨hndOk.1.sublist (Alist.keys_erase_sublist name nd.registry), rfl⟩
    · exact hok _ h1
  · unfold Dom.lookupNode
    rw [step2]
    exact Alist.find?_set_self el _ dom.nodes
  · intro id hid
    unfold Dom.lookupNode
    rw [step2]
    exact Alist.find?_set_ne _ dom.nodes hid

theorem Alist.find?_append_single {κ α : Type _} [DecidableEq κ] (k k2 : κ) (v2 : α)
    (m : List (κ × α)) :
    Alist.find? k (m ++ [(k2, v2)]) =
      match Alist.find? k m with
      | some v => some v
      | none => if k2 = k then some v2 else none := by
  induction m with
  | nil => simp [Alist.find?]
  | cons q rest ih =>
    by_cases hq : q.1 = k
    · simp [Alist.find?, hq]
    · simp [Alist.find?, hq, ih]

theorem nodupB_iff {α : Type _} [DecidableEq α] : ∀ (l : List α), nodupB l = true ↔ l.Nodup := by
  intro l
  induction l with
  | nil => simp [nodupB]
  | cons x xs ih =>
    rw [nodupB]
    by_cases hx : x ∈ xs
    · simp [hx]
    · simp [hx, ih]

theorem foldl_preserve {α : Type _} (P : Dom → Prop) (step : Dom → α → Dom)
    (hstep : ∀ acc a, P acc → P (step acc a)) :
    ∀ (l : List α) (dom : Dom), P dom → P (l.foldl step dom) := by
  intro l
  induction l with
  | nil => intro dom h; exact h
  | cons a rest ih => intro dom h; exact ih _ (hstep dom a h)

theorem Dom.idsSane_modifyNode {dom : Dom} (id : NodeId) (f : NodeData → NodeData)
    (h : dom.idsSane) : (dom.modifyNode id f).idsSane := by
  unfold Dom.modifyNode
  cases hx : dom.lookupNode id with
  | none => exact h
  | some nd =>
    intro p hp
    have hp' : p ∈ Alist.set id (f nd) dom.nodes := hp
    show p.1 < dom.nextId
    rcases Alist.mem_set hp' with h1 | h1
    · rw [h1]
      show id < dom.nextId
      exact h (id, nd) (Alist.mem_of_find? hx)
    · exact h _ h1

theorem Dom.idsSane_logOp {dom : Dom} (op : DomOp) (h : dom.idsSane) :
    (dom.logOp op).idsSane := h

theorem Dom.idsSane_createElementPrim {dom : Dom} (t : String) (ns : Option String)
    (h : dom.idsSane) : (dom.createElementPrim t ns).2.idsSane := by
  intro p hp
  rcases List.mem_append.mp hp with h1 | h1
  · exact Nat.lt_succ_of_lt (h _ h1)
  · rw [List.mem_singleton.mp h1]
    exact Nat.lt_succ_self _

theorem Dom.idsSane_createTextNodePrim {dom : Dom} (c : String) (h : dom.idsSane) :
    (dom.createTextNodePrim c).2.idsSane := by
  intro p hp
  rcases List.mem_append.mp hp with h1 | h1
  · exact Nat.lt_succ_of_lt (h _ h1)
  · rw [List.mem_singleton.mp h1]
    exact Nat.lt_succ_self _

theorem Dom.idsSane_detach {dom : Dom} (id : NodeId) (h : dom.idsSane) :
    (dom.detach id).idsSane := by
  unfold Dom.detach
  cases dom.parentOf id with
  | none => exact h
  | some p => exact Dom.idsSane_modifyNode id _ (Dom.idsSane_modifyNode p _ h)

theorem Dom.idsSane_placeNode {dom : Dom} (parent node : NodeId) (ref : Option NodeId)
    (h : dom.idsSane) : (dom.placeNode parent node ref).idsSane :=
  Dom.idsSane_modifyNode node _ (Dom.idsSane_modifyNode parent _ (Dom.idsSane_detach node h))

theorem Dom.createElementPrim_lookup {dom : Dom} (t : String) (ns : Option String)
    (h : dom.idsSane) :
    (dom.createElementPrim t ns).2.lookupNode dom.nextId =
      some { kind := .element t ns } := by
  unfold Dom.createElementPrim Dom.lookupNode
  rw [Alist.find?_append_single]
  have hn : Alist.find? dom.nextId dom.nodes = none :=
    Alist.find?_eq_none.mpr (by
      intro hmem
      rcases List.mem_map.mp hmem with ⟨p, hp, he⟩
      exact absurd (he ▸ h p hp) (Nat.lt_irrefl _))
  rw [hn]
  simp

theorem Dom.createTextNodePrim_lookup {dom : Dom} (c : String) (h : dom.idsSane) :
    (dom.createTextNodePrim c).2.lookupNode dom.nextId = some { kind := .text c } := by
  unfold Dom.createTextNodePrim Dom.lookupNode
  rw [Alist.find?_append_single]
  have hn : Alist.find? dom.nextId dom.nodes = none :=
    Alist.find?_eq_none.mpr (by
      intro hmem
      rcases List.mem_map.mp hmem with ⟨p, hp, he⟩
      exact absurd (he ▸ h p hp) (Nat.lt_irrefl _))
  rw [hn]
  simp

theorem attachFold_spec (el : NodeId) :
    ∀ (ls : List (String × ListenerEntry)) (dom : Dom) (nd : NodeData),
      dom.lookupNode el = some nd → dom.listenersOk → dom.idsSane →
      (ls.map Prod.fst).Nodup → (∀ q ∈ ls, Alist.find? q.1 nd.registry = none) →
      (ls.foldl
            (fun acc q =>
              (acc.addListenerPrim el q.1 q.2.listener q.2.options).registrySet el q.1 q.2)
            dom).lookupNode el =
          some
            { nd with
              registry := nd.registry ++ ls
              attached := nd.attached ++ ls.map fun q => ⟨q.1, q.2.listener, q.2.options⟩ } ∧
        (ls.foldl
            (fun acc q =>
              (acc.addListenerPrim el q.1 q.2.listener q.2.options).registrySet el q.1 q.2)
            dom).listenersOk ∧
        (ls.foldl
            (fun acc q =>
              (acc.addListenerPrim el q.1 q.2.listener q.2.options).registrySet el q.1 q.2)
            dom).idsSane := by
  intro ls
  induction ls with
  | nil =>
    intro dom nd hel hok hsane _ _
    refine ⟨?_, hok, hsane⟩
    rw [List.foldl_nil, hel]
    simp
  | cons q rest ih =>
    intro dom nd hel hok hsane hnd hnone
    have hnd' : q.1 ∉ List.map Prod.fst rest ∧ (List.map Prod.fst rest).Nodup := by
      rw [List.map_cons] at hnd
      exact List.nodup_cons.mp hnd
    obtain ⟨hA, hB, hC⟩ :=
      Dom.attach_record_spec dom el q.1 q.2 nd hel hok (hnone q (List.mem_cons_self _ _))
    have hsane1 :
        ((dom.addListenerPrim el q.1 q.2.listener q.2.options).registrySet el q.1
            q.2).idsSane :=
      Dom.idsSane_modifyNode el _
        (Dom.idsSane_logOp _ (Dom.idsSane_modifyNode el _ hsane))
    rw [List.foldl_cons]
    obtain ⟨ihl, ihok, ihsane⟩ :=
      ih _ _ hB hA hsane1 hnd'.2
        (by
          intro q' hq'
          rw [Alist.find?_append_single]
          rw [hnone q' (List.mem_cons_of_mem _ hq')]
          rw [if_neg (by
            intro he
            exact hnd'.1 (he ▸ List.mem_map_of_mem Prod.fst hq'))])
    refine ⟨?_, ihok, ihsane⟩
    rw [ihl]
    congr 2
    · simp
    · simp

mutual

theorem createElement_regOk (d : VDom) : ∀ (dom : Dom),
    d.recordsWf = true → dom.listenersOk → dom.idsSane →
    (createElement dom d).2.listenersOk ∧ (createElement dom d).2.idsSane :=
  match d with
  | .mk t nsu attrs ls cs => by
    intro dom hwf hok hsane
    rw [VDom.recordsWf.eq_def] at hwf
    simp only [Bool.and_eq_true] at hwf
    obtain ⟨⟨hwa, hwl⟩, hwc⟩ := hwf
    rw [createElement.eq_def]
    simp only []
    have h0look :
        (dom.createElementPrim t nsu).2.lookupNode dom.nextId =
          some { kind := .element t nsu } :=
      Dom.createElementPrim_lookup t nsu hsane
    have h0ok := Dom.listenersOk_createElementPrim t nsu hok
    have h0sane := Dom.idsSane_createElementPrim t nsu hsane
    have hAttr :
        ((attrs.getD []).foldl
              (fun acc q => acc.setAttrPrim (dom.createElementPrim t nsu).1 q.1 q.2)
              (dom.createElementPrim t nsu).2).listenersOk ∧
          ((attrs.getD []).foldl
              (fun acc q => acc.setAttrPrim (dom.createElementPrim t nsu).1 q.1 q.2)
              (dom.createElementPrim t nsu).2).idsSane ∧
          ∃ nd,
            ((attrs.getD []).foldl
                  (fun acc q => acc.setAttrPrim (dom.createElementPrim t nsu).1 q.1 q.2)
                  (dom.createElementPrim t nsu).2).lookupNode
                (dom.createElementPrim t nsu).1 =
              some nd ∧ nd.registry = [] := by
      refine foldl_preserve
        (fun dm =>
          dm.listenersOk ∧ dm.idsSane ∧
            ∃ nd, dm.lookupNode (dom.createElementPrim t nsu).1 = some nd ∧ nd.registry = [])
        _ ?_ (attrs.getD []) _ ⟨h0ok, h0sane, ⟨_, h0look, rfl⟩⟩
      intro acc a ⟨hko, hks, nd0, hlk, hreg⟩
      refine ⟨Dom.listenersOk_setAttrPrim _ _ _ hko,
        Dom.idsSane_logOp _ (Dom.idsSane_modifyNode _ _ hks), ?_⟩
      refine ⟨{ nd0 with attributes := Alist.set a.1 a.2 nd0.attributes }, ?_, hreg⟩
      show (Dom.logOp _ _).lookupNode _ = _
      rw [Dom.lookupNode_logOp, Dom.lookupNode_modifyNode_self, hlk]
      rfl
    obtain ⟨h1ok, h1sane, nd1, h1look, h1reg⟩ := hAttr
    have hLs :=
      attachFold_spec (dom.createElementPrim t nsu).1 (ls.getD []) _ nd1 h1look h1ok h1sane
        ((nodupB_iff _).mp hwl) (by intro q _; rw [h1reg]; rfl)
    obtain ⟨h2look, h2ok, h2sane⟩ := hLs
    cases cs with
    | none => exact ⟨h2ok, h2sane⟩
    | some l =>
      have hwc' : childrenRecordsWf l = true := hwc
      exact createChildrenOf_regOk l _ _ hwc' h2ok h2sane

theorem createChildrenOf_regOk (cs : List (String ⊕ VDom)) :
    ∀ (dom : Dom) (el : NodeId), childrenRecordsWf cs = true →
      dom.listenersOk → dom.idsSane →
      (createChildrenOf dom el cs).listenersOk ∧ (createChildrenOf dom el cs).idsSane :=
  match cs with
  | [] => by
    intro dom el _ hok hsane
    exact ⟨hok, hsane⟩
  | (.inl s) :: rest => by
    intro dom el hwf hok hsane
    rw [createChildrenOf.eq_def]
    exact createChildrenOf_regOk rest _ el hwf
      (Dom.listenersOk_appendChildPrim _ _
        (Dom.listenersOk_createTextNodePrim s hok))
      (Dom.idsSane_logOp _
        (Dom.idsSane_placeNode _ _ _ (Dom.idsSane_createTextNodePrim s hsane)))
  | (.inr child) :: rest => by
    intro dom el hwf hok hsane
    rw [childrenRecordsWf.eq_def] at hwf
    simp only [Bool.and_eq_true] at hwf
    obtain ⟨hwc, hwr⟩ := hwf
    rw [createChildrenOf.eq_def]
    obtain ⟨hko, hks⟩ := createElement_regOk child dom hwc hok hsane
    exact createChildrenOf_regOk rest _ el hwr
      (Dom.listenersOk_appendChildPrim _ _ hko)
      (Dom.idsSane_logOp _ (Dom.idsSane_placeNode _ _ _ hks))

end

theorem firstLoop_spec (el : NodeId) (listeners : List (String × ListenerEntry)) :
    ∀ (snap : List (String × ListenerEntry)) (dom : Dom) (nd : NodeData),
      dom.lookupNode el = some nd → dom.listenersOk → dom.idsSane →
      (snap.map Prod.fst).Nodup →
      (∀ q ∈ snap, Alist.find? q.1 nd.registry = some q.2) →
      (∀ nm e, Alist.find? nm nd.registry = some e →
        (Alist.find? nm listeners).map ListenerEntry.listener = some e.listener ∨
          (nm, e) ∈ snap) →
      ∃ nd',
        (snap.foldl
              (fun acc p =>
                if (Alist.find? p.1 listeners).map ListenerEntry.listener ≠
                    some p.2.listener then
                  (acc.removeListenerPrim el p.1 p.2.listener p.2.options).registryErase el
                    p.1
                else acc)
              dom).lookupNode el =
            some nd' ∧
          (snap.foldl
              (fun acc p =>
                if (Alist.find? p.1 listeners).map ListenerEntry.listener ≠
                    some p.2.listener then
                  (acc.removeListenerPrim el p.1 p.2.listener p.2.options).registryErase el
                    p.1
                else acc)
              dom).listenersOk ∧
          (snap.foldl
              (fun acc p =>
                if (Alist.find? p.1 listeners).map ListenerEntry.listener ≠
                    some p.2.listener then
                  (acc.removeListenerPrim el p.1 p.2.listener p.2.options).registryErase el
                    p.1
                else acc)
              dom).idsSane ∧
          ∀ nm e, Alist.find? nm nd'.registry = some e →
            (Alist.find? nm listeners).map ListenerEntry.listener = some e.listener := by
  intro snap
  induction snap with
  | nil =>
    intro dom nd hel hok hsane _ _ hagree
    refine ⟨nd, hel, hok, hsane, ?_⟩
    intro nm e hf
    rcases hagree nm e hf with h | h
    · exact h
    · simp at h
  | cons p rest ih =>
    intro dom nd hel hok hsane hnd hsnap hagree
    have hndOk := hok _ (Alist.mem_of_find? hel)
    have hnd' : p.1 ∉ List.map Prod.fst rest ∧ (List.map Prod.fst rest).Nodup := by
      rw [List.map_cons] at hnd
      exact List.nodup_cons.mp hnd
    by_cases hc :
        (Alist.find? p.1 listeners).map ListenerEntry.listener = some p.2.listener
    · simp only [List.foldl_cons, ne_eq, hc, not_true_eq_false, ite_false]
      refine ih dom nd hel hok hsane hnd'.2
        (fun q hq => hsnap q (List.mem_cons_of_mem _ hq)) ?_
      intro nm e hf
      rcases hagree nm e hf with h | h
      · exact Or.inl h
      · rcases List.mem_cons.mp h with h1 | h1
        · have hnm : nm = p.1 := congrArg Prod.fst h1
          have hee : e = p.2 := congrArg Prod.snd h1
          subst hnm
          subst hee
          exact Or.inl hc
        · exact Or.inr h1
    · simp only [List.foldl_cons, ne_eq, hc, not_false_eq_true, ite_true]
      obtain ⟨hA, hB, hC⟩ :=
        Dom.detach_delete_spec dom el p.1 p.2 nd hel hok (hsnap p (List.mem_cons_self _ _))
      have hsane1 :
          ((dom.removeListenerPrim el p.1 p.2.listener p.2.options).registryErase el
              p.1).idsSane :=
        Dom.idsSane_modifyNode el _
          (Dom.idsSane_logOp _ (Dom.idsSane_modifyNode el _ hsane))
      refine ih _ _ hB hA hsane1 hnd'.2 ?_ ?_
      · intro q hq
        show Alist.find? q.1 (Alist.erase p.1 nd.registry) = some q.2
        rw [Alist.find?_erase_ne _ (by
          intro he
          exact hnd'.1 (he ▸ List.mem_map_of_mem Prod.fst hq))]
        exact hsnap q (List.mem_cons_of_mem _ hq)
      · intro nm e hf
        by_cases hnm : nm = p.1
        · exfalso
          have hfe : Alist.find? nm (Alist.erase p.1 nd.registry) = some e := hf
          rw [hnm, Alist.find?_erase_self p.1 hndOk.1] at hfe
          cases hfe
        · have hf' : Alist.find? nm nd.registry = some e := by
            have : Alist.find? nm (Alist.erase p.1 nd.registry) = some e := hf
            rw [Alist.find?_erase_ne _ hnm] at this
            exact this
          rcases hagree nm e hf' with h | h
          · exact Or.inl h
          · rcases List.mem_cons.mp h with h1 | h1
            · exact absurd (congrArg Prod.fst h1) hnm
            · exact Or.inr h1

theorem secondLoop_spec (el : NodeId) (listeners : List (String × ListenerEntry)) :
    ∀ (l2 : List (String × ListenerEntry)) (dom : Dom) (nd : NodeData),
      dom.lookupNode el = some nd → dom.listenersOk → dom.idsSane →
      (∀ q ∈ l2, Alist.find? q.1 listeners = some q.2) →
      (∀ nm e, Alist.find? nm nd.registry = some e →
        (Alist.find? nm listeners).map ListenerEntry.listener = some e.listener) →
      (l2.foldl
            (fun acc p =>
              if (Alist.find? p.1 (acc.registryOf el)).map ListenerEntry.listener ≠
                  some p.2.listener then
                (acc.addListenerPrim el p.1 p.2.listener p.2.options).registrySet el p.1 p.2
              else acc)
            dom).listenersOk ∧
        (l2.foldl
            (fun acc p =>
              if (Alist.find? p.1 (acc.registryOf el)).map ListenerEntry.listener ≠
                  some p.2.listener then
                (acc.addListenerPrim el p.1 p.2.listener p.2.options).registrySet el p.1 p.2
              else acc)
            dom).idsSane := by
  intro l2
  induction l2 with
  | nil =>
    intro dom nd _ hok hsane _ _
    exact ⟨hok, hsane⟩
  | cons p rest ih =>
    intro dom nd hel hok hsane hl2 hagree
    have hreg : dom.registryOf el = nd.registry := by
      unfold Dom.registryOf
      rw [hel]
    have hlp : Alist.find? p.1 listeners = some p.2 := hl2 p (List.mem_cons_self _ _)
    by_cases hc :
        (Alist.find? p.1 nd.registry).map ListenerEntry.listener = some p.2.listener
    · simp only [List.foldl_cons, hreg, ne_eq, hc, not_true_eq_false, ite_false]
      exact ih dom nd hel hok hsane (fun q hq => hl2 q (List.mem_cons_of_mem _ hq)) hagree
    · have hnone : Alist.find? p.1 nd.registry = none := by
        cases hx : Alist.find? p.1 nd.registry with
        | none => rfl
        | some e =>
          exfalso
          have h1 := hagree p.1 e hx
          rw [hlp] at h1
          apply hc
          rw [hx]
          rw [Option.map_some'] at h1 ⊢
          exact h1.symm
      simp only [List.foldl_cons, hreg, ne_eq, hc, not_false_eq_true, ite_true]
      obtain ⟨hA, hB, hC⟩ := Dom.attach_record_spec dom el p.1 p.2 nd hel hok hnone
      have hsane1 :
          ((dom.addListenerPrim el p.1 p.2.listener p.2.options).registrySet el p.1
              p.2).idsSane :=
        Dom.idsSane_modifyNode el _
          (Dom.idsSane_logOp _ (Dom.idsSane_modifyNode el _ hsane))
      refine ih _ _ hB hA hsane1 (fun q hq => hl2 q (List.mem_cons_of_mem _ hq)) ?_
      intro nm e hf
      have hf' :
          Alist.find? nm (nd.registry ++ [(p.1, p.2)]) = some e := hf
      rw [Alist.find?_append_single] at hf'
      cases hx : Alist.find? nm nd.registry with
      | some e0 =>
        rw [hx] at hf'
        cases hf'
        exact hagree nm e hx
      | none =>
        rw [hx] at hf'
        by_cases hnm : p.1 = nm
        · rw [if_pos hnm] at hf'
          cases hf'
          rw [← hnm, hlp]
          rfl
        · rw [if_neg hnm] at hf'
          cases hf'

theorem secondLoop_missing (el : NodeId) :
    ∀ (l2 : List (String × ListenerEntry)) (dom : Dom), dom.lookupNode el = none →
      (l2.foldl
            (fun acc p =>
              if (Alist.find? p.1 (acc.registryOf el)).map ListenerEntry.listener ≠
                  some p.2.listener then
                (acc.addListenerPrim el p.1 p.2.listener p.2.options).registrySet el p.1 p.2
              else acc)
            dom).nodes = dom.nodes ∧
        (l2.foldl
            (fun acc p =>
              if (Alist.find? p.1 (acc.registryOf el)).map ListenerEntry.listener ≠
                  some p.2.listener then
                (acc.addListenerPrim el p.1 p.2.listener p.2.options).registrySet el p.1 p.2
              else acc)
            dom).nextId = dom.nextId := by
  intro l2
  induction l2 with
  | nil => intro dom _; exact ⟨rfl, rfl⟩
  | cons p rest ih =>
    intro dom hel
    have haddm :
        dom.addListenerPrim el p.1 p.2.listener p.2.options =
          dom.logOp (.addListener el p.1 p.2.listener p.2.options) := by
      unfold Dom.addListenerPrim Dom.modifyNode
      rw [hel]
    have hrs :
        (dom.addListenerPrim el p.1 p.2.listener p.2.options).registrySet el p.1 p.2 =
          dom.logOp (.addListener el p.1 p.2.listener p.2.options) := by
      rw [haddm]
      unfold Dom.registrySet Dom.modifyNode
      rw [Dom.lookupNode_logOp, hel]
    have hro : dom.registryOf el = [] := by
      unfold Dom.registryOf
      rw [hel]
    rw [List.foldl_cons]
    simp only [hro, Alist.find?, Option.map_none', ne_eq, reduceCtorEq, not_false_eq_true,
      ite_true, hrs]
    have hel' : (dom.logOp (.addListener el p.1 p.2.listener p.2.options)).lookupNode el =
        none := by
      rw [Dom.lookupNode_logOp]
      exact hel
    obtain ⟨h1, h2⟩ := ih _ hel'
    exact ⟨h1, h2⟩

theorem updateListeners_regOk (dom : Dom) (el : NodeId)
    (listeners : List (String × ListenerEntry)) (hnd : (listeners.map Prod.fst).Nodup)
    (hok : dom.listenersOk) (hsane : dom.idsSane) :
    (updateListeners dom el listeners).listenersOk ∧
      (updateListeners dom el listeners).idsSane := by
  unfold updateListeners
  cases hel : dom.lookupNode el with
  | none =>
    have hro : dom.registryOf el = [] := by
      unfold Dom.registryOf
      rw [hel]
    simp only [hro, List.foldl_nil]
    obtain ⟨h1, h2⟩ := secondLoop_missing el listeners dom hel
    constructor
    · intro p hp
      rw [h1] at hp
      exact hok _ hp
    · intro p hp
      rw [h1] at hp
      rw [h2]
      exact hsane _ hp
  | some nd =>
    have hndOk := hok _ (Alist.mem_of_find? hel)
    have hro : dom.registryOf el = nd.registry := by
      unfold Dom.registryOf
      rw [hel]
    simp only [hro]
    obtain ⟨nd', h1look, h1ok, h1sane, h1agree⟩ :=
      firstLoop_spec el listeners nd.registry dom nd hel hok hsane hndOk.1
        (fun q hq => Alist.find?_of_mem hndOk.1 hq)
        (fun nm e hf => Or.inr (Alist.mem_of_find? hf))
    exact secondLoop_spec el listeners listeners _ nd' h1look h1ok h1sane
      (fun q hq => Alist.find?_of_mem hnd hq) h1agree

theorem updateAttributes_regOk (dom : Dom) (el : NodeId)
    (attrs : List (String × String)) (hok : dom.listenersOk) (hsane : dom.idsSane) :
    (updateAttributes dom el attrs).listenersOk ∧ (updateAttributes dom el attrs).idsSane := by
  unfold updateAttributes
  refine foldl_preserve (fun dm => dm.listenersOk ∧ dm.idsSane) _ ?_ _ _
    (foldl_preserve (fun dm => dm.listenersOk ∧ dm.idsSane) _ ?_ _ _ ⟨hok, hsane⟩)
  · intro acc a h
    exact ⟨Dom.listenersOk_removeAttrPrim _ _ h.1,
      Dom.idsSane_logOp _ (Dom.idsSane_modifyNode _ _ h.2)⟩
  · intro acc a h
    by_cases hc : acc.getAttr el a.1 ≠ some a.2
    · rw [if_pos hc]
      exact ⟨Dom.listenersOk_setAttrPrim _ _ _ h.1,
        Dom.idsSane_logOp _ (Dom.idsSane_modifyNode _ _ h.2)⟩
    · rw [if_neg hc]
      exact h

theorem buildNewNodes_regOk :
    ∀ (cs : List (String ⊕ VDom)) (dom : Dom) (idx : ChildIndex),
      childrenRecordsWf cs = true → dom.listenersOk → dom.idsSane →
      (buildNewNodes dom idx cs).2.2.listenersOk ∧ (buildNewNodes dom idx cs).2.2.idsSane := by
  intro cs
  induction cs with
  | nil =>
    intro dom idx _ hok hsane
    exact ⟨hok, hsane⟩
  | cons c rest ih =>
    intro dom idx hwf hok hsane
    cases c with
    | inl s =>
      have hwf' : childrenRecordsWf rest = true := hwf
      rw [buildNewNodes]
      cases hT : Alist.find? s idx.texts with
      | some node =>
        simp only [hT]
        exact ih _ _ hwf' hok hsane
      | none =>
        simp only [hT]
        exact ih _ _ hwf'
          (Dom.listenersOk_createTextNodePrim s hok) (Dom.idsSane_createTextNodePrim s hsane)
    | inr child =>
      rw [childrenRecordsWf.eq_def] at hwf
      simp only [Bool.and_eq_true] at hwf
      obtain ⟨hwc, hwr⟩ := hwf
      rw [buildNewNodes]
      cases hS : bucketShift idx.elements (descKey child) with
      | mk found elements' =>
        cases found with
        | some element =>
          simp only [hS]
          exact ih _ _ hwr hok hsane
        | none =>
          simp only [hS]
          obtain ⟨hko, hks⟩ := createElement_regOk child dom hwc hok hsane
          exact ih _ _ hwr hko hks

theorem removeLeftovers_regOk (dom : Dom) (parent : NodeId) (idx : ChildIndex)
    (hok : dom.listenersOk) (hsane : dom.idsSane) :
    (removeLeftovers dom parent idx).listenersOk ∧ (removeLeftovers dom parent idx).idsSane := by
  unfold removeLeftovers
  refine foldl_preserve (fun dm => dm.listenersOk ∧ dm.idsSane) _ ?_ _ _
    (foldl_preserve (fun dm => dm.listenersOk ∧ dm.idsSane) _ ?_ _ _ ⟨hok, hsane⟩)
  · intro acc a h
    exact ⟨Dom.listenersOk_removeChildPrim _ _ h.1,
      Dom.idsSane_logOp _ (Dom.idsSane_modifyNode _ _ (Dom.idsSane_modifyNode _ _ h.2))⟩
  · intro acc a h
    refine foldl_preserve (fun dm => dm.listenersOk ∧ dm.idsSane) _ ?_ _ _ h
    intro acc2 b h2
    exact ⟨Dom.listenersOk_removeChildPrim _ _ h2.1,
      Dom.idsSane_logOp _ (Dom.idsSane_modifyNode _ _ (Dom.idsSane_modifyNode _ _ h2.2))⟩

theorem placeOne_regOk (dom : Dom) (parent node : NodeId) (ref : Option NodeId)
    (hok : dom.listenersOk) (hsane : dom.idsSane) :
    (placeOne dom parent node ref).listenersOk ∧ (placeOne dom parent node ref).idsSane := by
  unfold placeOne
  split_ifs
  · exact ⟨Dom.listenersOk_moveBeforePrim _ _ _ hok,
      Dom.idsSane_logOp _ (Dom.idsSane_placeNode _ _ _ hsane)⟩
  · exact ⟨Dom.listenersOk_insertBeforePrim _ _ _ hok,
      Dom.idsSane_logOp _ (Dom.idsSane_placeNode _ _ _ hsane)⟩
  · exact ⟨hok, hsane⟩
  · exact ⟨Dom.listenersOk_insertBeforePrim _ _ _ hok,
      Dom.idsSane_logOp _ (Dom.idsSane_placeNode _ _ _ hsane)⟩

theorem placeNewNodes_regOk :
    ∀ (ns : List NodeId) (dom : Dom) (parent : NodeId),
      dom.listenersOk → dom.idsSane →
      (placeNewNodes dom parent ns).listenersOk ∧ (placeNewNodes dom parent ns).idsSane := by
  intro ns
  induction ns with
  | nil =>
    intro dom parent hok hsane
    exact ⟨hok, hsane⟩
  | cons n rest ih =>
    intro dom parent hok hsane
    rw [placeNewNodes]
    obtain ⟨h1, h2⟩ := ih dom parent hok hsane
    exact placeOne_regOk _ parent n rest.head? h1 h2

theorem updateChildren_regOk (dom : Dom) (parent : NodeId)
    (children : List (String ⊕ VDom)) (hwf : childrenRecordsWf children = true)
    (hok : dom.listenersOk) (hsane : dom.idsSane) :
    (updateChildren dom parent children).listenersOk ∧
      (updateChildren dom parent children).idsSane := by
  unfold updateChildren
  obtain ⟨h1, h2⟩ := buildNewNodes_regOk children dom
    (indexChildren dom (dom.childNodes parent)) hwf hok hsane
  obtain ⟨h3, h4⟩ := removeLeftovers_regOk _ parent _ h1 h2
  exact placeNewNodes_regOk _ _ parent h3 h4

theorem updateElement_regOk (dom : Dom) (el : NodeId) (d : VDom)
    (hwf : d.recordsWf = true) (hok : dom.listenersOk) (hsane : dom.idsSane) :
    (updateElement dom el d).listenersOk ∧ (updateElement dom el d).idsSane := by
  cases d with
  | mk t nsu attrs ls cs =>
    rw [VDom.recordsWf.eq_def] at hwf
    simp only [Bool.and_eq_true] at hwf
    obtain ⟨⟨hwa, hwl⟩, hwc⟩ := hwf
    unfold updateElement
    obtain ⟨h1, h2⟩ := updateAttributes_regOk dom el ((VDom.mk t nsu attrs ls cs).attributes.getD []) hok hsane
    obtain ⟨h3, h4⟩ := updateListeners_regOk _ el ((VDom.mk t nsu attrs ls cs).listeners.getD [])
      (by
        show ((ls.getD []).map Prod.fst).Nodup
        exact (nodupB_iff _).mp hwl) h1 h2
    refine updateChildren_regOk _ el ((VDom.mk t nsu attrs ls cs).children.getD []) ?_ h3 h4
    show childrenRecordsWf (cs.getD []) = true
    cases cs with
    | none => rfl
    | some l => exact hwc

/-- C3 (confirmed): starting from any store satisfying the registry
invariant (every node's attached listeners are exactly its Listener
Registry entries) and id-sanity, any sequence of materializer
(`createElement`) and reconciler (`updateElement`) calls with well-formed
descriptions preserves the invariant after each operation: every registry
insertion is paired with exactly one attach, every registry deletion with
exactly one detach — no orphaned attachments and no missing detachments. -/
theorem claim_C3_registry_invariant (calls : List ApiCall) (dom : Dom)
    (hwf : ∀ c ∈ calls, c.wf = true) (hok : dom.listenersOk) (hsane : dom.idsSane) :
    (applyCalls dom calls).listenersOk := by
  have main :
      ∀ (cs : List ApiCall) (dm : Dom), (∀ c ∈ cs, c.wf = true) → dm.listenersOk →
        dm.idsSane → (applyCalls dm cs).listenersOk ∧ (applyCalls dm cs).idsSane := by
    intro cs
    induction cs with
    | nil =>
      intro dm _ hok1 hsane1
      exact ⟨hok1, hsane1⟩
    | cons c rest ih =>
      intro dm hwf1 hok1 hsane1
      have hc := hwf1 c (List.mem_cons_self _ _)
      have hrest := fun x hx => hwf1 x (List.mem_cons_of_mem _ hx)
      unfold applyCalls at *
      rw [List.foldl_cons]
      cases c with
      | create d =>
        obtain ⟨h1, h2⟩ := createElement_regOk d dm hc hok1 hsane1
        exact ih _ hrest h1 h2
      | update el d =>
        obtain ⟨h1, h2⟩ := updateElement_regOk dm el d hc hok1 hsane1
        exact ih _ hrest h1 h2
  exact (main calls dom hwf hok hsane).1

/-- Witness for C3: materialize a `div` with a `click` listener, then
reconcile it twice (replacing, then removing the listener); the registry
invariant holds at the end. -/
theorem claim_C3_registry_invariant_witness :
    (applyCalls {}
        [ApiCall.create clickDesc, ApiCall.update 0 clickDesc2,
          ApiCall.update 0 (VDom.mk "div" none none none none)]).listenersOk :=
  claim_C3_registry_invariant
    [ApiCall.create clickDesc, ApiCall.update 0 clickDesc2,
      ApiCall.update 0 (VDom.mk "div" none none none none)]
    {} (by decide) (by intro p hp; exact absurd hp (List.not_mem_nil p))
    (by intro p hp; exact absurd hp (List.not_mem_nil p))

/-! ### Child reconciliation: list-level lemmas (C9, C10) -/

theorem nextInList_cons_ne (n x : NodeId) (l : List NodeId) (hx : x ≠ n) (hne : l ≠ []) :
    Dom.nextInList n (x :: l) = Dom.nextInList n l := by
  cases l with
  | nil => cases hne rfl
  | cons b t => rw [Dom.nextInList, if_neg hx]

theorem nextInList_eq (n : NodeId) :
    ∀ (xs ys : List NodeId), n ∉ xs →
      Dom.nextInList n (xs ++ n :: ys) = ys.head? := by
  intro xs
  induction xs with
  | nil =>
    intro ys _
    cases ys with
    | nil => rfl
    | cons y ys' => simp [Dom.nextInList]
  | cons x rest ih =>
    intro ys hn
    have hx : x ≠ n := fun he => hn (he ▸ List.mem_cons_self _ _)
    have hn' : n ∉ rest := fun h => hn (List.mem_cons_of_mem _ h)
    rw [List.cons_append,
      nextInList_cons_ne n x _ hx
        (List.ne_nil_of_mem (List.mem_append_right _ (List.mem_cons_self _ _))),
      ih ys hn']

theorem insertIntoList_append_left (n r : NodeId) :
    ∀ (xs ys : List NodeId), r ∉ xs →
      Dom.insertIntoList n (some r) (xs ++ ys) = xs ++ Dom.insertIntoList n (some r) ys := by
  intro xs
  induction xs with
  | nil => intro ys _; rfl
  | cons x rest ih =>
    intro ys hr
    have hx : x ≠ r := fun he => hr (he ▸ List.mem_cons_self _ _)
    have hr' : r ∉ rest := fun h => hr (List.mem_cons_of_mem _ h)
    simp only [List.cons_append, Dom.insertIntoList, if_neg hx]
    exact congrArg (fun l => x :: l) (ih ys hr')

theorem insertIntoList_cons_self (n r : NodeId) (ys : List NodeId) :
    Dom.insertIntoList n (some r) (r :: ys) = n :: r :: ys := by
  simp [Dom.insertIntoList]

theorem insertIntoList_none (n : NodeId) :
    ∀ (xs : List NodeId), Dom.insertIntoList n none xs = xs ++ [n] := by
  intro xs
  induction xs with
  | nil => rfl
  | cons x rest ih => simp only [Dom.insertIntoList, ih, List.cons_append]

theorem erase_append_cons (n : NodeId) :
    ∀ (xs ys : List NodeId), n ∉ xs → (xs ++ n :: ys).erase n = xs ++ ys := by
  intro xs
  induction xs with
  | nil => intro ys _; simp
  | cons x rest ih =>
    intro ys hn
    have hx : x ≠ n := fun he => hn (he ▸ List.mem_cons_self _ _)
    have hn' : n ∉ rest := fun h => hn (List.mem_cons_of_mem _ h)
    rw [List.cons_append, List.erase_cons_tail (by simp [hx]), ih ys hn', List.cons_append]

theorem eraseFold_eq_filter :
    ∀ (ls cs : List NodeId), cs.Nodup →
      ls.foldl (fun acc l => acc.erase l) cs = cs.filter (fun c => c ∉ ls) := by
  intro ls
  induction ls with
  | nil =>
    intro cs _
    simp
  | cons l rest ih =>
    intro cs hnd
    rw [List.foldl_cons, ih _ (hnd.erase l), hnd.erase_eq_filter l]
    rw [List.filter_filter]
    apply List.filter_congr
    intro c _
    by_cases h1 : c = l <;> by_cases h2 : c ∈ rest <;> simp [h1, h2]

theorem poolElems_nil : poolElems [] = [] := rfl

theorem poolElems_cons (k : String) (l : List NodeId) (rest : List (String × List NodeId)) :
    poolElems ((k, l) :: rest) = l ++ poolElems rest := by
  simp [poolElems]

theorem bucketPush_cons (k k' : String) (l' : List NodeId)
    (rest : List (String × List NodeId)) (id : NodeId) :
    bucketPush ((k', l') :: rest) k id =
      if k' = k then (k', l' ++ [id]) :: rest else (k', l') :: bucketPush rest k id := by
  by_cases hk : k' = k
  · simp [bucketPush, Alist.find?, Alist.set, hk]
  · cases hf : Alist.find? k rest with
    | some l => simp [bucketPush, Alist.find?, Alist.set, hk, hf]
    | none => simp [bucketPush, Alist.find?, Alist.set, hk, hf]

theorem poolElems_bucketPush (k : String) (id : NodeId) :
    ∀ (m : List (String × List NodeId)),
      List.Perm (poolElems (bucketPush m k id)) (id :: poolElems m) := by
  intro m
  induction m with
  | nil =>
    simp [bucketPush, Alist.find?, poolElems]
  | cons q rest ih =>
    obtain ⟨k', l'⟩ := q
    rw [bucketPush_cons]
    by_cases hk : k' = k
    · rw [if_pos hk, poolElems_cons, poolElems_cons, List.append_assoc, List.singleton_append]
      exact List.perm_middle
    · rw [if_neg hk, poolElems_cons, poolElems_cons]
      exact (ih.append_left l').trans List.perm_middle

theorem bucketShift_cons (k k' : String) (l' : List NodeId)
    (rest : List (String × List NodeId)) :
    bucketShift ((k', l') :: rest) k =
      if k' = k then
        match l' with
        | [] => (none, (k', l') :: rest)
        | x :: xs => (some x, (k', xs) :: rest)
      else ((bucketShift rest k).1, (k', l') :: (bucketShift rest k).2) := by
  by_cases hk : k' = k
  · cases l' with
    | nil => simp [bucketShift, Alist.find?, hk]
    | cons x xs => simp [bucketShift, Alist.find?, Alist.set, hk]
  · cases hf : Alist.find? k rest with
    | some l =>
      cases l with
      | nil => simp [bucketShift, Alist.find?, Alist.set, hk, hf]
      | cons x xs => simp [bucketShift, Alist.find?, Alist.set, hk, hf]
    | none => simp [bucketShift, Alist.find?, Alist.set, hk, hf]

theorem bucketShift_some (k : String) :
    ∀ (m : List (String × List NodeId)) (n : NodeId) (m' : List (String × List NodeId)),
      bucketShift m k = (some n, m') →
      n ∈ poolElems m ∧ List.Perm (poolElems m) (n :: poolElems m') := by
  intro m
  induction m with
  | nil =>
    intro n m' h
    rw [bucketShift] at h
    simp [Alist.find?] at h
  | cons q rest ih =>
    intro n m' h
    obtain ⟨k', l'⟩ := q
    rw [bucketShift_cons] at h
    by_cases hk : k' = k
    · rw [if_pos hk] at h
      cases l' with
      | nil => simp at h
      | cons x xs =>
        simp only at h
        obtain ⟨h1, h2⟩ := Prod.mk.injEq .. ▸ h
        cases h1
        subst h2
        rw [poolElems_cons, poolElems_cons]
        constructor
        · exact List.mem_append_left _ (List.mem_cons_self _ _)
        · rfl
    · rw [if_neg hk] at h
      cases hbs : bucketShift rest k with
      | mk f s =>
        rw [hbs] at h
        simp only at h
        obtain ⟨h1, h2⟩ := Prod.mk.injEq .. ▸ h
        cases h1
        obtain ⟨hmem, hperm⟩ := ih n s hbs
        subst h2
        rw [poolElems_cons, poolElems_cons]
        constructor
        · exact List.mem_append_right _ hmem
        · exact (hperm.append_left l').trans List.perm_middle

theorem bucketShift_none (k : String) :
    ∀ (m m' : List (String × List NodeId)), bucketShift m k = (none, m') →
      poolElems m' = poolElems m := by
  intro m
  induction m with
  | nil =>
    intro m' h
    rw [bucketShift] at h
    simp only [Alist.find?] at h
    obtain ⟨_, h2⟩ := Prod.mk.injEq .. ▸ h
    subst h2
    simp [poolElems]
  | cons q rest ih =>
    intro m' h
    obtain ⟨k', l'⟩ := q
    rw [bucketShift_cons] at h
    by_cases hk : k' = k
    · rw [if_pos hk] at h
      cases l' with
      | nil =>
        simp only at h
        obtain ⟨_, h2⟩ := Prod.mk.injEq .. ▸ h
        subst h2
        rfl
      | cons x xs => simp at h
    · rw [if_neg hk] at h
      cases hbs : bucketShift rest k with
      | mk f s =>
        rw [hbs] at h
        simp only at h
        obtain ⟨h1, h2⟩ := Prod.mk.injEq .. ▸ h
        cases h1
        subst h2
        rw [poolElems_cons, poolElems_cons, ih s hbs]

theorem textIds_set_mem {c : String} {v : NodeId} :
    ∀ (m : List (String × NodeId)) (n : NodeId), n ∈ textIds (Alist.set c v m) →
      n = v ∨ n ∈ textIds m := by
  intro m
  induction m with
  | nil =>
    intro n h
    simp [Alist.set, textIds] at h
    exact Or.inl h
  | cons q rest ih =>
    intro n h
    by_cases hq : q.1 = c
    · rw [Alist.set, if_pos hq] at h
      rcases List.mem_cons.mp h with h1 | h1
      · exact Or.inl h1
      · exact Or.inr (List.mem_cons_of_mem _ h1)
    · rw [Alist.set, if_neg hq] at h
      rcases List.mem_cons.mp h with h1 | h1
      · exact Or.inr (h1 ▸ List.mem_cons_self _ _)
      · rcases ih n h1 with h2 | h2
        · exact Or.inl h2
        · exact Or.inr (List.mem_cons_of_mem _ h2)

theorem textIds_set_nodup {c : String} {v : NodeId} :
    ∀ (m : List (String × NodeId)), (textIds m).Nodup → v ∉ textIds m →
      (textIds (Alist.set c v m)).Nodup := by
  intro m
  induction m with
  | nil =>
    intro _ _
    simp [Alist.set, textIds]
  | cons q rest ih =>
    intro hnd hv
    rw [textIds, List.map_cons] at hnd hv
    have hnd1 := List.nodup_cons.mp hnd
    have hv1 : v ≠ q.2 := fun he => hv (he ▸ List.mem_cons_self _ _)
    have hv2 : v ∉ textIds rest := fun h => hv (List.mem_cons_of_mem _ h)
    by_cases hq : q.1 = c
    · rw [Alist.set, if_pos hq, textIds, List.map_cons]
      refine List.nodup_cons.mpr ⟨hv2, hnd1.2⟩
    · rw [Alist.set, if_neg hq, textIds, List.map_cons]
      refine List.nodup_cons.mpr ⟨?_, ih hnd1.2 hv2⟩
      intro hmem
      rcases textIds_set_mem _ _ hmem with h1 | h1
      · exact hv1 h1.symm
      · exact hnd1.1 h1

theorem texts_find_erase {c : String} :
    ∀ (m : List (String × NodeId)) (n : NodeId), Alist.find? c m = some n →
      List.Perm (textIds m) (n :: textIds (Alist.erase c m)) := by
  intro m
  induction m with
  | nil =>
    intro n h
    simp [Alist.find?] at h
  | cons q rest ih =>
    intro n h
    by_cases hq : q.1 = c
    · rw [Alist.find?, if_pos hq] at h
      cases h
      rw [Alist.erase, if_pos hq]
      rfl
    · rw [Alist.find?, if_neg hq] at h
      rw [Alist.erase, if_neg hq]
      simp only [textIds, List.map_cons]
      exact ((ih n h).cons q.2).trans (List.Perm.swap _ _ _)


theorem poolIds_perm_cons {idx1 idx0 : ChildIndex} {id : NodeId}
    (hperm : List.Perm (poolIds idx1) (id :: poolIds idx0)) (hnotin : id ∉ poolIds idx0)
    (hnd : (poolIds idx0).Nodup) : (poolIds idx1).Nodup :=
  (List.nodup_cons.mpr ⟨hnotin, hnd⟩).perm hperm.symm

theorem indexFold_ok (dom : Dom) (scope : List NodeId) :
    ∀ (ids : List NodeId) (idx0 : ChildIndex), idxOk dom idx0 scope →
      (∀ i ∈ ids, i ∈ scope) → ids.Nodup → (∀ n ∈ poolIds idx0, n ∉ ids) →
      idxOk dom
        (ids.foldl
          (fun idx id =>
            match dom.lookupNode id with
            | none => idx
            | some nd =>
              match nd.kind with
              | .element tagName _ =>
                { idx with
                  elements := bucketPush idx.elements (liveElementKey dom id tagName) id }
              | .text content => { idx with texts := Alist.set content id idx.texts }
              | .comment _ => idx)
          idx0)
        scope := by
  intro ids
  induction ids with
  | nil =>
    intro idx0 h0 _ _ _
    exact h0
  | cons id rest ih =>
    intro idx0 h0 hscope hnd hdisj
    obtain ⟨h0nd, h0el, h0tx⟩ := h0
    have hid_scope : id ∈ scope := hscope id (List.mem_cons_self _ _)
    have hid_pool : id ∉ poolIds idx0 := fun h => hdisj id h (List.mem_cons_self _ _)
    have hrest_scope : ∀ i ∈ rest, i ∈ scope := fun i hi =>
      hscope i (List.mem_cons_of_mem _ hi)
    have hrest_nd : rest.Nodup := (List.nodup_cons.mp hnd).2
    have hid_rest : id ∉ rest := (List.nodup_cons.mp hnd).1
    rw [List.foldl_cons]
    cases hlk : dom.lookupNode id with
    | none =>
      simp only [hlk]
      exact ih idx0 ⟨h0nd, h0el, h0tx⟩ hrest_scope hrest_nd
        (fun n hn hmem => hdisj n hn (List.mem_cons_of_mem _ hmem))
    | some nd =>
      cases hk : nd.kind with
      | comment content =>
        simp only [hlk, hk]
        exact ih idx0 ⟨h0nd, h0el, h0tx⟩ hrest_scope hrest_nd
          (fun n hn hmem => hdisj n hn (List.mem_cons_of_mem _ hmem))
      | element tagName nsu =>
        simp only [hlk, hk]
        have hperm :
            List.Perm
              (poolIds
                { idx0 with
                  elements := bucketPush idx0.elements (liveElementKey dom id tagName) id })
              (id :: poolIds idx0) :=
          (poolElems_bucketPush (liveElementKey dom id tagName) id
            idx0.elements).append_right (textIds idx0.texts)
        refine ih _ ⟨poolIds_perm_cons hperm hid_pool h0nd, ?_, h0tx⟩ hrest_scope hrest_nd ?_
        · intro n hn
          rcases List.mem_cons.mp
              ((poolElems_bucketPush (liveElementKey dom id tagName) id
                idx0.elements).mem_iff.mp hn) with
            h1 | h1
          · subst h1
            exact ⟨hid_scope, nd, hlk, by rw [hk]; rfl⟩
          · exact h0el n h1
        · intro n hn
          rcases List.mem_cons.mp (hperm.mem_iff.mp hn) with h1 | h1
          · subst h1
            exact hid_rest
          · exact fun hmem => hdisj n h1 (List.mem_cons_of_mem _ hmem)
      | text content =>
        simp only [hlk, hk]
        have htxmem : ∀ n ∈ textIds (Alist.set content id idx0.texts),
            n = id ∨ n ∈ textIds idx0.texts := fun n hn => textIds_set_mem _ n hn
        have hsplit := List.nodup_append.mp h0nd
        have hid_el : id ∉ poolElems idx0.elements := fun h =>
          hid_pool (List.mem_append_left _ h)
        have hid_tx : id ∉ textIds idx0.texts := fun h =>
          hid_pool (List.mem_append_right _ h)
        have htx_nd : (textIds (Alist.set content id idx0.texts)).Nodup :=
          textIds_set_nodup _ hsplit.2.1 hid_tx
        refine ih _ ⟨?_, h0el, ?_⟩ hrest_scope hrest_nd ?_
        · refine List.nodup_append.mpr ⟨hsplit.1, htx_nd, ?_⟩
          intro n hn1 hn2
          rcases htxmem n hn2 with h1 | h1
          · exact hid_el (h1 ▸ hn1)
          · exact hsplit.2.2 hn1 h1
        · intro n hn
          rcases htxmem n hn with h1 | h1
          · subst h1
            exact ⟨hid_scope, nd, content, hlk, hk⟩
          · exact h0tx n h1
        · intro n hn
          rcases List.mem_append.mp hn with h1 | h1
          · exact fun hmem =>
              hdisj n (List.mem_append_left _ h1) (List.mem_cons_of_mem _ hmem)
          · rcases htxmem n h1 with h2 | h2
            · subst h2
              exact hid_rest
            · exact fun hmem =>
                hdisj n (List.mem_append_right _ h2) (List.mem_cons_of_mem _ hmem)

theorem indexChildren_ok (dom : Dom) (ids : List NodeId) (hnd : ids.Nodup) :
    idxOk dom (indexChildren dom ids) ids := by
  have h0 : idxOk dom {} ids :=
    ⟨List.nodup_nil, fun n hn => absurd hn (List.not_mem_nil n),
      fun n hn => absurd hn (List.not_mem_nil n)⟩
  exact indexFold_ok dom ids ids {} h0 (fun i hi => hi) hnd
    (fun n hn => absurd hn (List.not_mem_nil n))

theorem Dom.lookupNode_createElementPrim_ne {dom : Dom} (t : String) (ns : Option String)
    {id : NodeId} (h : id ≠ dom.nextId) :
    (dom.createElementPrim t ns).2.lookupNode id = dom.lookupNode id := by
  show Alist.find? id (dom.nodes ++ [(dom.nextId, _)]) = Alist.find? id dom.nodes
  rw [Alist.find?_append_single]
  cases hx : Alist.find? id dom.nodes with
  | some v => rfl
  | none => rw [if_neg (fun he => h he.symm)]

theorem Dom.lookupNode_createTextNodePrim_ne {dom : Dom} (c : String)
    {id : NodeId} (h : id ≠ dom.nextId) :
    (dom.createTextNodePrim c).2.lookupNode id = dom.lookupNode id := by
  show Alist.find? id (dom.nodes ++ [(dom.nextId, _)]) = Alist.find? id dom.nodes
  rw [Alist.find?_append_single]
  cases hx : Alist.find? id dom.nodes with
  | some v => rfl
  | none => rw [if_neg (fun he => h he.symm)]

@[simp]
theorem Dom.nextId_detach (dom : Dom) (id : NodeId) :
    (dom.detach id).nextId = dom.nextId := by
  unfold Dom.detach
  cases dom.parentOf id with
  | none => rfl
  | some p => simp

@[simp]
theorem Dom.nextId_placeNode (dom : Dom) (parent node : NodeId) (ref : Option NodeId) :
    (dom.placeNode parent node ref).nextId = dom.nextId := by
  unfold Dom.placeNode
  simp

@[simp]
theorem Dom.nextId_appendChildPrim (dom : Dom) (parent node : NodeId) :
    (dom.appendChildPrim parent node).nextId = dom.nextId := by
  unfold Dom.appendChildPrim
  simp

@[simp]
theorem Dom.nextId_insertBeforePrim (dom : Dom) (parent node : NodeId) (ref : Option NodeId) :
    (dom.insertBeforePrim parent node ref).nextId = dom.nextId := by
  unfold Dom.insertBeforePrim
  simp

@[simp]
theorem Dom.nextId_moveBeforePrim (dom : Dom) (parent node : NodeId) (ref : Option NodeId) :
    (dom.moveBeforePrim parent node ref).nextId = dom.nextId := by
  unfold Dom.moveBeforePrim
  simp

@[simp]
theorem Dom.nextId_removeChildPrim (dom : Dom) (parent node : NodeId) :
    (dom.removeChildPrim parent node).nextId = dom.nextId := by
  unfold Dom.removeChildPrim
  simp

theorem Dom.detach_of_no_parent {dom : Dom} {c : NodeId} (hc : dom.parentOf c = none) :
    dom.detach c = dom := by
  unfold Dom.detach
  rw [hc]

theorem Dom.appendChildPrim_frame {dom : Dom} {el c : NodeId} (hc : dom.parentOf c = none)
    {id : NodeId} (h1 : id ≠ el) (h2 : id ≠ c) :
    (dom.appendChildPrim el c).lookupNode id = dom.lookupNode id := by
  unfold Dom.appendChildPrim Dom.placeNode
  rw [Dom.detach_of_no_parent hc, Dom.lookupNode_logOp,
    Dom.lookupNode_modifyNode_ne _ _ _ h2, Dom.lookupNode_modifyNode_ne _ _ _ h1]

theorem Dom.appendChildPrim_el_record {dom : Dom} {el c : NodeId} (hc : dom.parentOf c = none)
    (hne : el ≠ c) {ndv : NodeData} (h : dom.lookupNode el = some ndv) :
    (dom.appendChildPrim el c).lookupNode el =
      some { ndv with children := Dom.insertIntoList c none ndv.children } := by
  unfold Dom.appendChildPrim Dom.placeNode
  rw [Dom.detach_of_no_parent hc, Dom.lookupNode_logOp,
    Dom.lookupNode_modifyNode_ne _ _ _ hne, Dom.lookupNode_modifyNode_self, h]
  rfl

mutual

theorem createElement_fresh (d : VDom) : ∀ (dom : Dom), dom.idsSane →
    (createElement dom d).1 = dom.nextId ∧
    dom.nextId < (createElement dom d).2.nextId ∧
    (createElement dom d).2.idsSane ∧
    (∀ id, id < dom.nextId → (createElement dom d).2.lookupNode id = dom.lookupNode id) ∧
    (∃ nd, (createElement dom d).2.lookupNode (createElement dom d).1 = some nd ∧
      nd.parent = none) :=
  match d with
  | .mk t nsu attrs ls cs => by
    intro dom hsane
    rw [createElement.eq_def]
    simp only []
    have h0look :
        (dom.createElementPrim t nsu).2.lookupNode dom.nextId =
          some { kind := .element t nsu } :=
      Dom.createElementPrim_lookup t nsu hsane
    have h0sane := Dom.idsSane_createElementPrim t nsu hsane
    have hAttr :
        ((attrs.getD []).foldl
              (fun acc q => acc.setAttrPrim (dom.createElementPrim t nsu).1 q.1 q.2)
              (dom.createElementPrim t nsu).2).nextId = dom.nextId + 1 ∧
          ((attrs.getD []).foldl
              (fun acc q => acc.setAttrPrim (dom.createElementPrim t nsu).1 q.1 q.2)
              (dom.createElementPrim t nsu).2).idsSane ∧
          (∀ id, id < dom.nextId →
            ((attrs.getD []).foldl
                (fun acc q => acc.setAttrPrim (dom.createElementPrim t nsu).1 q.1 q.2)
                (dom.createElementPrim t nsu).2).lookupNode id = dom.lookupNode id) ∧
          ∃ nd,
            ((attrs.getD []).foldl
                  (fun acc q => acc.setAttrPrim (dom.createElementPrim t nsu).1 q.1 q.2)
                  (dom.createElementPrim t nsu).2).lookupNode
                (dom.createElementPrim t nsu).1 =
              some nd ∧ nd.parent = none := by
      refine foldl_preserve
        (fun dm =>
          dm.nextId = dom.nextId + 1 ∧ dm.idsSane ∧
            (∀ id, id < dom.nextId → dm.lookupNode id = dom.lookupNode id) ∧
            ∃ nd, dm.lookupNode (dom.createElementPrim t nsu).1 = some nd ∧ nd.parent = none)
        _ ?_ (attrs.getD []) _
        ⟨rfl, h0sane,
          (fun id hid =>
            Dom.lookupNode_createElementPrim_ne t nsu (Nat.ne_of_lt hid)),
          ⟨_, h0look, rfl⟩⟩
      intro acc a ⟨hkn, hks, hkf, nd0, hlk, hpar⟩
      refine ⟨?_, Dom.idsSane_logOp _ (Dom.idsSane_modifyNode _ _ hks), ?_, ?_⟩
      · unfold Dom.setAttrPrim
        simp [hkn]
      · intro id hid
        unfold Dom.setAttrPrim
        rw [Dom.lookupNode_logOp,
          Dom.lookupNode_modifyNode_ne _ _ _ (fun he => Nat.lt_irrefl _ (he ▸ hid))]
        exact hkf id hid
      · refine ⟨{ nd0 with attributes := Alist.set a.1 a.2 nd0.attributes }, ?_, hpar⟩
        unfold Dom.setAttrPrim
        rw [Dom.lookupNode_logOp, Dom.lookupNode_modifyNode_self, hlk]
        rfl
    obtain ⟨h1n, h1sane, h1f, nd1, h1look, h1par⟩ := hAttr
    have hLs :
        ((ls.getD []).foldl
              (fun acc q =>
                (acc.addListenerPrim (dom.createElementPrim t nsu).1 q.1 q.2.listener
                      q.2.options).registrySet
                  (dom.createElementPrim t nsu).1 q.1 q.2)
              ((attrs.getD []).foldl
                (fun acc q => acc.setAttrPrim (dom.createElementPrim t nsu).1 q.1 q.2)
                (dom.createElementPrim t nsu).2)).nextId = dom.nextId + 1 ∧
          ((ls.getD []).foldl
              (fun acc q =>
                (acc.addListenerPrim (dom.createElementPrim t nsu).1 q.1 q.2.listener
                      q.2.options).registrySet
                  (dom.createElementPrim t nsu).1 q.1 q.2)
              ((attrs.getD []).foldl
                (fun acc q => acc.setAttrPrim (dom.createElementPrim t nsu).1 q.1 q.2)
                (dom.createElementPrim t nsu).2)).idsSane ∧
          (∀ id, id < dom.nextId →
            ((ls.getD []).foldl
                (fun acc q =>
                  (acc.addListenerPrim (dom.createElementPrim t nsu).1 q.1 q.2.listener
                        q.2.options).registrySet
                    (dom.createElementPrim t nsu).1 q.1 q.2)
                ((attrs.getD []).foldl
                  (fun acc q => acc.setAttrPrim (dom.createElementPrim t nsu).1 q.1 q.2)
                  (dom.createElementPrim t nsu).2)).lookupNode id = dom.lookupNode id) ∧
          ∃ nd,
            ((ls.getD []).foldl
                  (fun acc q =>
                    (acc.addListenerPrim (dom.createElementPrim t nsu).1 q.1 q.2.listener
                          q.2.options).registrySet
                      (dom.createElementPrim t nsu).1 q.1 q.2)
                  ((attrs.getD []).foldl
                    (fun acc q => acc.setAttrPrim (dom.createElementPrim t nsu).1 q.1 q.2)
                    (dom.createElementPrim t nsu).2)).lookupNode
                (dom.createElementPrim t nsu).1 =
              some nd ∧ nd.parent = none := by
      refine foldl_preserve
        (fun dm =>
          dm.nextId = dom.nextId + 1 ∧ dm.idsSane ∧
            (∀ id, id < dom.nextId → dm.lookupNode id = dom.lookupNode id) ∧
            ∃ nd, dm.lookupNode (dom.createElementPrim t nsu).1 = some nd ∧ nd.parent = none)
        _ ?_ (ls.getD []) _ ⟨h1n, h1sane, h1f, ⟨nd1, h1look, h1par⟩⟩
      intro acc a ⟨hkn, hks, hkf, nd0, hlk, hpar⟩
      refine ⟨?_,
        Dom.idsSane_modifyNode _ _ (Dom.idsSane_logOp _ (Dom.idsSane_modifyNode _ _ hks)),
        ?_, ?_⟩
      · unfold Dom.registrySet Dom.addListenerPrim
        simp [hkn]
      · intro id hid
        unfold Dom.registrySet Dom.addListenerPrim
        rw [Dom.lookupNode_modifyNode_ne _ _ _ (fun he => Nat.lt_irrefl _ (he ▸ hid)),
          Dom.lookupNode_logOp,
          Dom.lookupNode_modifyNode_ne _ _ _ (fun he => Nat.lt_irrefl _ (he ▸ hid))]
        exact hkf id hid
      · unfold Dom.registrySet Dom.addListenerPrim
        rw [Dom.lookupNode_modifyNode_self, Dom.lookupNode_logOp,
          Dom.lookupNode_modifyNode_self, hlk]
        simp only [Option.map_some']
        refine ⟨_, rfl, ?_⟩
        by_cases hcnd :
            Dom.attachedHas nd0.attached a.1 a.2.listener (captureOf a.2.options) = true
        · rw [if_pos hcnd]
          exact hpar
        · rw [if_neg hcnd]
          exact hpar
    obtain ⟨h2n, h2sane, h2f, nd2, h2look, h2par⟩ := hLs
    cases cs with
    | none =>
      refine ⟨rfl, ?_, h2sane, ?_, ⟨nd2, h2look, h2par⟩⟩
      · rw [h2n]
        exact Nat.lt_succ_self _
      · intro id hid
        exact h2f id hid
    | some l =>
      obtain ⟨hcn, hcsane, hcf, hcrec⟩ :=
        createChildrenOf_fresh l _ (dom.createElementPrim t nsu).1 h2sane
          (by rw [h2n]; exact Nat.lt_succ_self _)
      refine ⟨rfl, ?_, hcsane, ?_, ?_⟩
      · exact Nat.lt_of_lt_of_le (h2n ▸ Nat.lt_succ_self _) hcn
      · intro id hid
        rw [hcf id (by rw [h2n]; exact Nat.lt_succ_of_lt hid)
            (fun he => Nat.lt_irrefl _ (he ▸ hid))]
        exact h2f id hid
      · obtain ⟨nd', hnd', hpar'⟩ := hcrec nd2 h2look
        exact ⟨nd', hnd', hpar'.trans h2par⟩

theorem createChildrenOf_fresh (cs : List (String ⊕ VDom)) :
    ∀ (dom : Dom) (el : NodeId), dom.idsSane → el < dom.nextId →
      dom.nextId ≤ (createChildrenOf dom el cs).nextId ∧
      (createChildrenOf dom el cs).idsSane ∧
      (∀ id, id < dom.nextId → id ≠ el →
        (createChildrenOf dom el cs).lookupNode id = dom.lookupNode id) ∧
      (∀ ndv, dom.lookupNode el = some ndv →
        ∃ nd', (createChildrenOf dom el cs).lookupNode el = some nd' ∧
          nd'.parent = ndv.parent) :=
  match cs with
  | [] => by
    intro dom el hsane _
    exact ⟨Nat.le_refl _, hsane, fun id _ _ => rfl, fun ndv h => ⟨ndv, h, rfl⟩⟩
  | (.inl s) :: rest => by
    intro dom el hsane helt
    rw [createChildrenOf.eq_def]
    simp only []
    have hps : (dom.createTextNodePrim s).1 = dom.nextId := rfl
    rw [hps]
    have hplook :
        (dom.createTextNodePrim s).2.lookupNode dom.nextId = some { kind := .text s } :=
      Dom.createTextNodePrim_lookup s hsane
    have hppar : (dom.createTextNodePrim s).2.parentOf dom.nextId = none := by
      unfold Dom.parentOf
      rw [hplook]
    have hpsane := Dom.idsSane_createTextNodePrim s hsane
    have helne : el ≠ dom.nextId := Nat.ne_of_lt helt
    have hasane :
        ((dom.createTextNodePrim s).2.appendChildPrim el dom.nextId).idsSane :=
      Dom.idsSane_logOp _ (Dom.idsSane_placeNode _ _ _ hpsane)
    obtain ⟨hrn, hrsane, hrf, hrrec⟩ :=
      createChildrenOf_fresh rest
        ((dom.createTextNodePrim s).2.appendChildPrim el dom.nextId) el hasane
        (by
          rw [Dom.nextId_appendChildPrim]
          exact Nat.lt_succ_of_lt helt)
    have hain :
        ((dom.createTextNodePrim s).2.appendChildPrim el dom.nextId).nextId =
          dom.nextId + 1 := by
      rw [Dom.nextId_appendChildPrim]
      rfl
    refine ⟨?_, hrsane, ?_, ?_⟩
    · rw [hain] at hrn
      exact Nat.le_of_lt (Nat.lt_of_lt_of_le (Nat.lt_succ_self _) hrn)
    · intro id hid hidel
      rw [hrf id (by rw [hain]; exact Nat.lt_succ_of_lt hid) hidel,
        Dom.appendChildPrim_frame hppar hidel (Nat.ne_of_lt hid),
        Dom.lookupNode_createTextNodePrim_ne s (Nat.ne_of_lt hid)]
    · intro ndv hv
      have hv1 : (dom.createTextNodePrim s).2.lookupNode el = some ndv := by
        rw [Dom.lookupNode_createTextNodePrim_ne s helne]
        exact hv
      have hv2 :
          ((dom.createTextNodePrim s).2.appendChildPrim el dom.nextId).lookupNode el =
            some { ndv with children := Dom.insertIntoList dom.nextId none ndv.children } :=
        Dom.appendChildPrim_el_record hppar helne hv1
      obtain ⟨nd', hnd', hpar'⟩ := hrrec _ hv2
      exact ⟨nd', hnd', hpar'⟩
  | (.inr child) :: rest => by
    intro dom el hsane helt
    rw [createChildrenOf.eq_def]
    simp only []
    obtain ⟨hq1, hqn, hqsane, hqf, ndq, hqlook, hqpar⟩ := createElement_fresh child dom hsane
    have hppar : (createElement dom child).2.parentOf (createElement dom child).1 = none := by
      unfold Dom.parentOf
      rw [hqlook]
      exact hqpar
    have helne : el ≠ (createElement dom child).1 := by
      rw [hq1]
      exact Nat.ne_of_lt helt
    have hasane :
        ((createElement dom child).2.appendChildPrim el (createElement dom child).1).idsSane :=
      Dom.idsSane_logOp _ (Dom.idsSane_placeNode _ _ _ hqsane)
    obtain ⟨hrn, hrsane, hrf, hrrec⟩ :=
      createChildrenOf_fresh rest
        ((createElement dom child).2.appendChildPrim el (createElement dom child).1) el hasane
        (by
          rw [Dom.nextId_appendChildPrim]
          exact Nat.lt_trans helt hqn)
    have hain :
        ((createElement dom child).2.appendChildPrim el (createElement dom child).1).nextId =
          (createElement dom child).2.nextId := Dom.nextId_appendChildPrim _ _ _
    refine ⟨?_, hrsane, ?_, ?_⟩
    · rw [hain] at hrn
      exact Nat.le_of_lt (Nat.lt_of_lt_of_le hqn hrn)
    · intro id hid hidel
      rw [hrf id (by rw [hain]; exact Nat.lt_trans hid hqn) hidel,
        Dom.appendChildPrim_frame hppar hidel
          (by rw [hq1]; exact Nat.ne_of_lt hid),
        hqf id hid]
    · intro ndv hv
      have hv1 : (createElement dom child).2.lookupNode el = some ndv := by
        rw [hqf el helt]
        exact hv
      have hv2 :
          ((createElement dom child).2.appendChildPrim el
                (createElement dom child).1).lookupNode el =
            some
              { ndv with
                children :=
                  Dom.insertIntoList (createElement dom child).1 none ndv.children } :=
        Dom.appendChildPrim_el_record hppar helne hv1
      obtain ⟨nd', hnd', hpar'⟩ := hrrec _ hv2
      exact ⟨nd', hnd', hpar'⟩

end

theorem poolIds_lt {dom : Dom} {idx : ChildIndex} {scope : List NodeId}
    (hsane : dom.idsSane) (hok : idxOk dom idx scope) :
    ∀ n ∈ poolIds idx, n < dom.nextId := by
  obtain ⟨_, hel, htx⟩ := hok
  intro n hn
  rcases List.mem_append.mp hn with h1 | h1
  · obtain ⟨_, nd0, hl, _⟩ := hel n h1
    exact hsane (n, nd0) (Alist.mem_of_find? hl)
  · obtain ⟨_, nd0, c0, hl, _⟩ := htx n h1
    exact hsane (n, nd0) (Alist.mem_of_find? hl)

theorem buildNewNodes_spec :
    ∀ (children : List (String ⊕ VDom)) (dom : Dom) (idx : ChildIndex)
      (scope : List NodeId), dom.idsSane → idxOk dom idx scope →
      dom.nextId ≤ (buildNewNodes dom idx children).2.2.nextId ∧
      (buildNewNodes dom idx children).2.2.idsSane ∧
      (∀ id, id < dom.nextId →
        (buildNewNodes dom idx children).2.2.lookupNode id = dom.lookupNode id) ∧
      (poolIds (buildNewNodes dom idx children).2.1).Nodup ∧
      (∀ n ∈ poolElems (buildNewNodes dom idx children).2.1.elements,
        n ∈ poolElems idx.elements) ∧
      (∀ n ∈ textIds (buildNewNodes dom idx children).2.1.texts, n ∈ textIds idx.texts) ∧
      (buildNewNodes dom idx children).1.Nodup ∧
      (∀ n ∈ (buildNewNodes dom idx children).1,
        n ∉ poolIds (buildNewNodes dom idx children).2.1) ∧
      (∀ n ∈ (buildNewNodes dom idx children).1,
        (n ∈ poolIds idx ∧ n < dom.nextId) ∨
          (dom.nextId ≤ n ∧
            ∃ nd, (buildNewNodes dom idx children).2.2.lookupNode n = some nd ∧
              nd.parent = none)) := by
  intro children
  induction children with
  | nil =>
    intro dom idx scope hsane hok
    exact ⟨Nat.le_refl _, hsane, fun id _ => rfl, hok.1, fun n hn => hn, fun n hn => hn,
      List.nodup_nil, fun n hn => absurd hn (List.not_mem_nil n),
      fun n hn => absurd hn (List.not_mem_nil n)⟩
  | cons c rest ih =>
    intro dom idx scope hsane hok
    have hpoolLt : ∀ n ∈ poolIds idx, n < dom.nextId := poolIds_lt hsane hok
    obtain ⟨hnd, hel, htx⟩ := hok
    cases c with
    | inr child =>
      simp only [buildNewNodes]
      cases hbs : bucketShift idx.elements (descKey child) with
      | mk o elements' =>
        cases o with
        | some element =>
          simp only [hbs]
          obtain ⟨hmem, hperm⟩ :=
            bucketShift_some (descKey child) idx.elements element elements' hbs
          have hpermIds :
              List.Perm (poolIds idx)
                (element :: poolIds { idx with elements := elements' }) :=
            hperm.append_right (textIds idx.texts)
          have hndc :
              (element :: poolIds { idx with elements := elements' }).Nodup :=
            hpermIds.nodup_iff.mp hnd
          have hnotin : element ∉ poolIds { idx with elements := elements' } :=
            (List.nodup_cons.mp hndc).1
          have hndnew : (poolIds { idx with elements := elements' }).Nodup :=
            (List.nodup_cons.mp hndc).2
          have helmentry := hel element hmem
          have heltLt : element < dom.nextId :=
            hpoolLt element (List.mem_append_left _ hmem)
          have hoknew : idxOk dom { idx with elements := elements' } scope := by
            refine ⟨hndnew, ?_, htx⟩
            intro n hn
            exact hel n (hperm.mem_iff.mpr (List.mem_cons_of_mem _ hn))
          obtain ⟨ihn, ihsane, ihf, ihpnd, ihpel, ihptx, ihnsnd, ihdisj, ihdich⟩ :=
            ih dom { idx with elements := elements' } scope hsane hoknew
          have hsubnew :
              ∀ n ∈ poolIds (buildNewNodes dom { idx with elements := elements' } rest).2.1,
                n ∈ poolIds { idx with elements := elements' } := by
            intro n hn
            rcases List.mem_append.mp hn with h1 | h1
            · exact List.mem_append_left _ (ihpel n h1)
            · exact List.mem_append_right _ (ihptx n h1)
          have helnr :
              element ∉ (buildNewNodes dom { idx with elements := elements' } rest).1 := by
            intro hmem2
            rcases ihdich element hmem2 with ⟨h1, _⟩ | ⟨h1, _⟩
            · exact hnotin h1
            · exact absurd heltLt (Nat.not_lt_of_le h1)
          refine ⟨ihn, ihsane, ihf, ihpnd, ?_, ihptx, ?_, ?_, ?_⟩
          · intro n hn
            exact hperm.mem_iff.mpr (List.mem_cons_of_mem _ (ihpel n hn))
          · exact List.nodup_cons.mpr ⟨helnr, ihnsnd⟩
          · intro n hn
            rcases List.mem_cons.mp hn with h1 | h1
            · subst h1
              exact fun hc => hnotin (hsubnew _ hc)
            · exact ihdisj n h1
          · intro n hn
            rcases List.mem_cons.mp hn with h1 | h1
            · subst h1
              exact Or.inl ⟨List.mem_append_left _ hmem, heltLt⟩
            · rcases ihdich n h1 with ⟨h2, _⟩ | ⟨h2, h3⟩
              · refine Or.inl ⟨?_, ?_⟩
                · rcases List.mem_append.mp h2 with h4 | h4
                  · exact List.mem_append_left _
                      (hperm.mem_iff.mpr (List.mem_cons_of_mem _ h4))
                  · exact List.mem_append_right _ h4
                · rcases List.mem_append.mp h2 with h4 | h4
                  · exact hpoolLt n (List.mem_append_left _
                      (hperm.mem_iff.mpr (List.mem_cons_of_mem _ h4)))
                  · exact hpoolLt n (List.mem_append_right _ h4)
              · exact Or.inr ⟨h2, h3⟩
        | none =>
          simp only [hbs]
          have heq : poolElems elements' = poolElems idx.elements :=
            bucketShift_none (descKey child) idx.elements elements' hbs
          obtain ⟨hq1, hqn, hqsane, hqf, ndq, hqlook, hqpar⟩ :=
            createElement_fresh child dom hsane
          have hpoolEq :
              poolIds { idx with elements := elements' } = poolIds idx := by
            show poolElems elements' ++ textIds idx.texts = _
            rw [heq]
            rfl
          have hoknew :
              idxOk (createElement dom child).2 { idx with elements := elements' }
                scope := by
            refine ⟨?_, ?_, ?_⟩
            · rw [hpoolEq]
              exact hnd
            · intro n hn
              have hn' : n ∈ poolElems idx.elements := heq ▸ hn
              obtain ⟨hsc, nd0, hl, hkind⟩ := hel n hn'
              refine ⟨hsc, nd0, ?_, hkind⟩
              rw [hqf n (hsane (n, nd0) (Alist.mem_of_find? hl))]
              exact hl
            · intro n hn
              obtain ⟨hsc, nd0, c0, hl, hkind⟩ := htx n hn
              refine ⟨hsc, nd0, c0, ?_, hkind⟩
              rw [hqf n (hsane (n, nd0) (Alist.mem_of_find? hl))]
              exact hl
          obtain ⟨ihn, ihsane, ihf, ihpnd, ihpel, ihptx, ihnsnd, ihdisj, ihdich⟩ :=
            ih (createElement dom child).2 { idx with elements := elements' } scope
              hqsane hoknew
          have hrootLt : (createElement dom child).1 < (createElement dom child).2.nextId := by
            rw [hq1]
            exact hqn
          have hrootnr :
              (createElement dom child).1 ∉
                (buildNewNodes (createElement dom child).2
                    { idx with elements := elements' } rest).1 := by
            intro hmem2
            rcases ihdich _ hmem2 with ⟨h1, _⟩ | ⟨h1, _⟩
            · have h2 : (createElement dom child).1 ∈ poolIds idx := hpoolEq ▸ h1
              have := hpoolLt _ h2
              rw [hq1] at this
              exact Nat.lt_irrefl _ this
            · exact absurd hrootLt (Nat.not_lt_of_le h1)
          refine ⟨?_, ihsane, ?_, ihpnd, ?_, ihptx, ?_, ?_, ?_⟩
          · exact Nat.le_trans (Nat.le_of_lt hqn) ihn
          · intro id hid
            rw [ihf id (Nat.lt_trans hid hqn)]
            exact hqf id hid
          · intro n hn
            exact heq ▸ ihpel n hn
          · exact List.nodup_cons.mpr ⟨hrootnr, ihnsnd⟩
          · intro n hn
            rcases List.mem_cons.mp hn with h1 | h1
            · subst h1
              intro hc
              have hc2 :
                  (createElement dom child).1 ∈
                    poolIds { idx with elements := elements' } := by
                rcases List.mem_append.mp hc with h4 | h4
                · exact List.mem_append_left _ (ihpel _ h4)
                · exact List.mem_append_right _ (ihptx _ h4)
              have hc3 : (createElement dom child).1 ∈ poolIds idx := hpoolEq ▸ hc2
              have h5 := hpoolLt _ hc3
              rw [hq1] at h5
              exact Nat.lt_irrefl _ h5
            · exact ihdisj n h1
          · intro n hn
            rcases List.mem_cons.mp hn with h1 | h1
            · subst h1
              refine Or.inr ⟨Nat.le_of_eq hq1.symm, ndq, ?_, hqpar⟩
              rw [ihf _ hrootLt]
              exact hqlook
            · rcases ihdich n h1 with ⟨h2, _⟩ | ⟨h2, h3⟩
              · have h4 : n ∈ poolIds idx := hpoolEq ▸ h2
                exact Or.inl ⟨h4, hpoolLt n h4⟩
              · exact Or.inr ⟨Nat.le_trans (Nat.le_of_lt hqn) h2, h3⟩
    | inl s =>
      simp only [buildNewNodes]
      cases hfind : Alist.find? s idx.texts with
      | some node =>
        simp only [hfind]
        have hpermTx :
            List.Perm (textIds idx.texts) (node :: textIds (Alist.erase s idx.texts)) :=
          texts_find_erase idx.texts node hfind
        have hpermIds :
            List.Perm (poolIds idx)
              (node :: poolIds { idx with texts := Alist.erase s idx.texts }) :=
          ((hpermTx.append_left (poolElems idx.elements)).trans List.perm_middle)
        have hndc :
            (node :: poolIds { idx with texts := Alist.erase s idx.texts }).Nodup :=
          hpermIds.nodup_iff.mp hnd
        have hnotin : node ∉ poolIds { idx with texts := Alist.erase s idx.texts } :=
          (List.nodup_cons.mp hndc).1
        have hndnew : (poolIds { idx with texts := Alist.erase s idx.texts }).Nodup :=
          (List.nodup_cons.mp hndc).2
        have hmem : node ∈ textIds idx.texts :=
          hpermTx.mem_iff.mpr (List.mem_cons_self _ _)
        have hnodeLt : node < dom.nextId :=
          hpoolLt node (List.mem_append_right _ hmem)
        have hoknew : idxOk dom { idx with texts := Alist.erase s idx.texts } scope := by
          refine ⟨hndnew, hel, ?_⟩
          intro n hn
          exact htx n (hpermTx.mem_iff.mpr (List.mem_cons_of_mem _ hn))
        obtain ⟨ihn, ihsane, ihf, ihpnd, ihpel, ihptx, ihnsnd, ihdisj, ihdich⟩ :=
          ih dom { idx with texts := Alist.erase s idx.texts } scope hsane hoknew
        have hsubnew :
            ∀ n ∈ poolIds
                (buildNewNodes dom { idx with texts := Alist.erase s idx.texts } rest).2.1,
              n ∈ poolIds { idx with texts := Alist.erase s idx.texts } := by
          intro n hn
          rcases List.mem_append.mp hn with h1 | h1
          · exact List.mem_append_left _ (ihpel n h1)
          · exact List.mem_append_right _ (ihptx n h1)
        have hnodenr :
            node ∉ (buildNewNodes dom { idx with texts := Alist.erase s idx.texts } rest).1 := by
          intro hmem2
          rcases ihdich node hmem2 with ⟨h1, _⟩ | ⟨h1, _⟩
          · exact hnotin h1
          · exact absurd hnodeLt (Nat.not_lt_of_le h1)
        refine ⟨ihn, ihsane, ihf, ihpnd, ihpel, ?_, ?_, ?_, ?_⟩
        · intro n hn
          exact hpermTx.mem_iff.mpr (List.mem_cons_of_mem _ (ihptx n hn))
        · exact List.nodup_cons.mpr ⟨hnodenr, ihnsnd⟩
        · intro n hn
          rcases List.mem_cons.mp hn with h1 | h1
          · subst h1
            exact fun hc => hnotin (hsubnew _ hc)
          · exact ihdisj n h1
        · intro n hn
          rcases List.mem_cons.mp hn with h1 | h1
          · subst h1
            exact Or.inl ⟨List.mem_append_right _ hmem, hnodeLt⟩
          · rcases ihdich n h1 with ⟨h2, _⟩ | ⟨h2, h3⟩
            · have h4 : n ∈ poolIds idx := hpermIds.mem_iff.mpr (List.mem_cons_of_mem _ h2)
              exact Or.inl ⟨h4, hpoolLt n h4⟩
            · exact Or.inr ⟨h2, h3⟩
      | none =>
        simp only [hfind]
        have hplook :
            (dom.createTextNodePrim s).2.lookupNode dom.nextId = some { kind := .text s } :=
          Dom.createTextNodePrim_lookup s hsane
        have hpsane := Dom.idsSane_createTextNodePrim s hsane
        have hoknew : idxOk (dom.createTextNodePrim s).2 idx scope := by
          refine ⟨hnd, ?_, ?_⟩
          · intro n hn
            obtain ⟨hsc, nd0, hl, hkind⟩ := hel n hn
            refine ⟨hsc, nd0, ?_, hkind⟩
            rw [Dom.lookupNode_createTextNodePrim_ne s
              (Nat.ne_of_lt (hsane (n, nd0) (Alist.mem_of_find? hl)))]
            exact hl
          · intro n hn
            obtain ⟨hsc, nd0, c0, hl, hkind⟩ := htx n hn
            refine ⟨hsc, nd0, c0, ?_, hkind⟩
            rw [Dom.lookupNode_createTextNodePrim_ne s
              (Nat.ne_of_lt (hsane (n, nd0) (Alist.mem_of_find? hl)))]
            exact hl
        obtain ⟨ihn, ihsane, ihf, ihpnd, ihpel, ihptx, ihnsnd, ihdisj, ihdich⟩ :=
          ih (dom.createTextNodePrim s).2 idx scope hpsane hoknew
        have hpn : (dom.createTextNodePrim s).2.nextId = dom.nextId + 1 := rfl
        have hrootnr :
            dom.nextId ∉ (buildNewNodes (dom.createTextNodePrim s).2 idx rest).1 := by
          intro hmem2
          rcases ihdich _ hmem2 with ⟨h1, _⟩ | ⟨h1, _⟩
          · exact Nat.lt_irrefl _ (hpoolLt _ h1)
          · rw [hpn] at h1
            exact Nat.not_succ_le_self _ h1
        refine ⟨?_, ihsane, ?_, ihpnd, ihpel, ihptx, ?_, ?_, ?_⟩
        · refine Nat.le_trans ?_ ihn
          rw [hpn]
          exact Nat.le_succ _
        · intro id hid
          rw [ihf id (by rw [hpn]; exact Nat.lt_succ_of_lt hid)]
          exact Dom.lookupNode_createTextNodePrim_ne s (Nat.ne_of_lt hid)
        · exact List.nodup_cons.mpr ⟨hrootnr, ihnsnd⟩
        · intro n hn
          rcases List.mem_cons.mp hn with h1 | h1
          · subst h1
            intro hc
            have hc2 : (dom.createTextNodePrim s).1 ∈ poolIds idx := by
              rcases List.mem_append.mp hc with h4 | h4
              · exact List.mem_append_left _ (ihpel _ h4)
              · exact List.mem_append_right _ (ihptx _ h4)
            exact Nat.lt_irrefl _ (hpoolLt _ hc2)
          · exact ihdisj n h1
        · intro n hn
          rcases List.mem_cons.mp hn with h1 | h1
          · subst h1
            refine Or.inr ⟨Nat.le_refl _, { kind := .text s }, ?_, rfl⟩
            rw [ihf _ (by rw [hpn]; exact Nat.lt_succ_self _)]
            exact hplook
          · rcases ihdich n h1 with ⟨h2, h3⟩ | ⟨h2, h3⟩
            · exact Or.inl ⟨h2, hpoolLt n h2⟩
            · refine Or.inr ⟨?_, h3⟩
              rw [hpn] at h2
              exact Nat.le_trans (Nat.le_succ _) h2

theorem foldl_buckets {β : Type _} (f : β → NodeId → β) :
    ∀ (m : List (String × List NodeId)) (b : β),
      m.foldl (fun acc p => p.2.foldl f acc) b = (poolElems m).foldl f b := by
  intro m
  induction m with
  | nil => intro b; rfl
  | cons q rest ih =>
    intro b
    rw [List.foldl_cons, ih, poolElems_cons, List.foldl_append]

theorem foldl_texts {β : Type _} (f : β → NodeId → β) :
    ∀ (m : List (String × NodeId)) (b : β),
      m.foldl (fun acc p => f acc p.2) b = (textIds m).foldl f b := by
  intro m b
  unfold textIds
  rw [List.foldl_map]

theorem removeLeftovers_eq (dom : Dom) (parent : NodeId) (idx : ChildIndex) :
    removeLeftovers dom parent idx =
      (poolIds idx).foldl (fun acc l => acc.removeChildPrim parent l) dom := by
  unfold removeLeftovers
  simp only []
  rw [foldl_buckets, foldl_texts]
  unfold poolIds
  rw [List.foldl_append]

theorem removeFold_spec (parent : NodeId) :
    ∀ (ls : List NodeId) (dom : Dom) (pd : NodeData),
      dom.lookupNode parent = some pd → (∀ l ∈ ls, l ≠ parent) →
      (ls.foldl (fun acc l => acc.removeChildPrim parent l) dom).lookupNode parent =
          some { pd with children := ls.foldl (fun cs l => cs.erase l) pd.children } ∧
        (∀ id, id ≠ parent → id ∉ ls →
          (ls.foldl (fun acc l => acc.removeChildPrim parent l) dom).lookupNode id =
            dom.lookupNode id) := by
  intro ls
  induction ls with
  | nil =>
    intro dom pd hp _
    constructor
    · rw [List.foldl_nil, List.foldl_nil, hp]
    · intro id _ _
      rw [List.foldl_nil]
  | cons l rest ih =>
    intro dom pd hp hnp
    have hlp : l ≠ parent := hnp l (List.mem_cons_self _ _)
    have hp1 :
        (dom.removeChildPrim parent l).lookupNode parent =
          some { pd with children := pd.children.erase l } := by
      unfold Dom.removeChildPrim
      rw [Dom.lookupNode_logOp, Dom.lookupNode_modifyNode_ne _ _ _ (Ne.symm hlp),
        Dom.lookupNode_modifyNode_self, hp]
      rfl
    have hframe1 : ∀ id, id ≠ parent → id ≠ l →
        (dom.removeChildPrim parent l).lookupNode id = dom.lookupNode id := by
      intro id h1 h2
      unfold Dom.removeChildPrim
      rw [Dom.lookupNode_logOp, Dom.lookupNode_modifyNode_ne _ _ _ h2,
        Dom.lookupNode_modifyNode_ne _ _ _ h1]
    obtain ⟨ih1, ih2⟩ :=
      ih (dom.removeChildPrim parent l) { pd with children := pd.children.erase l } hp1
        (fun l' h => hnp l' (List.mem_cons_of_mem _ h))
    constructor
    · rw [List.foldl_cons, List.foldl_cons]
      exact ih1
    · intro id h1 h2
      rw [List.foldl_cons,
        ih2 id h1 (fun h => h2 (List.mem_cons_of_mem _ h)),
        hframe1 id h1 (fun h => h2 (h ▸ List.mem_cons_self _ _))]

theorem filter_notmem_cons (l : List NodeId) (n : NodeId) (rest : List NodeId) :
    l.filter (fun c => c ∉ n :: rest) =
      (l.filter (fun c => c ∉ rest)).filter (fun c => c ≠ n) := by
  rw [List.filter_filter]
  apply List.filter_congr
  intro c _
  by_cases h1 : c = n <;> by_cases h2 : c ∈ rest <;> simp [h1, h2]

theorem filter_ne_eq_self {l : List NodeId} {n : NodeId} (h : n ∉ l) :
    l.filter (fun c => c ≠ n) = l := by
  apply List.filter_eq_self.mpr
  intro a ha
  exact decide_eq_true (fun he => h (he ▸ ha))

theorem not_mem_of_mem_filter_notmem {l rest : List NodeId} {c : NodeId}
    (h : c ∈ l.filter (fun x => x ∉ rest)) : c ∉ rest := by
  have h2 := List.of_mem_filter h
  exact of_decide_eq_true h2

theorem Dom.parentOf_eq_of_lookup {dom : Dom} {id : NodeId} {nd : NodeData}
    (h : dom.lookupNode id = some nd) : dom.parentOf id = nd.parent := by
  unfold Dom.parentOf
  rw [h]

theorem Dom.placeNode_specA {dom : Dom} {parent n : NodeId} {pd1 nd : NodeData}
    (ref : Option NodeId) (hne : n ≠ parent)
    (hp : dom.lookupNode parent = some pd1) (hn : dom.lookupNode n = some nd)
    (hpar : nd.parent = some parent) :
    (dom.placeNode parent n ref).lookupNode parent =
        some { pd1 with children := Dom.insertIntoList n ref (pd1.children.erase n) } ∧
      (dom.placeNode parent n ref).lookupNode n = some { nd with parent := some parent } ∧
      (∀ m, m ≠ parent → m ≠ n →
        (dom.placeNode parent n ref).lookupNode m = dom.lookupNode m) := by
  have hpo : dom.parentOf n = some parent := (Dom.parentOf_eq_of_lookup hn).trans hpar
  have hdet : dom.detach n =
      (dom.modifyNode parent fun nd' =>
        { nd' with children := nd'.children.erase n }).modifyNode
        n fun nd' => { nd' with parent := none } := by
    unfold Dom.detach
    rw [hpo]
  unfold Dom.placeNode
  rw [hdet]
  refine ⟨?_, ?_, ?_⟩
  · rw [Dom.lookupNode_modifyNode_ne _ _ _ (Ne.symm hne), Dom.lookupNode_modifyNode_self,
      Dom.lookupNode_modifyNode_ne _ _ _ (Ne.symm hne), Dom.lookupNode_modifyNode_self, hp]
    rfl
  · rw [Dom.lookupNode_modifyNode_self, Dom.lookupNode_modifyNode_ne _ _ _ hne,
      Dom.lookupNode_modifyNode_self, Dom.lookupNode_modifyNode_ne _ _ _ hne, hn]
    rfl
  · intro m h1 h2
    rw [Dom.lookupNode_modifyNode_ne _ _ _ h2, Dom.lookupNode_modifyNode_ne _ _ _ h1,
      Dom.lookupNode_modifyNode_ne _ _ _ h2, Dom.lookupNode_modifyNode_ne _ _ _ h1]

theorem Dom.placeNode_specB {dom : Dom} {parent n : NodeId} {pd1 nd : NodeData}
    (ref : Option NodeId) (hne : n ≠ parent)
    (hp : dom.lookupNode parent = some pd1) (hn : dom.lookupNode n = some nd)
    (hpar : nd.parent = none) :
    (dom.placeNode parent n ref).lookupNode parent =
        some { pd1 with children := Dom.insertIntoList n ref pd1.children } ∧
      (dom.placeNode parent n ref).lookupNode n = some { nd with parent := some parent } ∧
      (∀ m, m ≠ parent → m ≠ n →
        (dom.placeNode parent n ref).lookupNode m = dom.lookupNode m) := by
  have hpo : dom.parentOf n = none := (Dom.parentOf_eq_of_lookup hn).trans hpar
  unfold Dom.placeNode
  rw [Dom.detach_of_no_parent hpo]
  refine ⟨?_, ?_, ?_⟩
  · rw [Dom.lookupNode_modifyNode_ne _ _ _ (Ne.symm hne), Dom.lookupNode_modifyNode_self, hp]
    rfl
  · rw [Dom.lookupNode_modifyNode_self, Dom.lookupNode_modifyNode_ne _ _ _ hne, hn]
    rfl
  · intro m h1 h2
    rw [Dom.lookupNode_modifyNode_ne _ _ _ h2, Dom.lookupNode_modifyNode_ne _ _ _ h1]

theorem placeOne_spec (dom1 : Dom) (parent n : NodeId) (pd1 nd : NodeData)
    (Lr rest : List NodeId)
    (hp1 : dom1.lookupNode parent = some pd1)
    (hch : pd1.children = Lr ++ rest)
    (hn : dom1.lookupNode n = some nd)
    (hnne : n ≠ parent)
    (hnrest : n ∉ rest)
    (hnodup : (Lr ++ rest).Nodup)
    (hdich : (nd.parent = some parent ∧ n ∈ Lr) ∨ (nd.parent = none ∧ n ∉ Lr)) :
    (placeOne dom1 parent n rest.head?).lookupNode parent =
        some { pd1 with children := Lr.filter (fun c => c ≠ n) ++ n :: rest } ∧
      (placeOne dom1 parent n rest.head?).lookupNode n =
        some { nd with parent := some parent } ∧
      (∀ m, m ≠ parent → m ≠ n →
        (placeOne dom1 parent n rest.head?).lookupNode m = dom1.lookupNode m) := by
  have hLrnd : Lr.Nodup := (List.nodup_append.mp hnodup).1
  have hdisjLr : ∀ c ∈ Lr, c ∉ rest := fun c hc hr =>
    (List.nodup_append.mp hnodup).2.2 hc hr
  have hcn : dom1.childNodes parent = pd1.children := by
    unfold Dom.childNodes
    rw [hp1]
  rcases hdich with ⟨hpar, hmemLr⟩ | ⟨hpar, hnmem⟩
  · obtain ⟨La, Lb, hLab⟩ := List.append_of_mem hmemLr
    have hnLa : n ∉ La ∧ n ∉ Lb := by
      rw [hLab] at hLrnd
      have h1 := List.nodup_append.mp hLrnd
      exact ⟨fun hmem2 => h1.2.2 hmem2 (List.mem_cons_self _ _),
        (List.nodup_cons.mp h1.2.1).1⟩
    have hpo : dom1.parentOf n = some parent := (Dom.parentOf_eq_of_lookup hn).trans hpar
    have hchA : pd1.children = La ++ n :: (Lb ++ rest) := by
      rw [hch, hLab, List.append_assoc, List.cons_append]
    have hsib : dom1.nextSiblingOf n = (Lb ++ rest).head? := by
      unfold Dom.nextSiblingOf
      rw [hpo]
      show Dom.nextInList n (dom1.childNodes parent) = _
      rw [hcn, hchA]
      exact nextInList_eq n La (Lb ++ rest) hnLa.1
    unfold placeOne
    rw [if_pos hpo]
    by_cases hmove : dom1.nextSiblingOf n = rest.head?
    · rw [if_neg (fun hc => hc hmove)]
      have hLb : Lb = [] := by
        rw [hsib] at hmove
        cases hLbe : Lb with
        | nil => rfl
        | cons b bs =>
          exfalso
          rw [hLbe] at hmove
          have hbLr : b ∈ Lr := by
            rw [hLab, hLbe]
            exact List.mem_append_right _ (List.mem_cons_of_mem _ (List.mem_cons_self _ _))
          have hbmem : b ∈ rest := by
            cases rest with
            | nil => exact absurd hmove (by simp)
            | cons r rs =>
              have hbr : b = r := by simpa using hmove
              rw [hbr]
              exact List.mem_cons_self _ _
          exact hdisjLr b hbLr hbmem
      subst hLb
      have hLreq : Lr.filter (fun c => c ≠ n) = La := by
        rw [hLab, List.filter_append]
        have h1 : La.filter (fun c => c ≠ n) = La := filter_ne_eq_self hnLa.1
        have h2 : (n :: []).filter (fun c => c ≠ n) = [] := by simp
        rw [h1, h2, List.append_nil]
      have hpd1eq : pd1.children = Lr.filter (fun c => c ≠ n) ++ n :: rest := by
        rw [hch, hLreq, hLab, List.append_assoc, List.cons_append, List.nil_append]
      refine ⟨?_, ?_, fun m _ _ => rfl⟩
      · rw [hp1, ← hpd1eq]
      · rw [hn, ← hpar]
    · rw [if_pos hmove]
      obtain ⟨hA1, hA2, hA3⟩ := Dom.placeNode_specA rest.head? hnne hp1 hn hpar
      have herase : pd1.children.erase n = La ++ (Lb ++ rest) := by
        rw [hchA]
        exact erase_append_cons n La (Lb ++ rest) hnLa.1
      have hLrflt : Lr.filter (fun c => c ≠ n) = La ++ Lb := by
        rw [hLab, List.filter_append]
        have h1 : La.filter (fun c => c ≠ n) = La := filter_ne_eq_self hnLa.1
        have h2 : (n :: Lb).filter (fun c => c ≠ n) = Lb := by
          simp only [List.filter_cons]
          rw [if_neg (by simp)]
          exact filter_ne_eq_self hnLa.2
        rw [h1, h2]
      have hins :
          Dom.insertIntoList n rest.head? (pd1.children.erase n) =
            (La ++ Lb) ++ n :: rest := by
        rw [herase]
        cases rest with
        | nil =>
          show Dom.insertIntoList n none (La ++ (Lb ++ [])) = (La ++ Lb) ++ n :: []
          rw [insertIntoList_none, List.append_nil]
        | cons r rest2 =>
          have hrnotin : r ∉ La ++ Lb := by
            intro hmem2
            have hrLr : r ∈ Lr := by
              rw [hLab]
              rcases List.mem_append.mp hmem2 with h | h
              · exact List.mem_append_left _ h
              · exact List.mem_append_right _ (List.mem_cons_of_mem _ h)
            exact hdisjLr r hrLr (List.mem_cons_self _ _)
          show Dom.insertIntoList n (some r) (La ++ (Lb ++ r :: rest2)) =
            (La ++ Lb) ++ n :: r :: rest2
          rw [← List.append_assoc,
            insertIntoList_append_left n r (La ++ Lb) (r :: rest2) hrnotin,
            insertIntoList_cons_self]
      cases hsmb : dom1.supportsMoveBefore with
      | true =>
        rw [if_pos rfl]
        unfold Dom.moveBeforePrim
        refine ⟨?_, ?_, ?_⟩
        · rw [Dom.lookupNode_logOp, hA1, hins, hLrflt]
        · rw [Dom.lookupNode_logOp, hA2]
        · intro m h1 h2
          rw [Dom.lookupNode_logOp, hA3 m h1 h2]
      | false =>
        rw [if_neg Bool.false_ne_true]
        unfold Dom.insertBeforePrim
        refine ⟨?_, ?_, ?_⟩
        · rw [Dom.lookupNode_logOp, hA1, hins, hLrflt]
        · rw [Dom.lookupNode_logOp, hA2]
        · intro m h1 h2
          rw [Dom.lookupNode_logOp, hA3 m h1 h2]
  · have hpo : dom1.parentOf n = none := (Dom.parentOf_eq_of_lookup hn).trans hpar
    unfold placeOne
    have hcond : ¬ dom1.parentOf n = some parent := by
      rw [hpo]
      exact fun hc => Option.noConfusion hc
    rw [if_neg hcond]
    unfold Dom.insertBeforePrim
    obtain ⟨hB1, hB2, hB3⟩ := Dom.placeNode_specB rest.head? hnne hp1 hn hpar
    have hins : Dom.insertIntoList n rest.head? pd1.children = Lr ++ n :: rest := by
      rw [hch]
      cases rest with
      | nil =>
        show Dom.insertIntoList n none (Lr ++ []) = Lr ++ n :: []
        rw [insertIntoList_none, List.append_nil]
      | cons r rest2 =>
        have hrnotin : r ∉ Lr := fun hm2 => hdisjLr r hm2 (List.mem_cons_self _ _)
        show Dom.insertIntoList n (some r) (Lr ++ r :: rest2) = Lr ++ n :: r :: rest2
        rw [insertIntoList_append_left n r Lr (r :: rest2) hrnotin, insertIntoList_cons_self]
    refine ⟨?_, ?_, ?_⟩
    · rw [Dom.lookupNode_logOp, hB1, hins, filter_ne_eq_self hnmem]
    · rw [Dom.lookupNode_logOp, hB2]
    · intro m h1 h2
      rw [Dom.lookupNode_logOp, hB3 m h1 h2]

theorem placeNewNodes_spec (parent : NodeId) :
    ∀ (ns : List NodeId) (dom : Dom) (pd : NodeData),
      dom.lookupNode parent = some pd → pd.children.Nodup → ns.Nodup →
      (∀ n ∈ ns, n ≠ parent) →
      (∀ n ∈ ns, ∃ nd, dom.lookupNode n = some nd ∧
        ((nd.parent = some parent ∧ n ∈ pd.children) ∨
          (nd.parent = none ∧ n ∉ pd.children))) →
      (placeNewNodes dom parent ns).lookupNode parent =
          some { pd with children := pd.children.filter (fun c => c ∉ ns) ++ ns } ∧
        (∀ n ∈ ns, (placeNewNodes dom parent ns).parentOf n = some parent) ∧
        (∀ id, id ≠ parent → id ∉ ns →
          (placeNewNodes dom parent ns).lookupNode id = dom.lookupNode id) := by
  intro ns
  induction ns with
  | nil =>
    intro dom pd hp hpdnd hns hnp hmem
    refine ⟨?_, fun m hm => absurd hm (List.not_mem_nil m), fun id _ _ => rfl⟩
    have hf : pd.children.filter (fun c => c ∉ ([] : List NodeId)) = pd.children :=
      List.filter_eq_self.mpr (fun a _ => decide_eq_true (List.not_mem_nil a))
    exact hp.trans (congrArg some (by rw [hf, List.append_nil]))
  | cons n rest ih =>
    intro dom pd hp hpdnd hns hnp hmem
    have hn_rest : n ∉ rest := (List.nodup_cons.mp hns).1
    have hrest_nd : rest.Nodup := (List.nodup_cons.mp hns).2
    have hn_np : n ≠ parent := hnp n (List.mem_cons_self _ _)
    obtain ⟨ih1, ih2, ih3⟩ := ih dom pd hp hpdnd hrest_nd
      (fun m hm => hnp m (List.mem_cons_of_mem _ hm))
      (fun m hm => hmem m (List.mem_cons_of_mem _ hm))
    obtain ⟨nd, hndlk, hdich⟩ := hmem n (List.mem_cons_self _ _)
    have hndlk1 : (placeNewNodes dom parent rest).lookupNode n = some nd :=
      (ih3 n hn_np hn_rest).trans hndlk
    have hnodup :
        (pd.children.filter (fun c => c ∉ rest) ++ rest).Nodup := by
      refine List.nodup_append.mpr ⟨hpdnd.filter _, hrest_nd, ?_⟩
      intro c hc hr
      exact not_mem_of_mem_filter_notmem hc hr
    have hdichLr :
        (nd.parent = some parent ∧ n ∈ pd.children.filter (fun c => c ∉ rest)) ∨
          (nd.parent = none ∧ n ∉ pd.children.filter (fun c => c ∉ rest)) := by
      rcases hdich with ⟨hpar, hm⟩ | ⟨hpar, hm⟩
      · exact Or.inl ⟨hpar, List.mem_filter.mpr ⟨hm, decide_eq_true hn_rest⟩⟩
      · exact Or.inr ⟨hpar, fun hmem2 => hm (List.mem_of_mem_filter hmem2)⟩
    obtain ⟨hC1, hC2, hC3⟩ :=
      placeOne_spec (placeNewNodes dom parent rest) parent n
        { pd with children := pd.children.filter (fun c => c ∉ rest) ++ rest } nd
        (pd.children.filter (fun c => c ∉ rest)) rest ih1 rfl hndlk1 hn_np hn_rest
        hnodup hdichLr
    simp only [placeNewNodes]
    refine ⟨?_, ?_, ?_⟩
    · rw [filter_notmem_cons pd.children n rest]
      exact hC1
    · intro m hm
      rcases List.mem_cons.mp hm with h1 | h1
      · subst h1
        rw [Dom.parentOf_eq_of_lookup hC2]
      · have hm_ne_n : m ≠ n := fun he => hn_rest (he ▸ h1)
        have hm_np : m ≠ parent := hnp m (List.mem_cons_of_mem _ h1)
        have heq :
            (placeOne (placeNewNodes dom parent rest) parent n rest.head?).parentOf m =
              (placeNewNodes dom parent rest).parentOf m := by
          unfold Dom.parentOf
          rw [hC3 m hm_np hm_ne_n]
        rw [heq]
        exact ih2 m h1
    · intro id h1 h2
      rw [hC3 id h1 (fun he => h2 (by rw [he]; exact List.mem_cons_self _ _))]
      exact ih3 id h1 (fun hr => h2 (List.mem_cons_of_mem _ hr))

theorem updateChildren_spec (dom : Dom) (parent : NodeId)
    (children : List (String ⊕ VDom)) (pd : NodeData)
    (ns : List NodeId) (idx2 : ChildIndex) (dom2 : Dom)
    (hwf : dom.WF) (hp : dom.lookupNode parent = some pd)
    (hB : buildNewNodes dom (indexChildren dom (dom.childNodes parent)) children =
      (ns, idx2, dom2)) :
    (updateChildren dom parent children).lookupNode parent =
        some { pd with children := (pd.children.filter (fun c => c ∉ poolIds idx2)).filter (fun c => c ∉ ns) ++ ns } ∧
      (∀ n ∈ ns, (updateChildren dom parent children).parentOf n = some parent) ∧
      (∀ id, id ≠ parent → id ∉ ns → id ∉ poolIds idx2 → id < dom.nextId →
        (updateChildren dom parent children).lookupNode id = dom.lookupNode id) ∧
      ns.Nodup := by
  have hsane : dom.idsSane := hwf.idsBelow
  have hpmem : (parent, pd) ∈ dom.nodes := Alist.mem_of_find? hp
  have parentLt : parent < dom.nextId := hsane (parent, pd) hpmem
  have hcn : dom.childNodes parent = pd.children := by
    unfold Dom.childNodes
    rw [hp]
  have hchildNodup : pd.children.Nodup := hwf.childrenNodup (parent, pd) hpmem
  have hchildLookup : ∀ c0 ∈ pd.children,
      ∃ cd0, dom.lookupNode c0 = some cd0 ∧ cd0.parent = some parent := by
    intro c0 hc0
    have h1 := hwf.childParent (parent, pd) hpmem c0 hc0
    rcases Option.map_eq_some'.mp h1 with ⟨cd0, hcd0, hcdp⟩
    exact ⟨cd0, hcd0, hcdp⟩
  have hchildLt : ∀ c0 ∈ pd.children, c0 < dom.nextId := by
    intro c0 hc0
    obtain ⟨cd0, hcd0, _⟩ := hchildLookup c0 hc0
    exact hsane (c0, cd0) (Alist.mem_of_find? hcd0)
  have hchildNotParent : ∀ c0 ∈ pd.children, c0 ≠ parent := by
    intro c0 hc0 he
    obtain ⟨cd0, hcd0, hcdp⟩ := hchildLookup c0 hc0
    rw [he] at hcd0
    have he2 : cd0 = pd := Option.some.inj (hcd0.symm.trans hp)
    exact hwf.noSelfParent (parent, pd) hpmem (he2 ▸ hcdp)
  have hidx : idxOk dom (indexChildren dom (dom.childNodes parent))
      (dom.childNodes parent) :=
    indexChildren_ok dom _ (by rw [hcn]; exact hchildNodup)
  obtain ⟨hbn, hbsane, hbf, hbpnd, hbpel, hbptx, hbnsnd, hbdisj, hbdich⟩ :=
    buildNewNodes_spec children dom (indexChildren dom (dom.childNodes parent))
      (dom.childNodes parent) hsane hidx
  have hB1 : (buildNewNodes dom (indexChildren dom (dom.childNodes parent)) children).1 =
      ns := by rw [hB]
  have hB21 : (buildNewNodes dom (indexChildren dom (dom.childNodes parent)) children).2.1 =
      idx2 := by rw [hB]
  have hB22 : (buildNewNodes dom (indexChildren dom (dom.childNodes parent)) children).2.2 =
      dom2 := by rw [hB]
  rw [hB22] at hbn hbf
  rw [hB21] at hbpnd hbpel hbptx
  rw [hB1] at hbnsnd
  rw [hB1, hB21] at hbdisj
  rw [hB1, hB22] at hbdich
  have hpoolsub : ∀ n ∈ poolIds idx2,
      n ∈ poolIds (indexChildren dom (dom.childNodes parent)) := by
    intro n hn
    rcases List.mem_append.mp hn with h1 | h1
    · exact List.mem_append_left _ (hbpel n h1)
    · exact List.mem_append_right _ (hbptx n h1)
  have hpoolchild : ∀ n ∈ poolIds (indexChildren dom (dom.childNodes parent)),
      n ∈ pd.children := by
    intro n hn
    rcases List.mem_append.mp hn with h1 | h1
    · have h2 := (hidx.2.1 n h1).1
      rw [hcn] at h2
      exact h2
    · have h2 := (hidx.2.2 n h1).1
      rw [hcn] at h2
      exact h2
  have hp2 : dom2.lookupNode parent = some pd := (hbf parent parentLt).trans hp
  have hlsne : ∀ l ∈ poolIds idx2, l ≠ parent := fun l hl =>
    hchildNotParent l (hpoolchild l (hpoolsub l hl))
  have hrEq : removeLeftovers dom2 parent idx2 =
      (poolIds idx2).foldl (fun acc l => acc.removeChildPrim parent l) dom2 :=
    removeLeftovers_eq dom2 parent idx2
  obtain ⟨hr1, hr2⟩ := removeFold_spec parent (poolIds idx2) dom2 pd hp2 hlsne
  have hp3 : (removeLeftovers dom2 parent idx2).lookupNode parent =
      some { pd with children := pd.children.filter (fun c => c ∉ poolIds idx2) } := by
    rw [hrEq]
    exact hr1.trans (congrArg (fun l => some { pd with children := l })
      (eraseFold_eq_filter (poolIds idx2) pd.children hchildNodup))
  have hr2f : ∀ id, id ≠ parent → id ∉ poolIds idx2 →
      (removeLeftovers dom2 parent idx2).lookupNode id = dom2.lookupNode id := by
    intro id h1 h2
    rw [hrEq]
    exact hr2 id h1 h2
  have hnsnp : ∀ n ∈ ns, n ≠ parent := by
    intro n hn
    rcases hbdich n hn with ⟨h1, _⟩ | ⟨h1, _⟩
    · exact hchildNotParent n (hpoolchild n h1)
    · intro he
      rw [he] at h1
      exact absurd parentLt (Nat.not_lt_of_le h1)
  have hmem3 : ∀ n ∈ ns,
      ∃ nd, (removeLeftovers dom2 parent idx2).lookupNode n = some nd ∧
        ((nd.parent = some parent ∧
            n ∈ pd.children.filter (fun c => c ∉ poolIds idx2)) ∨
          (nd.parent = none ∧
            n ∉ pd.children.filter (fun c => c ∉ poolIds idx2))) := by
    intro n hn
    have hnp : n ≠ parent := hnsnp n hn
    have hnpool2 : n ∉ poolIds idx2 := hbdisj n hn
    rcases hbdich n hn with ⟨h1, hlt⟩ | ⟨hge, nd, hnd2, hndp⟩
    · have hnchild : n ∈ pd.children := hpoolchild n h1
      obtain ⟨cd, hcd, hcdp⟩ := hchildLookup n hnchild
      refine ⟨cd, ?_, Or.inl ⟨hcdp, List.mem_filter.mpr ⟨hnchild, decide_eq_true hnpool2⟩⟩⟩
      rw [hr2f n hnp hnpool2, hbf n hlt]
      exact hcd
    · refine ⟨nd, ?_, Or.inr ⟨hndp, ?_⟩⟩
      · rw [hr2f n hnp hnpool2]
        exact hnd2
      · intro hmem2
        have h3 : n ∈ pd.children := List.mem_of_mem_filter hmem2
        exact absurd (hchildLt n h3) (Nat.not_lt_of_le hge)
  obtain ⟨hP1, hP2, hP3⟩ :=
    placeNewNodes_spec parent ns (removeLeftovers dom2 parent idx2)
      { pd with children := pd.children.filter (fun c => c ∉ poolIds idx2) } hp3
      (hchildNodup.filter _) hbnsnd hnsnp hmem3
  unfold updateChildren
  simp only []
  rw [hB1, hB21, hB22]
  refine ⟨hP1, hP2, ?_, hbnsnd⟩
  intro id h1 h2 h3 h4
  rw [hP3 id h1 h2, hr2f id h1 h3, hbf id h4]

/-- C9 (confirmed): after `updateChildren(parent, children)` returns, the
nodes computed for the new children sequence (`newNodes`, the output of
the matching pass) are all children of the parent, form a suffix of the
parent's child list — hence are contiguous and appear in exactly the
order of the sequence — and each one's immediate next sibling is the next
computed node, with the last one's next sibling `null`.  Stated over any
well-formed document in which the parent exists. -/
theorem claim_C9_new_children_contiguous (dom : Dom) (parent : NodeId)
    (children : List (String ⊕ VDom)) (pd : NodeData)
    (ns : List NodeId) (idx2 : ChildIndex) (dom2 : Dom)
    (hwf : dom.WF) (hp : dom.lookupNode parent = some pd)
    (hB : buildNewNodes dom (indexChildren dom (dom.childNodes parent)) children =
      (ns, idx2, dom2)) :
    (∀ n ∈ ns, (updateChildren dom parent children).parentOf n = some parent) ∧
      (∃ pre, pre ++ ns = (updateChildren dom parent children).childNodes parent) ∧
      (∀ xs n rest, ns = xs ++ n :: rest →
        (updateChildren dom parent children).nextSiblingOf n = rest.head?) := by
  obtain ⟨H1, H2, H3, H4⟩ :=
    updateChildren_spec dom parent children pd ns idx2 dom2 hwf hp hB
  have hchn : (updateChildren dom parent children).childNodes parent =
      (pd.children.filter (fun c => c ∉ poolIds idx2)).filter (fun c => c ∉ ns) ++ ns := by
    unfold Dom.childNodes
    rw [H1]
  refine ⟨H2, ⟨_, hchn.symm⟩, ?_⟩
  intro xs n rest hns
  have hnmem : n ∈ ns := by
    rw [hns]
    exact List.mem_append_right _ (List.mem_cons_self _ _)
  have hpar := H2 n hnmem
  unfold Dom.nextSiblingOf
  rw [hpar]
  show Dom.nextInList n ((updateChildren dom parent children).childNodes parent) = rest.head?
  rw [hchn, hns, ← List.append_assoc]
  refine nextInList_eq n _ rest ?_
  intro hmem2
  rcases List.mem_append.mp hmem2 with h1 | h1
  · exact not_mem_of_mem_filter_notmem h1
      (List.mem_append_right _ (List.mem_cons_self _ _))
  · rw [hns] at H4
    exact (List.nodup_append.mp H4).2.2 h1 (List.mem_cons_self _ _)

/-- C10 (confirmed): a child of the parent that is neither an element nor
a text node (modelled by a comment node) is never indexed, matched, or
removed by `updateChildren`: after the call its node record is completely
unchanged — same kind, attributes, listeners, children, and parent
pointer — and it is still listed among the parent's children; only its
position among its siblings can differ.  Stated over any well-formed
document in which the parent exists and has such a child. -/
theorem claim_C10_comment_child_untouched (dom : Dom) (parent c : NodeId)
    (children : List (String ⊕ VDom)) (pd cd : NodeData) (content : String)
    (ns : List NodeId) (idx2 : ChildIndex) (dom2 : Dom)
    (hwf : dom.WF) (hp : dom.lookupNode parent = some pd)
    (hB : buildNewNodes dom (indexChildren dom (dom.childNodes parent)) children =
      (ns, idx2, dom2))
    (hc : c ∈ pd.children) (hcd : dom.lookupNode c = some cd)
    (hkind : cd.kind = .comment content) :
    (updateChildren dom parent children).lookupNode c = some cd ∧
      c ∈ (updateChildren dom parent children).childNodes parent := by
  have hsane : dom.idsSane := hwf.idsBelow
  have hpmem : (parent, pd) ∈ dom.nodes := Alist.mem_of_find? hp
  have hcn : dom.childNodes parent = pd.children := by
    unfold Dom.childNodes
    rw [hp]
  have hchildNodup : pd.children.Nodup := hwf.childrenNodup (parent, pd) hpmem
  have hidx : idxOk dom (indexChildren dom (dom.childNodes parent))
      (dom.childNodes parent) :=
    indexChildren_ok dom _ (by rw [hcn]; exact hchildNodup)
  obtain ⟨hbn, hbsane, hbf, hbpnd, hbpel, hbptx, hbnsnd, hbdisj, hbdich⟩ :=
    buildNewNodes_spec children dom (indexChildren dom (dom.childNodes parent))
      (dom.childNodes parent) hsane hidx
  have hB1 : (buildNewNodes dom (indexChildren dom (dom.childNodes parent)) children).1 =
      ns := by rw [hB]
  have hB21 : (buildNewNodes dom (indexChildren dom (dom.childNodes parent)) children).2.1 =
      idx2 := by rw [hB]
  rw [hB21] at hbpel hbptx
  rw [hB1] at hbdich
  have hclt : c < dom.nextId := hsane (c, cd) (Alist.mem_of_find? hcd)
  have hcpool : c ∉ poolIds (indexChildren dom (dom.childNodes parent)) := by
    intro hmem2
    rcases List.mem_append.mp hmem2 with h1 | h1
    · obtain ⟨_, nd0, hl0, hk0⟩ := hidx.2.1 c h1
      have he : nd0 = cd := Option.some.inj (hl0.symm.trans hcd)
      rw [he, hkind] at hk0
      exact Bool.false_ne_true hk0
    · obtain ⟨_, nd0, c0, hl0, hk0⟩ := hidx.2.2 c h1
      have he : nd0 = cd := Option.some.inj (hl0.symm.trans hcd)
      rw [he, hkind] at hk0
      exact NodeKind.noConfusion hk0
  have hcpool2 : c ∉ poolIds idx2 := by
    intro hmem2
    apply hcpool
    rcases List.mem_append.mp hmem2 with h1 | h1
    · exact List.mem_append_left _ (hbpel c h1)
    · exact List.mem_append_right _ (hbptx c h1)
  have hcns : c ∉ ns := by
    intro hmem2
    rcases hbdich c hmem2 with ⟨h1, _⟩ | ⟨h1, _⟩
    · exact hcpool h1
    · exact absurd hclt (Nat.not_lt_of_le h1)
  have hcnp : c ≠ parent := by
    intro he
    have h1 := hwf.childParent (parent, pd) hpmem c hc
    rcases Option.map_eq_some'.mp h1 with ⟨cd0, hcd0, hcdp⟩
    rw [he] at hcd0
    have he2 : cd0 = pd := Option.some.inj (hcd0.symm.trans hp)
    exact hwf.noSelfParent (parent, pd) hpmem (he2 ▸ hcdp)
  obtain ⟨H1, H2, H3, H4⟩ :=
    updateChildren_spec dom parent children pd ns idx2 dom2 hwf hp hB
  refine ⟨?_, ?_⟩
  · rw [H3 c hcnp hcns hcpool2 hclt]
    exact hcd
  · have hchn : (updateChildren dom parent children).childNodes parent =
        (pd.children.filter (fun c => c ∉ poolIds idx2)).filter (fun c => c ∉ ns) ++ ns := by
      unfold Dom.childNodes
      rw [H1]
    rw [hchn]
    exact List.mem_append_left _
      (List.mem_filter.mpr
        ⟨List.mem_filter.mpr ⟨hc, decide_eq_true hcpool2⟩, decide_eq_true hcns⟩)

theorem claim_C9_new_children_contiguous_witness :
    (∀ n ∈ (buildNewNodes c9Dom (indexChildren c9Dom (c9Dom.childNodes 0)) [.inl "b", .inl "hello"]).1, (updateChildren c9Dom 0 [.inl "b", .inl "hello"]).parentOf n = some 0) ∧
      (∃ pre, pre ++ (buildNewNodes c9Dom (indexChildren c9Dom (c9Dom.childNodes 0)) [.inl "b", .inl "hello"]).1 = (updateChildren c9Dom 0 [.inl "b", .inl "hello"]).childNodes 0) ∧
      (∀ xs n rest, (buildNewNodes c9Dom (indexChildren c9Dom (c9Dom.childNodes 0)) [.inl "b", .inl "hello"]).1 = xs ++ n :: rest → (updateChildren c9Dom 0 [.inl "b", .inl "hello"]).nextSiblingOf n = rest.head?) :=
  claim_C9_new_children_contiguous c9Dom 0 [.inl "b", .inl "hello"]
    { kind := .element "div" none, children := [1] } _ _ _
    ⟨by decide, by decide, by decide, by decide, by decide, by decide⟩ (by decide) rfl

theorem claim_C10_comment_child_untouched_witness :
    (updateChildren c10Dom 0 [.inl "t"]).lookupNode 1 =
        some { kind := .comment "x", parent := some 0 } ∧
      1 ∈ (updateChildren c10Dom 0 [.inl "t"]).childNodes 0 :=
  claim_C10_comment_child_untouched c10Dom 0 1 [.inl "t"]
    { kind := .element "div" none, children := [1] }
    { kind := .comment "x", parent := some 0 } "x" _ _ _
    ⟨by decide, by decide, by decide, by decide, by decide, by decide⟩
    (by decide) rfl (by decide) (by decide) (by decide)
